import Mathlib

/-! # Minimal triangulation (MCS-M and LB-Triang): model and verification

A shallow embedding of `src/MinimalTriangulator.cpp` of the
TreeDecompositionEnumeration repository.  Pure functions of the source become
Lean functions, loops become folds or fuelled recursions, `vector<bool>` flags
become Boolean-valued functions, and `std::set` values become ascending lists.

The graph container and the weighted priority queue are not part of the
translated source file; they are modelled from the specification (sections 3
and 6) and marked as such.
-/

namespace tdenum

/-! ## Data model -/

/-! A node (`Node` in the source) is an integer identifier in `[0, n)`, here a `Nat`.  A
`std::set<Node>` (`NodeSet` in the source) is the list of its members in ascending order,
without repetition. -/

/-- Insertion into a `std::set` kept as an ascending list (`lt` is the strict order of the
keys); inserting a member that is already present changes nothing. -/
def setInsert {α : Type} [DecidableEq α] (lt : α → α → Bool) (a : α) : List α → List α
  | [] => [a]
  | b :: l => if a = b then b :: l else if lt a b then a :: b :: l else b :: setInsert lt a l

/-- The strict order of `std::set<Node>` keys. -/
def nodeLt (a b : Nat) : Bool := decide (a < b)

/-- The strict (lexicographic) order `std::set<Node>` values are compared with when they are
themselves keys of a `std::set< std::set<Node> >`. -/
def nodeSetLt : List Nat → List Nat → Bool
  | [], [] => false
  | [], _ :: _ => true
  | _ :: _, [] => false
  | a :: l, b :: m => decide (a < b) || (a == b && nodeSetLt l m)

/-- Modelled from the spec: the Graph service (sections 3 and 6), whose class is declared
outside the translated file.  A graph is a node count `n` (the nodes are `0 .. n-1`) and an
adjacency relation. -/
structure Graph where
  numberOfNodes : Nat
  adj : Nat → Nat → Bool

namespace Graph

/-- Modelled from the spec: `nodeCount()`. -/
def getNumberOfNodes (g : Graph) : Nat := g.numberOfNodes

/-- Modelled from the spec: `nodes()`, the full node set. -/
def getNodes (g : Graph) : List Nat := List.range g.numberOfNodes

/-- Modelled from the spec: `neighbors(v)`, the neighbour set of a node, ascending. -/
def getNeighbors (g : Graph) (v : Nat) : List Nat :=
  (List.range g.numberOfNodes).filter (fun u => g.adj v u)

/-- Modelled from the spec: the neighbour set in `g` of a set of nodes (the nodes outside the
set that are adjacent to a member of it); `getNeighbors` applied to a node set in the source. -/
def getNeighborsOfSet (g : Graph) (s : List Nat) : List Nat :=
  (List.range g.numberOfNodes).filter (fun u => !s.contains u && s.any (fun x => g.adj x u))

/-- Modelled from the spec: `addEdge(u, v)`, idempotent edge insertion. -/
def addEdge (g : Graph) (u v : Nat) : Graph :=
  { g with adj := fun a b => g.adj a b || (a == u && b == v) || (a == v && b == u) }

/-- Modelled from the spec: `saturate(collectionOfNodeSets)`: for each set, add all missing
edges among its members. -/
def saturateNodeSets (g : Graph) (sets : List (List Nat)) : Graph :=
  { g with adj := fun a b =>
      g.adj a b || (a != b && sets.any (fun s => s.contains a && s.contains b)) }

/-- One round of the component search: the nodes of `s` together with the non-removed nodes
adjacent to a node of `s`. -/
def expand (g : Graph) (removed : List Nat) (s : List Nat) : List Nat :=
  (List.range g.numberOfNodes).filter
    (fun u => s.contains u || (!removed.contains u && s.any (fun x => g.adj x u)))

/-- The nodes reached from `s` in the graph induced on the non-removed nodes: `n` rounds of
`expand` starting from `s` alone. -/
def componentOf (g : Graph) (removed : List Nat) (s : Nat) : List Nat :=
  (g.expand removed)^[g.numberOfNodes] ((List.range g.numberOfNodes).filter (fun u => u == s))

/-- Modelled from the spec: `componentsExcluding(removedNodes)`, the vertex sets of the
connected components of the graph induced on `allNodes \ removedNodes`, each component listed
once (in the order of its smallest node). -/
def getComponentsEfficient (g : Graph) (removed : List Nat) : List (List Nat) :=
  (List.range g.numberOfNodes).foldl
    (fun found s =>
      if removed.contains s || found.any (fun c => c.contains s) then found
      else found ++ [g.componentOf removed s])
    []

/-- A graph on nodes `0 .. n-1` given by a list of edges. -/
def ofEdges (n : Nat) (es : List (Nat × Nat)) : Graph :=
  ⟨n, fun a b => es.contains (a, b) || es.contains (b, a)⟩

/-- The edges of a graph, each listed once as `(a, b)` with `a < b`, in ascending order. -/
def edgeList (g : Graph) : List (Nat × Nat) :=
  (List.range g.numberOfNodes).flatMap (fun a =>
    ((List.range g.numberOfNodes).filter (fun b => decide (a < b) && g.adj a b)).map
      (fun b => (a, b)))

/-- The graph with the edge between `u` and `v` removed. -/
def removeEdge (g : Graph) (u v : Nat) : Graph :=
  { g with adj := fun a b => g.adj a b && !((a == u && b == v) || (a == v && b == u)) }

end Graph

/-- Modelled from the spec: the weighted node priority queue (section 6), whose class is
declared outside the translated file: per-node weights and removal flags over nodes
`0 .. size-1`. -/
structure IncreasingWeightNodeQueue where
  size : Nat
  weight : Nat → Nat
  removed : Nat → Bool

namespace IncreasingWeightNodeQueue

/-- Modelled from the spec: construction with capacity `n`, all weights 0, nothing removed. -/
def create (n : Nat) : IncreasingWeightNodeQueue := ⟨n, fun _ => 0, fun _ => false⟩

/-- The nodes not yet popped, ascending. -/
def remaining (q : IncreasingWeightNodeQueue) : List Nat :=
  (List.range q.size).filter (fun v => !q.removed v)

/-- Modelled from the spec: `isEmpty()`. -/
def isEmpty (q : IncreasingWeightNodeQueue) : Bool := q.remaining.isEmpty

/-- The largest weight of a node not yet popped. -/
def maxWeight (q : IncreasingWeightNodeQueue) : Nat := (q.remaining.map q.weight).foldl max 0

/-- The nodes not yet popped whose weight is maximum, ascending. -/
def candidates (q : IncreasingWeightNodeQueue) : List Nat :=
  q.remaining.filter (fun v => q.weight v == q.maxWeight)

/-- Modelled from the spec: `pop()` removes and returns a not-yet-popped node of maximum
weight.  The tie-break rule is left open by the specification; here the choice `c` selects the
candidate at position `c` modulo the number of candidates, so that every possible rule is some
sequence of choices. -/
def pop (q : IncreasingWeightNodeQueue) (c : Nat) : Nat × IncreasingWeightNodeQueue :=
  let v := q.candidates.getD (c % q.candidates.length) 0
  (v, { q with removed := fun u => u == v || q.removed u })

/-- Modelled from the spec: `getWeight(node)`. -/
def getWeight (q : IncreasingWeightNodeQueue) (v : Nat) : Nat := q.weight v

/-- Modelled from the spec: `increaseWeight(node)` increments the weight by 1. -/
def increaseWeight (q : IncreasingWeightNodeQueue) (v : Nat) : IncreasingWeightNodeQueue :=
  { q with weight := fun u => if u == v then q.weight u + 1 else q.weight u }

end IncreasingWeightNodeQueue

/-! ## MCS-M (`getMinimalTriangulationUsingMSCM`, source lines 11-59) -/

/-- The local variables of the search of one outer iteration: `nodesToUpdate`, `reached` and
`reachedByMaxWeight` (source lines 22-24). -/
structure ReachState where
  nodesToUpdate : List Nat
  reached : Nat → Bool
  reachedByMaxWeight : List (List Nat)

/-- Body of the loop over the neighbours of the popped node (source lines 27-32). -/
def seedNeighbor (q : IncreasingWeightNodeQueue) (handled : Nat → Bool) (st : ReachState)
    (u : Nat) : ReachState :=
  if !handled u then
    { nodesToUpdate := st.nodesToUpdate ++ [u]
      reached := fun x => x == u || st.reached x
      reachedByMaxWeight := st.reachedByMaxWeight.modify (fun b => b ++ [u]) (q.getWeight u) }
  else st

/-- Body of the loop over the neighbours of a node `w` drawn from the bucket `maxWeight`
(source lines 40-47). -/
def visitNeighbor (q : IncreasingWeightNodeQueue) (handled : Nat → Bool) (maxWeight : Nat)
    (st : ReachState) (u : Nat) : ReachState :=
  if !handled u && !st.reached u then
    { nodesToUpdate :=
        if q.getWeight u > maxWeight then st.nodesToUpdate ++ [u] else st.nodesToUpdate
      reached := fun x => x == u || st.reached x
      reachedByMaxWeight :=
        st.reachedByMaxWeight.modify (fun b => b ++ [u]) (max (q.getWeight u) maxWeight) }
  else st

/-- The `while` loop that drains the bucket `maxWeight` (source lines 35-49): take the last
node of the bucket, remove it, visit its neighbours in `g`.  The loop is bounded by `fuel`
iterations. -/
def drainBucket (g : Graph) (q : IncreasingWeightNodeQueue) (handled : Nat → Bool)
    (maxWeight : Nat) : Nat → ReachState → ReachState
  | 0, st => st
  | fuel + 1, st =>
    match (st.reachedByMaxWeight.getD maxWeight []).getLast? with
    | none => st
    | some w =>
      drainBucket g q handled maxWeight fuel
        ((g.getNeighbors w).foldl (visitNeighbor q handled maxWeight)
          { st with reachedByMaxWeight := st.reachedByMaxWeight.modify List.dropLast maxWeight })

/-- The search of one outer iteration for the popped node `v` (source lines 22-50): seed with
the unhandled neighbours of `v`, then drain the buckets in increasing weight order. -/
def findNodesToUpdate (g : Graph) (q : IncreasingWeightNodeQueue) (handled : Nat → Bool)
    (v : Nat) : ReachState :=
  (List.range g.getNumberOfNodes).foldl
    (fun st maxWeight => drainBucket g q handled maxWeight g.getNumberOfNodes st)
    ((g.getNeighbors v).foldl (seedNeighbor q handled)
      ⟨[], fun _ => false, List.replicate g.getNumberOfNodes []⟩)

/-- The state of the outer loop: the triangulation built so far, the queue and the `handled`
flags. -/
structure MSCMState where
  triangulation : Graph
  queue : IncreasingWeightNodeQueue
  handled : Nat → Bool

/-- The update loop of one outer iteration (source lines 52-56). -/
def updateNodes (v : Nat) (nodesToUpdate : List Nat) (triangulation : Graph)
    (queue : IncreasingWeightNodeQueue) : Graph × IncreasingWeightNodeQueue :=
  nodesToUpdate.foldl (fun p u => (p.1.addEdge u v, p.2.increaseWeight u)) (triangulation, queue)

/-- One iteration of the outer loop (source lines 18-56), the queue resolving its tie with the
choice `c`. -/
def mscmIteration (g : Graph) (c : Nat) (s : MSCMState) : MSCMState :=
  let popped := s.queue.pop c
  let v := popped.1
  let handled : Nat → Bool := fun x => x == v || s.handled x
  let st := findNodesToUpdate g popped.2 handled v
  let updated := updateNodes v st.nodesToUpdate s.triangulation popped.2
  ⟨updated.1, updated.2, handled⟩

/-- The outer `while (!queue.isEmpty())` loop (source lines 17-57), bounded by `fuel`
iterations; the list `tie` holds the choices of the successive `pop` calls (0 when the list is
exhausted). -/
def mscmLoop (g : Graph) : Nat → List Nat → MSCMState → MSCMState
  | 0, _, s => s
  | fuel + 1, tie, s =>
    if s.queue.isEmpty then s else mscmLoop g fuel tie.tail (mscmIteration g (tie.headD 0) s)

/-- The state before the first iteration (source lines 13-15). -/
def mscmInit (g : Graph) : MSCMState :=
  ⟨g, IncreasingWeightNodeQueue.create g.getNumberOfNodes, fun _ => false⟩

/-- `getMinimalTriangulationUsingMSCM` (source lines 11-59).  Every iteration pops one node, so
`n` iterations empty the queue. -/
def getMinimalTriangulationUsingMSCM (tie : List Nat) (g : Graph) : Graph :=
  (mscmLoop g g.getNumberOfNodes tie (mscmInit g)).triangulation

/-! ## Ordering selectors and fill estimator (source lines 61-104) -/

/-- `getMinDegree` (source lines 62-74).  On an empty set the source dereferences `begin()`,
which is undefined; the model returns 0 there. -/
def getMinDegree (g : Graph) (options : List Nat) : Nat :=
  match options with
  | [] => 0
  | first :: _ =>
    (options.foldl
      (fun (best : Nat × Nat) it =>
        if (g.getNeighbors it).length < best.2 then (it, (g.getNeighbors it).length) else best)
      (first, (g.getNeighbors first).length)).1

/-- The summand of `getFill` for the neighbour `it` (source lines 81-86): the size of
`neighborsSet \ neighbors(it)`, minus one. -/
def fillTerm (g : Graph) (neighborsSet : List Nat) (it : Nat) : Int :=
  ((neighborsSet.filter (fun x => !(g.getNeighbors it).contains x)).length : Int) - 1

/-- The `int` that an integer becomes when it is stored in an `int` (32 bits wide, two's
complement): the integer reduced modulo `2^32` into the range `[-2^31, 2^31)`. -/
def wrapInt32 (x : Int) : Int := (x + 2147483648) % 4294967296 - 2147483648

/-- `getFill` (source lines 76-89).  The accumulator `twiceFillEdges` is an `int` (line 78).
The statement `twiceFillEdges += size - 1` (line 86) adds in the unsigned type of `size` and
stores the sum back in the `int`: the accumulator becomes `twiceFillEdges + (size - 1)` reduced
into the range of `int`.  The final division (line 88) truncates. -/
def getFill (g : Graph) (v : Nat) : Int :=
  Int.tdiv
    ((g.getNeighbors v).foldl
      (fun twice it => wrapInt32 (twice + fillTerm g (g.getNeighbors v) it)) 0) 2

/-- `getMinFill` (source lines 92-104); 0 on the empty set, where the source is undefined. -/
def getMinFill (g : Graph) (options : List Nat) : Nat :=
  match options with
  | [] => 0
  | first :: _ =>
    (options.foldl
      (fun (best : Nat × Int) it =>
        if getFill g it < best.2 then (it, getFill g it) else best)
      (first, getFill g first)).1

/-! ## Separator saturator (source lines 106-134) -/

/-- `NodeSetStaturator` (source lines 106-115): a `set< set<Node> >`. -/
structure NodeSetStaturator where
  toSaturate : List (List Nat)

/-- `NodeSetStaturator::markForSaturation` (source lines 109-111). -/
def NodeSetStaturator.markForSaturation (s : NodeSetStaturator) (nodeSet : List Nat) :
    NodeSetStaturator :=
  ⟨setInsert nodeSetLt nodeSet s.toSaturate⟩

/-- `NodeSetStaturator::saturate` (source lines 112-114). -/
def NodeSetStaturator.saturate (s : NodeSetStaturator) (g : Graph) : Graph :=
  g.saturateNodeSets s.toSaturate

/-- `getSubstars` (source lines 118-127): `g` is the original graph, `gi` the working graph. -/
def getSubstars (g gi : Graph) (v : Nat) : NodeSetStaturator :=
  let removedNodes := setInsert nodeLt v (gi.getNeighbors v)
  let components := g.getComponentsEfficient removedNodes
  components.foldl (fun saturator c => saturator.markForSaturation (g.getNeighborsOfSet c)) ⟨[]⟩

/-- `makeNodeLBSimplicial` (source lines 131-134); returns the new working graph. -/
def makeNodeLBSimplicial (g gi : Graph) (v : Nat) : Graph :=
  (getSubstars g gi v).saturate gi

/-! ## LB-Triang and the facade (source lines 137-165) -/

/-- The heuristic modes (the enumeration is declared outside the translated file; its four
values are the ones the source compares against). -/
inductive TriangulationAlgorithm where
  | MCS_M
  | LB_TRIANG
  | MIN_DEGREE_LB_TRIANG
  | MIN_FILL_LB_TRIANG
  deriving DecidableEq, Repr

open TriangulationAlgorithm

/-- Body of the second loop of `getMinimalTriangulationUsingLBTriang` (source lines 146-153):
the state is the working graph and the set of unhandled nodes. -/
def lbTriangStep (g : Graph) (heuristic : TriangulationAlgorithm) (p : Graph × List Nat)
    (i : Nat) : Graph × List Nat :=
  let v : Nat :=
    if heuristic = MIN_DEGREE_LB_TRIANG then getMinDegree p.1 p.2
    else if heuristic = MIN_FILL_LB_TRIANG then getMinFill p.1 p.2
    else i
  (makeNodeLBSimplicial g p.1 v, p.2.erase v)

/-- `getMinimalTriangulationUsingLBTriang` (source lines 137-157). -/
def getMinimalTriangulationUsingLBTriang (g : Graph) (heuristic : TriangulationAlgorithm) :
    Graph :=
  if heuristic = LB_TRIANG then
    (List.range g.getNumberOfNodes).foldl (fun result v => makeNodeLBSimplicial g result v) g
  else
    ((List.range g.getNumberOfNodes).foldl (lbTriangStep g heuristic) (g, g.getNodes)).1

/-- `MinimalTriangulator` (source line 8): the heuristic fixed at construction. -/
structure MinimalTriangulator where
  heuristic : TriangulationAlgorithm

/-- `MinimalTriangulator::triangulate` (source lines 160-165); `tie` holds the choices of the
queue of MCS-M. -/
def MinimalTriangulator.triangulate (t : MinimalTriangulator) (tie : List Nat) (g : Graph) :
    Graph :=
  if t.heuristic = MCS_M then getMinimalTriangulationUsingMSCM tie g
  else getMinimalTriangulationUsingLBTriang g t.heuristic

/-! ## Specification predicates -/

/-- Adjacency is symmetric. -/
def Graph.Symmetric (g : Graph) : Prop := ∀ a b, g.adj a b = g.adj b a

/-- No node is adjacent to itself. -/
def Graph.Irreflexive (g : Graph) : Prop := ∀ a, g.adj a a = false

/-- Only nodes `0 .. n-1` are adjacent to anything. -/
def Graph.InRange (g : Graph) : Prop :=
  ∀ a b, g.adj a b = true → a < g.numberOfNodes ∧ b < g.numberOfNodes

/-- A well-formed graph: node ids in `[0, n)`, symmetric adjacency, no self-loops. -/
def Graph.WellFormed (g : Graph) : Prop := g.InRange ∧ g.Symmetric ∧ g.Irreflexive

/-- The node set `s` is a clique of `g`. -/
def Graph.IsClique (g : Graph) (s : List Nat) : Prop :=
  ∀ a ∈ s, ∀ b ∈ s, a ≠ b → g.adj a b = true

instance (g : Graph) (s : List Nat) : Decidable (g.IsClique s) := by
  unfold Graph.IsClique; infer_instance

/-- The unordered pairs `(a, b)`, `a < b`, of members of `s` that are not adjacent in `g`. -/
def Graph.nonAdjacentPairs (g : Graph) (s : List Nat) : List (Nat × Nat) :=
  s.flatMap (fun a => (s.filter (fun b => decide (a < b) && !g.adj a b)).map (fun b => (a, b)))

/-- The graph `h` has the nodes of `g` and every edge of `g`. -/
def Graph.IsSupergraphOf (h g : Graph) : Prop :=
  h.numberOfNodes = g.numberOfNodes ∧ ∀ a b, g.adj a b = true → h.adj a b = true

/-- A walk from the first node to the second along `adj`, every node of which except the last
satisfies `P`. -/
inductive Walk (adj : Nat → Nat → Bool) (P : Nat → Prop) : Nat → Nat → Prop
  | refl (b : Nat) : Walk adj P b b
  | step {a x b : Nat} : adj a x = true → P a → Walk adj P x b → Walk adj P a b

/-- The node `x` is a node of `g` outside `removed`. -/
def Graph.Kept (g : Graph) (removed : List Nat) (x : Nat) : Prop :=
  x < g.numberOfNodes ∧ x ∉ removed

/-- The node set `c` is a connected component of `g` with the nodes of `removed` removed: the
nodes outside `removed` that a walk outside `removed` joins to one of them. -/
def Graph.IsComponentExcluding (g : Graph) (removed : List Nat) (c : List Nat) : Prop :=
  ∃ s, g.Kept removed s ∧ ∀ u, u ∈ c ↔ g.Kept removed u ∧ Walk g.adj (g.Kept removed) s u

/-- The node set `s` is a minimal separator of `g`: `g` with `s` removed has at least two
connected components whose neighbour set in `g` is exactly `s`. -/
def Graph.IsMinimalSeparator (g : Graph) (s : List Nat) : Prop :=
  ∃ c1 c2, g.IsComponentExcluding s c1 ∧ g.IsComponentExcluding s c2 ∧
    (∃ x, x ∈ c1 ∧ x ∉ c2) ∧ g.getNeighborsOfSet c1 = s ∧ g.getNeighborsOfSet c2 = s

/-! ## Chordal graphs -/

/-- The list `c` is an induced (chordless) cycle of `g`: its nodes are distinct and two of them
are adjacent exactly when they are consecutive on the cycle. -/
def Graph.IsInducedCycle (g : Graph) (c : List Nat) : Prop :=
  c.Nodup ∧ ∀ i j, i < j → j < c.length →
    (g.adj (c.getD i 0) (c.getD j 0) = true ↔ (j = i + 1 ∨ (i = 0 ∧ j + 1 = c.length)))

/-- The graph `g` is chordal: it has no induced cycle of length at least 4. -/
def Graph.Chordal (g : Graph) : Prop := ∀ c : List Nat, 4 ≤ c.length → ¬ g.IsInducedCycle c

/-! ## Specification of the search of MCS-M -/

/-- The nodes the search of one outer iteration has to collect for the popped node `v`, with
weights `w` and handled flags `h`: the unhandled nodes `u` that a walk from a neighbour of `v`
reaches through unhandled nodes lighter than `u`. -/
def ReachTarget (g : Graph) (w : Nat → Nat) (h : Nat → Bool) (v u : Nat) : Prop :=
  u < g.numberOfNodes ∧ h u = false ∧
    ∃ x, g.adj v x = true ∧
      Walk g.adj (fun a => a < g.numberOfNodes ∧ h a = false ∧ w a < w u) x u

/-- The invariant of the search of one outer iteration while the bucket `m` is drained.
`pendSeed` holds of the neighbours of `v` still to be seeded and `pend x u` of the neighbours
`u` still to be visited of the node `x` drawn last. -/
structure SearchInv (g : Graph) (w : Nat → Nat) (h : Nat → Bool) (v m : Nat)
    (pendSeed : Nat → Prop) (pend : Nat → Nat → Prop) (st : ReachState) : Prop where
  len : st.reachedByMaxWeight.length = g.numberOfNodes
  nodup : st.nodesToUpdate.Nodup
  upd_reached : ∀ u ∈ st.nodesToUpdate, st.reached u = true
  reached_ok : ∀ u, st.reached u = true → u < g.numberOfNodes ∧ h u = false
  seeds : ∀ x, x < g.numberOfNodes → g.adj v x = true → h x = false →
    x ∈ st.nodesToUpdate ∨ pendSeed x
  upd_sound : ∀ u ∈ st.nodesToUpdate, ReachTarget g w h v u
  upd_or_low : ∀ u, st.reached u = true → u ∈ st.nodesToUpdate ∨ w u ≤ m
  bucket_mem : ∀ j x, x ∈ st.reachedByMaxWeight.getD j [] →
    st.reached x = true ∧ w x ≤ j ∧ m ≤ j ∧ (j = w x ∨ j = m) ∧
      ∃ x0, g.adj v x0 = true ∧
        Walk g.adj (fun a => a < g.numberOfNodes ∧ h a = false ∧ w a ≤ j) x0 x
  processed : ∀ x, st.reached x = true →
    (∃ j, x ∈ st.reachedByMaxWeight.getD j []) ∨
      (w x ≤ m ∧ ∀ u, u < g.numberOfNodes → g.adj x u = true → h u = false →
        st.reached u = true ∨ pend x u)
  complete : ∀ u, u < g.numberOfNodes → h u = false →
    (∃ x, g.adj v x = true ∧
      Walk g.adj (fun a => a < g.numberOfNodes ∧ h a = false ∧ w a < w u ∧ w a < m) x u) →
    u ∈ st.nodesToUpdate ∨ pendSeed u

/-- The measure that bounds the number of iterations of the draining loops: the nodes waiting
in the buckets plus the unhandled nodes not reached yet. -/
def searchMeasure (g : Graph) (h : Nat → Bool) (st : ReachState) : Nat :=
  (st.reachedByMaxWeight.map List.length).sum +
    (List.range g.numberOfNodes).countP (fun u => !h u && !st.reached u)

/-! ## Runs of MCS-M -/

/-- The data of a run of MCS-M on a graph with `n` nodes and adjacency `adj`: `v t` is the node
popped in iteration `t`, `pos x` the iteration in which `x` is popped, `w t x` the weight of
`x` when iteration `t` starts and `S t x` tells whether iteration `t` collects `x` in
`nodesToUpdate`. -/
structure MCSRun where
  n : Nat
  adj : Nat → Nat → Bool
  v : Nat → Nat
  pos : Nat → Nat
  w : Nat → Nat → Nat
  S : Nat → Nat → Bool

/-- In iteration `t`, the node `a` is unhandled and lighter than `b`. -/
def MCSRun.Low (r : MCSRun) (t b a : Nat) : Prop :=
  a < r.n ∧ t < r.pos a ∧ r.w t a < r.w t b

/-- The node `a` is popped after the node `b`. -/
def MCSRun.After (r : MCSRun) (b a : Nat) : Prop := a < r.n ∧ r.pos b < r.pos a

/-- The laws of a run of MCS-M. -/
structure MCSRun.IsRun (r : MCSRun) : Prop where
  sym : ∀ a b, r.adj a b = r.adj b a
  inRange : ∀ a b, r.adj a b = true → a < r.n ∧ b < r.n
  v_pos : ∀ x, x < r.n → r.pos x < r.n ∧ r.v (r.pos x) = x
  pos_v : ∀ t, t < r.n → r.v t < r.n ∧ r.pos (r.v t) = t
  max_weight : ∀ t x, t < r.n → x < r.n → t ≤ r.pos x → r.w t x ≤ r.w t (r.v t)
  weight_succ : ∀ t x, t < r.n → x < r.n → t < r.pos x →
    r.w (t + 1) x = r.w t x + (if r.S t x = true then 1 else 0)
  weight_zero : ∀ x, r.w 0 x = 0
  S_iff : ∀ t u, t < r.n → (r.S t u = true ↔ u < r.n ∧ t < r.pos u ∧
    ∃ x, r.adj (r.v t) x = true ∧ Walk r.adj (r.Low t u) x u)

/-- The node `a` is adjacent to `b` or joined to it by a path whose inner nodes are all popped
after `b`. -/
def MCSRun.Joined (r : MCSRun) (a b : Nat) : Prop :=
  ∃ x, r.adj a x = true ∧ Walk r.adj (r.After b) x b

/-- The adjacency of the triangulation a run builds. -/
def MCSRun.fillAdj (r : MCSRun) (a b : Nat) : Prop :=
  a < r.n ∧ b < r.n ∧
    ((r.pos a < r.pos b ∧ r.S (r.pos a) b = true) ∨ (r.pos b < r.pos a ∧ r.S (r.pos b) a = true))

/-- The state of the outer loop of MCS-M after `t` iterations. -/
def mscmStateAt (g : Graph) (tie : List Nat) : Nat → MSCMState
  | 0 => mscmInit g
  | t + 1 => mscmIteration g (tie.getD t 0) (mscmStateAt g tie t)

/-- The node popped in iteration `t`. -/
def mscmPopped (g : Graph) (tie : List Nat) (t : Nat) : Nat :=
  ((mscmStateAt g tie t).queue.pop (tie.getD t 0)).1

/-- The run of `getMinimalTriangulationUsingMSCM` on `g` with the choices `tie`. -/
def mscmRun (g : Graph) (tie : List Nat) : MCSRun where
  n := g.numberOfNodes
  adj := g.adj
  v := mscmPopped g tie
  pos := fun x =>
    (List.range g.numberOfNodes).countP (fun t => !(mscmStateAt g tie (t + 1)).handled x)
  w := fun t x => (mscmStateAt g tie t).queue.weight x
  S := fun t u =>
    (findNodesToUpdate g ((mscmStateAt g tie t).queue.pop (tie.getD t 0)).2
      (fun x => x == mscmPopped g tie t || (mscmStateAt g tie t).handled x)
      (mscmPopped g tie t)).nodesToUpdate.contains u

/-- The invariant of the outer loop of MCS-M after `t` iterations. -/
structure MSCMInv (g : Graph) (s : MSCMState) (t : Nat) : Prop where
  size : s.queue.size = g.numberOfNodes
  removed_eq : ∀ x, s.queue.removed x = s.handled x
  handled_lt : ∀ x, s.handled x = true → x < g.numberOfNodes
  count : (List.range g.numberOfNodes).countP (fun x => !s.handled x) + t = g.numberOfNodes
  weight_le : ∀ x, s.queue.weight x ≤ t

/-- The list `q` is a path of `adj` from `z` to `y` whose inner nodes satisfy `P`. -/
def IsPathBetween (adj : Nat → Nat → Bool) (P : Nat → Prop) (z y : Nat) (q : List Nat) : Prop :=
  2 ≤ q.length ∧ q.getD 0 0 = z ∧ q.getD (q.length - 1) 0 = y ∧
    (∀ i, i + 1 < q.length → adj (q.getD i 0) (q.getD (i + 1) 0) = true) ∧
    ∀ i, 0 < i → i + 1 < q.length → P (q.getD i 0)

/-! ## Specification of LB-Triang -/

/-- The closed neighbourhood of `x` in `h`, as `getSubstars` builds it. -/
def Graph.closedNeighbors (h : Graph) (x : Nat) : List Nat :=
  setInsert nodeLt x (h.getNeighbors x)

/-- The nodes `a` and `b` lie outside `t` and a walk of `g` outside `t` joins them. -/
def Graph.Conn (g : Graph) (t : List Nat) (a b : Nat) : Prop :=
  g.Kept t a ∧ g.Kept t b ∧ Walk g.adj (g.Kept t) a b

/-- The connected component of `α` in `g` without `t` is full: every node of `t` has a
neighbour in it. -/
def Graph.Full (g : Graph) (t : List Nat) (α : Nat) : Prop :=
  g.Kept t α ∧ ∀ x ∈ t, ∃ c, g.adj c x = true ∧ g.Conn t α c

/-- The invariant of LB-Triang: the working graph `h` is the input graph `g` with the sets of
`seps` saturated; these are minimal separators of `g` that pairwise do not cross; and around
every node of `proc` (the nodes handled so far) the neighbour sets of the components are
cliques of `h`. -/
structure LBInv (g h : Graph) (seps : List (List Nat)) (proc : Nat → Prop) : Prop where
  g_wf : g.WellFormed
  n_eq : h.numberOfNodes = g.numberOfNodes
  adj_iff : ∀ a b, h.adj a b = true ↔
    g.adj a b = true ∨ (a ≠ b ∧ ∃ t ∈ seps, a ∈ t ∧ b ∈ t)
  sep_lt : ∀ t ∈ seps, ∀ x ∈ t, x < g.numberOfNodes
  full : ∀ t ∈ seps, ∃ α β, g.Full t α ∧ g.Full t β ∧ ¬ g.Conn t α β
  noncross : ∀ s ∈ seps, ∀ t ∈ seps, ∀ a ∈ s, ∀ b ∈ s, a ∉ t → b ∉ t → g.Conn t a b
  proc_clique : ∀ v, proc v → ∀ c0, g.Kept (h.closedNeighbors v) c0 →
    h.IsClique (g.getNeighborsOfSet (g.componentOf (h.closedNeighbors v) c0))

/-! ## States of the loop of LB-Triang -/

/-- The state of the second loop of `getMinimalTriangulationUsingLBTriang` (source lines
144-154) when iteration `i` starts: the working graph and the set of unhandled nodes. -/
def lbTriangStateAt (g : Graph) (heuristic : TriangulationAlgorithm) : Nat → Graph × List Nat
  | 0 => (g, g.getNodes)
  | i + 1 => lbTriangStep g heuristic (lbTriangStateAt g heuristic i) i

/-! ## The search of MCS-M with any order of extraction -/

/-- The draining loop of the bucket `maxWeight` (source lines 35-49) with the node to draw
chosen freely: `pick maxWeight fuel bucket`, taken modulo the size of the bucket, is the
position in the bucket of the node drawn when `fuel + 1` iterations remain.  The source draws
the last node (position `size - 1`); a queue draws the first (position 0). -/
def drainBucketWith (pick : Nat → Nat → List Nat → Nat) (g : Graph)
    (q : IncreasingWeightNodeQueue) (handled : Nat → Bool) (maxWeight : Nat) :
    Nat → ReachState → ReachState
  | 0, st => st
  | fuel + 1, st =>
    match st.reachedByMaxWeight.getD maxWeight [] with
    | [] => st
    | b :: bs =>
      drainBucketWith pick g q handled maxWeight fuel
        ((g.getNeighbors
            ((b :: bs).getD (pick maxWeight fuel (b :: bs) % (b :: bs).length) 0)).foldl
          (visitNeighbor q handled maxWeight)
          { st with
            reachedByMaxWeight := st.reachedByMaxWeight.modify
              (fun l => l.eraseIdx (pick maxWeight fuel (b :: bs) % (b :: bs).length))
              maxWeight })

/-- The search of one outer iteration (source lines 22-50) with the order of extraction from
the buckets given by `pick`; the buckets are still drained in increasing weight order. -/
def findNodesToUpdateWith (pick : Nat → Nat → List Nat → Nat) (g : Graph)
    (q : IncreasingWeightNodeQueue) (handled : Nat → Bool) (v : Nat) : ReachState :=
  (List.range g.getNumberOfNodes).foldl
    (fun st maxWeight => drainBucketWith pick g q handled maxWeight g.getNumberOfNodes st)
    ((g.getNeighbors v).foldl (seedNeighbor q handled)
      ⟨[], fun _ => false, List.replicate g.getNumberOfNodes []⟩)

/-- The list `nodesToUpdate` that iteration `t` of the outer loop of MCS-M collects (source
lines 22-50), the queue resolving its ties with the choices `tie`. -/
def mscmNodesToUpdate (g : Graph) (tie : List Nat) (t : Nat) : List Nat :=
  (findNodesToUpdate g ((mscmStateAt g tie t).queue.pop (tie.getD t 0)).2
    (fun x => x == mscmPopped g tie t || (mscmStateAt g tie t).handled x)
    (mscmPopped g tie t)).nodesToUpdate

/-- The working graph `result` of `getMinimalTriangulationUsingLBTriang` (source lines 137-157)
when iteration `i` of its loop starts: the graph the iteration passes to
`makeNodeLBSimplicial`, and through it to `getSubstars`. -/
def lbTriangResultAt (g : Graph) (heuristic : TriangulationAlgorithm) (i : Nat) : Graph :=
  if heuristic = LB_TRIANG then
    (List.range i).foldl (fun result v => makeNodeLBSimplicial g result v) g
  else (lbTriangStateAt g heuristic i).1

/-- The node that iteration `i` of the loop of `getMinimalTriangulationUsingLBTriang` passes to
`makeNodeLBSimplicial` (source lines 140-141 and 146-152). -/
def lbTriangNodeAt (g : Graph) (heuristic : TriangulationAlgorithm) (i : Nat) : Nat :=
  if heuristic = MIN_DEGREE_LB_TRIANG then
    getMinDegree (lbTriangStateAt g heuristic i).1 (lbTriangStateAt g heuristic i).2
  else if heuristic = MIN_FILL_LB_TRIANG then
    getMinFill (lbTriangStateAt g heuristic i).1 (lbTriangStateAt g heuristic i).2
  else i

/-! ## Example graphs -/

/-- Three nodes and the single edge 1-2. -/
def edge12 : Graph := Graph.ofEdges 3 [(1, 2)]

/-- Three nodes and the edges 0-1 and 1-2. -/
def path3 : Graph := Graph.ofEdges 3 [(0, 1), (1, 2)]

/-- The chordless 4-cycle 0-1-2-3-0. -/
def cycle4 : Graph := Graph.ofEdges 4 [(0, 1), (1, 2), (2, 3), (3, 0)]

/-- The 4-cycle 0-1-2-3-0 with the chord 1-3. -/
def cycle4Chord : Graph := Graph.ofEdges 4 [(0, 1), (1, 2), (2, 3), (3, 0), (1, 3)]

/-- The chordless 5-cycle 0-1-2-3-4-0. -/
def cycle5 : Graph := Graph.ofEdges 5 [(0, 1), (1, 2), (2, 3), (3, 4), (4, 0)]

/-- The complete graph on the nodes `0 .. k-1`. -/
def completeGraph (k : Nat) : Graph :=
  ⟨k, fun a b => decide (a < k) && decide (b < k) && a != b⟩

/-- The star with centre 0 and leaves `1 .. k`. -/
def starGraph (k : Nat) : Graph :=
  ⟨k + 1, fun a b =>
    (a == 0 && decide (0 < b) && decide (b ≤ k)) || (b == 0 && decide (0 < a) && decide (a ≤ k))⟩

/-- Two disjoint chordless 4-cycles, on the nodes 0, 1, 2, 3 and on the nodes 4, 5, 6, 7. -/
def twoCycles : Graph :=
  Graph.ofEdges 8 [(0, 1), (1, 2), (2, 3), (3, 0), (4, 5), (5, 6), (6, 7), (7, 4)]

end tdenum

/-! # Verification -/

namespace tdenum

open TriangulationAlgorithm

/-! ## Graphs given by edge lists -/

theorem ofEdges_symmetric (n : Nat) (es : List (Nat × Nat)) : (Graph.ofEdges n es).Symmetric := by
  intro a b
  simp only [Graph.ofEdges]
  exact Bool.or_comm _ _

theorem ofEdges_irreflexive (n : Nat) (es : List (Nat × Nat))
    (h : es.all (fun e => e.1 != e.2) = true) : (Graph.ofEdges n es).Irreflexive := by
  intro a
  simp only [Graph.ofEdges, Bool.or_self]
  rw [List.all_eq_true] at h
  by_contra hc
  have hm : (a, a) ∈ es := by simpa using hc
  have := h _ hm
  simp at this

theorem ofEdges_inRange (n : Nat) (es : List (Nat × Nat))
    (h : es.all (fun e => decide (e.1 < n) && decide (e.2 < n)) = true) :
    (Graph.ofEdges n es).InRange := by
  intro a b hab
  rw [List.all_eq_true] at h
  have hab' : (a, b) ∈ es ∨ (b, a) ∈ es := by simpa [Graph.ofEdges] using hab
  rcases hab' with hm | hm
  · have := h _ hm
    simp at this
    exact this
  · have := h _ hm
    simp at this
    exact ⟨this.2, this.1⟩

theorem ofEdges_wellFormed (n : Nat) (es : List (Nat × Nat))
    (h : es.all (fun e => decide (e.1 < n) && decide (e.2 < n) && e.1 != e.2) = true) :
    (Graph.ofEdges n es).WellFormed := by
  rw [List.all_eq_true] at h
  refine ⟨ofEdges_inRange n es ?_, ofEdges_symmetric n es, ofEdges_irreflexive n es ?_⟩
  · rw [List.all_eq_true]
    intro e he
    have := h e he
    simp only [Bool.and_eq_true] at this
    simp only [Bool.and_eq_true]
    exact this.1
  · rw [List.all_eq_true]
    intro e he
    have := h e he
    simp only [Bool.and_eq_true] at this
    exact this.2

/-! ## Membership in `std::set` values -/

theorem mem_setInsert {α : Type} [DecidableEq α] (lt : α → α → Bool) (a x : α) (l : List α) :
    x ∈ setInsert lt a l ↔ x = a ∨ x ∈ l := by
  induction l with
  | nil => simp [setInsert]
  | cons b l ih =>
    unfold setInsert
    by_cases hab : a = b
    · subst hab
      simp
    · rw [if_neg hab]
      by_cases hlt : lt a b = true
      · rw [if_pos hlt]
        simp
      · rw [if_neg hlt]
        simp only [List.mem_cons, ih]
        tauto

theorem contains_iff_mem {α : Type} [DecidableEq α] (l : List α) (a : α) :
    l.contains a = true ↔ a ∈ l := by
  simp

theorem mem_getNeighbors (g : Graph) (v u : Nat) :
    u ∈ g.getNeighbors v ↔ u < g.numberOfNodes ∧ g.adj v u = true := by
  simp [Graph.getNeighbors]

/-! ## The result is a supergraph of the input -/

theorem isSupergraphOf_refl (g : Graph) : g.IsSupergraphOf g := ⟨rfl, fun _ _ h => h⟩

theorem isSupergraphOf_trans {a b c : Graph} (h1 : a.IsSupergraphOf b) (h2 : b.IsSupergraphOf c) :
    a.IsSupergraphOf c :=
  ⟨h1.1.trans h2.1, fun x y h => h1.2 x y (h2.2 x y h)⟩

theorem addEdge_isSupergraphOf (g : Graph) (u v : Nat) : (g.addEdge u v).IsSupergraphOf g := by
  refine ⟨rfl, fun a b h => ?_⟩
  simp [Graph.addEdge, h]

theorem saturateNodeSets_isSupergraphOf (g : Graph) (sets : List (List Nat)) :
    (g.saturateNodeSets sets).IsSupergraphOf g := by
  refine ⟨rfl, fun a b h => ?_⟩
  simp [Graph.saturateNodeSets, h]

theorem makeNodeLBSimplicial_isSupergraphOf (g gi : Graph) (v : Nat) :
    (makeNodeLBSimplicial g gi v).IsSupergraphOf gi :=
  saturateNodeSets_isSupergraphOf gi _

theorem updateNodes_isSupergraphOf (v : Nat) (l : List Nat) (t : Graph)
    (q : IncreasingWeightNodeQueue) : (updateNodes v l t q).1.IsSupergraphOf t := by
  unfold updateNodes
  induction l generalizing t q with
  | nil => exact isSupergraphOf_refl t
  | cons u l ih =>
    simp only [List.foldl_cons]
    exact isSupergraphOf_trans (ih _ _) (addEdge_isSupergraphOf t u v)

theorem mscmIteration_isSupergraphOf (g : Graph) (c : Nat) (s : MSCMState) :
    (mscmIteration g c s).triangulation.IsSupergraphOf s.triangulation :=
  updateNodes_isSupergraphOf _ _ _ _

theorem mscmLoop_isSupergraphOf (g : Graph) (fuel : Nat) (tie : List Nat) (s : MSCMState) :
    (mscmLoop g fuel tie s).triangulation.IsSupergraphOf s.triangulation := by
  induction fuel generalizing tie s with
  | zero => exact isSupergraphOf_refl _
  | succ fuel ih =>
    unfold mscmLoop
    split
    · exact isSupergraphOf_refl _
    · exact isSupergraphOf_trans (ih _ _) (mscmIteration_isSupergraphOf g _ s)

theorem mscm_isSupergraphOf (tie : List Nat) (g : Graph) :
    (getMinimalTriangulationUsingMSCM tie g).IsSupergraphOf g :=
  mscmLoop_isSupergraphOf g _ tie (mscmInit g)

theorem foldl_makeNodeLBSimplicial_isSupergraphOf (g : Graph) (l : List Nat) (w : Graph) :
    (l.foldl (fun result v => makeNodeLBSimplicial g result v) w).IsSupergraphOf w := by
  induction l generalizing w with
  | nil => exact isSupergraphOf_refl w
  | cons v l ih =>
    simp only [List.foldl_cons]
    exact isSupergraphOf_trans (ih _) (makeNodeLBSimplicial_isSupergraphOf g w v)

theorem foldl_lbTriangStep_isSupergraphOf (g : Graph) (heuristic : TriangulationAlgorithm)
    (l : List Nat) (p : Graph × List Nat) :
    (l.foldl (lbTriangStep g heuristic) p).1.IsSupergraphOf p.1 := by
  induction l generalizing p with
  | nil => exact isSupergraphOf_refl _
  | cons i l ih =>
    simp only [List.foldl_cons]
    exact isSupergraphOf_trans (ih _) (makeNodeLBSimplicial_isSupergraphOf g p.1 _)

theorem lbTriang_isSupergraphOf (g : Graph) (heuristic : TriangulationAlgorithm) :
    (getMinimalTriangulationUsingLBTriang g heuristic).IsSupergraphOf g := by
  unfold getMinimalTriangulationUsingLBTriang
  split
  · exact foldl_makeNodeLBSimplicial_isSupergraphOf g _ g
  · exact foldl_lbTriangStep_isSupergraphOf g heuristic _ (g, g.getNodes)

/-- C3: under each of the four heuristic modes (and every tie-break of the queue),
`MinimalTriangulator::triangulate` returns a graph on the same nodes as the input in which
every edge of the input is present. -/
theorem triangulate_supergraph (t : MinimalTriangulator) (tie : List Nat) (g : Graph) :
    (t.triangulate tie g).numberOfNodes = g.numberOfNodes ∧
      ∀ a b, g.adj a b = true → (t.triangulate tie g).adj a b = true := by
  unfold MinimalTriangulator.triangulate
  split
  · exact mscm_isSupergraphOf tie g
  · exact lbTriang_isSupergraphOf g t.heuristic

/-! ## Saturating cliques changes nothing -/

/-- C10: if every node set returned by `getSubstars g w v` is already a clique of the working
graph `w`, then `makeNodeLBSimplicial g w v` has exactly the nodes and the edges of `w`. -/
theorem makeNodeLBSimplicial_cliques_unchanged (g w : Graph) (v : Nat)
    (h : ∀ s ∈ (getSubstars g w v).toSaturate, w.IsClique s) :
    (makeNodeLBSimplicial g w v).numberOfNodes = w.numberOfNodes ∧
      ∀ a b, (makeNodeLBSimplicial g w v).adj a b = w.adj a b := by
  refine ⟨rfl, fun a b => ?_⟩
  show (w.adj a b || (a != b && (getSubstars g w v).toSaturate.any
    (fun s => s.contains a && s.contains b))) = w.adj a b
  cases hab : w.adj a b with
  | true => rfl
  | false =>
    simp only [Bool.false_or]
    by_contra hc
    have hc' : (a != b && (getSubstars g w v).toSaturate.any
        (fun s => s.contains a && s.contains b)) = true := by
      simpa using hc
    simp only [Bool.and_eq_true, bne_iff_ne, ne_eq, List.any_eq_true,
      contains_iff_mem] at hc'
    obtain ⟨hne, s, hs, ha, hb⟩ := hc'
    have := h s hs a ha b hb hne
    rw [hab] at this
    exact Bool.false_ne_true this

theorem makeNodeLBSimplicial_cliques_unchanged_witness :
    (∀ s ∈ (getSubstars cycle4 cycle4Chord 0).toSaturate, cycle4Chord.IsClique s) ∧
      (getSubstars cycle4 cycle4Chord 0).toSaturate = [[1, 3]] ∧
      ((makeNodeLBSimplicial cycle4 cycle4Chord 0).numberOfNodes = cycle4Chord.numberOfNodes ∧
        ∀ a b, (makeNodeLBSimplicial cycle4 cycle4Chord 0).adj a b = cycle4Chord.adj a b) :=
  ⟨by decide, by decide, makeNodeLBSimplicial_cliques_unchanged cycle4 cycle4Chord 0 (by decide)⟩

/-! ## Ordering selectors -/

theorem foldl_min_spec {β : Type} [LinearOrder β] (f : Nat → β) (l : List Nat) (b : Nat) :
    (l.foldl (fun (best : Nat × β) it => if f it < best.2 then (it, f it) else best)
        (b, f b)).2 =
      f (l.foldl (fun (best : Nat × β) it => if f it < best.2 then (it, f it) else best)
        (b, f b)).1 ∧
    (((l.foldl (fun (best : Nat × β) it => if f it < best.2 then (it, f it) else best)
        (b, f b)).1 = b ∧ ∀ c ∈ l, f b ≤ f c) ∨
      ∃ pre post, l = pre ++ (l.foldl (fun (best : Nat × β) it =>
          if f it < best.2 then (it, f it) else best) (b, f b)).1 :: post ∧
        f (l.foldl (fun (best : Nat × β) it => if f it < best.2 then (it, f it) else best)
          (b, f b)).1 < f b ∧
        (∀ c ∈ pre, f (l.foldl (fun (best : Nat × β) it =>
          if f it < best.2 then (it, f it) else best) (b, f b)).1 < f c) ∧
        ∀ c ∈ l, f (l.foldl (fun (best : Nat × β) it =>
          if f it < best.2 then (it, f it) else best) (b, f b)).1 ≤ f c) := by
  induction l generalizing b with
  | nil => exact ⟨rfl, Or.inl ⟨rfl, fun _ h => absurd h (List.not_mem_nil _)⟩⟩
  | cons x l ih =>
    simp only [List.foldl_cons]
    by_cases hx : f x < f b
    · rw [if_pos hx]
      obtain ⟨h2, h⟩ := ih x
      refine ⟨h2, Or.inr ?_⟩
      rcases h with ⟨he, hall⟩ | ⟨pre, post, hl, hlt, hpre, hall⟩
      · refine ⟨[], l, ?_, ?_, ?_, ?_⟩
        · rw [he]; rfl
        · rw [he]; exact hx
        · intro c hc; exact absurd hc (List.not_mem_nil _)
        · intro c hc
          rw [he]
          rcases List.mem_cons.1 hc with rfl | hc
          · exact le_refl _
          · exact hall c hc
      · refine ⟨x :: pre, post, ?_, lt_trans hlt hx, ?_, ?_⟩
        · rw [List.cons_append]; exact congrArg _ hl
        · intro c hc
          rcases List.mem_cons.1 hc with rfl | hc
          · exact hlt
          · exact hpre c hc
        · intro c hc
          rcases List.mem_cons.1 hc with rfl | hc
          · exact le_of_lt hlt
          · exact hall c hc
    · rw [if_neg hx]
      obtain ⟨h2, h⟩ := ih b
      refine ⟨h2, ?_⟩
      rcases h with ⟨he, hall⟩ | ⟨pre, post, hl, hlt, hpre, hall⟩
      · refine Or.inl ⟨he, ?_⟩
        intro c hc
        rcases List.mem_cons.1 hc with rfl | hc
        · exact not_lt.1 hx
        · exact hall c hc
      · refine Or.inr ⟨x :: pre, post, ?_, hlt, ?_, ?_⟩
        · rw [List.cons_append]; exact congrArg _ hl
        · intro c hc
          rcases List.mem_cons.1 hc with rfl | hc
          · exact lt_of_lt_of_le hlt (not_lt.1 hx)
          · exact hpre c hc
        · intro c hc
          rcases List.mem_cons.1 hc with rfl | hc
          · exact le_of_lt (lt_of_lt_of_le hlt (not_lt.1 hx))
          · exact hall c hc

theorem first_min_of_sorted {β : Type} [LinearOrder β] (f : Nat → β) (first : Nat)
    (rest : List Nat) (hs : (first :: rest).Pairwise (fun a b => a < b)) :
    (((first :: rest).foldl (fun (best : Nat × β) it =>
        if f it < best.2 then (it, f it) else best) (first, f first)).1 ∈ first :: rest) ∧
    (∀ c ∈ first :: rest, f ((first :: rest).foldl (fun (best : Nat × β) it =>
        if f it < best.2 then (it, f it) else best) (first, f first)).1 ≤ f c) ∧
    (∀ c ∈ first :: rest, c < ((first :: rest).foldl (fun (best : Nat × β) it =>
        if f it < best.2 then (it, f it) else best) (first, f first)).1 →
      f ((first :: rest).foldl (fun (best : Nat × β) it =>
        if f it < best.2 then (it, f it) else best) (first, f first)).1 < f c) := by
  obtain ⟨_, h⟩ := foldl_min_spec f (first :: rest) first
  generalize ((first :: rest).foldl (fun (best : Nat × β) it =>
        if f it < best.2 then (it, f it) else best) (first, f first)).1 = r at h
  rcases h with ⟨he, hall⟩ | ⟨pre, post, hl, hlt, hpre, hall⟩
  · subst he
    refine ⟨List.mem_cons_self _ _, hall, ?_⟩
    intro c hc hlt
    rcases List.mem_cons.1 hc with rfl | hc
    · exact absurd hlt (lt_irrefl _)
    · exact absurd hlt (not_lt_of_lt ((List.pairwise_cons.1 hs).1 c hc))
  · refine ⟨?_, hall, ?_⟩
    · rw [hl]; simp
    · intro c hc hcr
      rw [hl] at hc hs
      rcases List.mem_append.1 hc with hc | hc
      · exact hpre c hc
      · rcases List.mem_cons.1 hc with rfl | hc
        · exact absurd hcr (lt_irrefl _)
        · have := (List.pairwise_cons.1 (List.pairwise_append.1 hs).2.1).1 c hc
          exact absurd hcr (not_lt_of_lt this)

/-- C7: on a non-empty candidate set (ascending, as a `std::set` iterates), `getMinDegree`
returns a candidate of minimal neighbour-set size, and every candidate with a smaller id has a
strictly larger neighbour set; `getMinFill` satisfies the same with `getFill` as the rank. -/
theorem getMinDegree_getMinFill_first_minimal (g : Graph) (options : List Nat)
    (hne : options ≠ []) (hs : options.Pairwise (fun a b => a < b)) :
    (getMinDegree g options ∈ options ∧
      (∀ c ∈ options,
        (g.getNeighbors (getMinDegree g options)).length ≤ (g.getNeighbors c).length) ∧
      (∀ c ∈ options, c < getMinDegree g options →
        (g.getNeighbors (getMinDegree g options)).length < (g.getNeighbors c).length)) ∧
    (getMinFill g options ∈ options ∧
      (∀ c ∈ options, getFill g (getMinFill g options) ≤ getFill g c) ∧
      (∀ c ∈ options, c < getMinFill g options →
        getFill g (getMinFill g options) < getFill g c)) := by
  cases options with
  | nil => exact absurd rfl hne
  | cons first rest =>
    exact ⟨first_min_of_sorted (fun it => (g.getNeighbors it).length) first rest hs,
      first_min_of_sorted (fun it => getFill g it) first rest hs⟩

theorem getMinDegree_getMinFill_first_minimal_witness :
    ([1, 2, 3] : List Nat) ≠ [] ∧ ([1, 2, 3] : List Nat).Pairwise (fun a b => a < b) ∧
    getMinDegree cycle4Chord [1, 2, 3] = 2 ∧ getMinFill cycle4Chord [1, 2, 3] = 2 ∧
    ((getMinDegree cycle4Chord [1, 2, 3] ∈ ([1, 2, 3] : List Nat) ∧
      (∀ c ∈ ([1, 2, 3] : List Nat),
        (cycle4Chord.getNeighbors (getMinDegree cycle4Chord [1, 2, 3])).length ≤
          (cycle4Chord.getNeighbors c).length) ∧
      (∀ c ∈ ([1, 2, 3] : List Nat), c < getMinDegree cycle4Chord [1, 2, 3] →
        (cycle4Chord.getNeighbors (getMinDegree cycle4Chord [1, 2, 3])).length <
          (cycle4Chord.getNeighbors c).length)) ∧
    (getMinFill cycle4Chord [1, 2, 3] ∈ ([1, 2, 3] : List Nat) ∧
      (∀ c ∈ ([1, 2, 3] : List Nat),
        getFill cycle4Chord (getMinFill cycle4Chord [1, 2, 3]) ≤ getFill cycle4Chord c) ∧
      (∀ c ∈ ([1, 2, 3] : List Nat), c < getMinFill cycle4Chord [1, 2, 3] →
        getFill cycle4Chord (getMinFill cycle4Chord [1, 2, 3]) < getFill cycle4Chord c))) :=
  ⟨by decide, by decide, by decide, by decide,
    getMinDegree_getMinFill_first_minimal cycle4Chord [1, 2, 3] (by decide) (by decide)⟩

/-! ## Fill estimator -/

theorem foldl_add_eq_sum (f : Nat → Int) (l : List Nat) (a : Int) :
    l.foldl (fun twice it => twice + f it) a = a + (l.map f).sum := by
  induction l generalizing a with
  | nil => simp
  | cons x l ih =>
    simp only [List.foldl_cons, List.map_cons, List.sum_cons]
    rw [ih]
    ring

theorem countP_remove_self (l : List Nat) (a : Nat) (p : Nat → Bool) (hl : l.Nodup)
    (ha : a ∈ l) (hp : p a = true) :
    l.countP p = l.countP (fun x => x != a && p x) + 1 := by
  induction l with
  | nil => exact absurd ha (List.not_mem_nil _)
  | cons x l ih =>
    have hnd := List.nodup_cons.1 hl
    by_cases hxa : x = a
    · subst hxa
      have h1 : ∀ y ∈ l, (p y = true ↔ (y != x && p y) = true) := by
        intro y hy
        have : y ≠ x := fun h => hnd.1 (h ▸ hy)
        simp [this]
      rw [List.countP_cons_of_pos _ _ hp, List.countP_cons_of_neg _ _ (by simp),
        List.countP_congr h1]
    · have ha' : a ∈ l := by
        rcases List.mem_cons.1 ha with h | h
        · exact absurd h.symm hxa
        · exact h
      have := ih hnd.2 ha'
      by_cases hpx : p x = true
      · rw [List.countP_cons_of_pos _ _ hpx, List.countP_cons_of_pos _ _ (by simp [hxa, hpx]),
          this]
      · rw [List.countP_cons_of_neg _ _ hpx, List.countP_cons_of_neg _ _ (by simp [hpx]), this]

theorem sum_map_add_indicator (c : Nat → Nat) (p : Nat → Bool) (l : List Nat) :
    (l.map (fun b => c b + if p b = true then 1 else 0)).sum = (l.map c).sum + l.countP p := by
  induction l with
  | nil => simp
  | cons y l ih =>
    simp only [List.map_cons, List.sum_cons, List.countP_cons, ih]
    ring

theorem sum_countP_comm (r : Nat → Nat → Bool) (l1 l2 : List Nat) :
    (l1.map (fun a => l2.countP (fun b => r a b))).sum =
      (l2.map (fun b => l1.countP (fun a => r a b))).sum := by
  induction l1 with
  | nil => simp
  | cons x l1 ih =>
    simp only [List.map_cons, List.sum_cons, ih, List.countP_cons]
    rw [sum_map_add_indicator (fun b => l1.countP (fun a => r a b)) (fun b => r x b) l2]
    ring

theorem countP_or_disjoint (p q : Nat → Bool) (l : List Nat)
    (h : ∀ x, ¬(p x = true ∧ q x = true)) :
    l.countP (fun x => p x || q x) = l.countP p + l.countP q := by
  induction l with
  | nil => simp
  | cons x l ih =>
    simp only [List.countP_cons, ih]
    have := h x
    cases hp : p x <;> cases hq : q x <;> simp_all <;> ring

theorem length_nonAdjacentPairs (g : Graph) (s l : List Nat) :
    (l.flatMap (fun a =>
        (s.filter (fun b => decide (a < b) && !g.adj a b)).map (fun b => (a, b)))).length =
      (l.map (fun a => s.countP (fun b => decide (a < b) && !g.adj a b))).sum := by
  induction l with
  | nil => simp
  | cons x l ih =>
    simp only [List.flatMap_cons, List.length_append, List.length_map, List.map_cons,
      List.sum_cons, ih, List.countP_eq_length_filter]

theorem sum_map_cast (f : Nat → Nat) (l : List Nat) :
    (l.map (fun it => ((f it : Nat) : Int))).sum = (((l.map f).sum : Nat) : Int) := by
  induction l with
  | nil => simp
  | cons a l ih => simp [ih]

theorem nodup_getNeighbors (g : Graph) (v : Nat) : (g.getNeighbors v).Nodup :=
  (List.nodup_range _).filter _

theorem fillTerm_eq (g : Graph) (hi : g.Irreflexive) (v it : Nat) (h : it ∈ g.getNeighbors v) :
    fillTerm g (g.getNeighbors v) it =
      (((g.getNeighbors v).countP (fun x => x != it && !g.adj it x) : Nat) : Int) := by
  unfold fillTerm
  have h1 : (g.getNeighbors v).filter (fun x => !(g.getNeighbors it).contains x) =
      (g.getNeighbors v).filter (fun x => !g.adj it x) := by
    apply List.filter_congr
    intro x hx
    have hxn := ((mem_getNeighbors g v x).1 hx).1
    cases hax : g.adj it x with
    | true =>
      have : x ∈ g.getNeighbors it := (mem_getNeighbors g it x).2 ⟨hxn, hax⟩
      simp [this]
    | false =>
      have : x ∉ g.getNeighbors it := fun hm => by
        have := ((mem_getNeighbors g it x).1 hm).2
        rw [hax] at this
        exact Bool.false_ne_true this
      simp [this]
  rw [h1, ← List.countP_eq_length_filter,
    countP_remove_self _ it (fun x => !g.adj it x) (nodup_getNeighbors g v) h (by simp [hi it])]
  push_cast
  ring

theorem twice_fill_eq (g : Graph) (hs : g.Symmetric) (s : List Nat) :
    (s.map (fun it => s.countP (fun x => x != it && !g.adj it x))).sum =
      2 * (g.nonAdjacentPairs s).length := by
  have hsplit : ∀ it, s.countP (fun x => x != it && !g.adj it x) =
      s.countP (fun x => decide (it < x) && !g.adj it x) +
        s.countP (fun x => decide (x < it) && !g.adj it x) := by
    intro it
    rw [← countP_or_disjoint _ _ s (by
      intro x hx
      simp only [Bool.and_eq_true, decide_eq_true_eq] at hx
      omega)]
    apply List.countP_congr
    intro x _
    by_cases h1 : it < x
    · have : x ≠ it := by omega
      simp [h1, this]
    · by_cases h2 : x < it
      · have : x ≠ it := by omega
        simp [h1, h2, this]
      · have : x = it := by omega
        simp [this]
  have hsum : (s.map (fun it => s.countP (fun x => x != it && !g.adj it x))).sum =
      (s.map (fun it => s.countP (fun x => decide (it < x) && !g.adj it x))).sum +
        (s.map (fun it => s.countP (fun x => decide (x < it) && !g.adj it x))).sum := by
    rw [← List.sum_map_add]
    exact congrArg List.sum (List.map_congr_left (fun it _ => hsplit it))
  have hswap : (s.map (fun it => s.countP (fun x => decide (x < it) && !g.adj it x))).sum =
      (s.map (fun it => s.countP (fun x => decide (it < x) && !g.adj it x))).sum := by
    rw [sum_countP_comm (fun it x => decide (x < it) && !g.adj it x) s s]
    apply congrArg List.sum
    apply List.map_congr_left
    intro b _
    apply List.countP_congr
    intro a _
    rw [hs a b]
  rw [hsum, hswap]
  unfold Graph.nonAdjacentPairs
  rw [length_nonAdjacentPairs]
  ring

theorem wrapInt32_add (a b : Int) : wrapInt32 (wrapInt32 a + b) = wrapInt32 (a + b) := by
  unfold wrapInt32
  omega

theorem wrapInt32_of_range (x : Int) (h1 : -2147483648 ≤ x) (h2 : x < 2147483648) :
    wrapInt32 x = x := by
  unfold wrapInt32
  omega

theorem foldl_wrapInt32 (f : Nat → Int) (l : List Nat) (a : Int) :
    l.foldl (fun twice it => wrapInt32 (twice + f it)) (wrapInt32 a) =
      wrapInt32 (a + (l.map f).sum) := by
  induction l generalizing a with
  | nil => simp
  | cons x l ih =>
    simp only [List.foldl_cons, List.map_cons, List.sum_cons]
    rw [wrapInt32_add, ih, add_assoc]

/-- The value of `getFill` on a graph with symmetric, irreflexive adjacency: twice the number
of non-adjacent pairs of neighbours of `v`, reduced into the range of `int`, then halved. -/
theorem getFill_eq_wrap (g : Graph) (hs : g.Symmetric) (hi : g.Irreflexive) (v : Nat) :
    getFill g v =
      Int.tdiv (wrapInt32 (2 * ((g.nonAdjacentPairs (g.getNeighbors v)).length : Int))) 2 := by
  unfold getFill
  have h0 : (0 : Int) = wrapInt32 0 := by decide
  rw [h0, foldl_wrapInt32, zero_add,
    List.map_congr_left (fun it hit => fillTerm_eq g hi v it hit)]
  have := twice_fill_eq g hs (g.getNeighbors v)
  have h2 : ((g.getNeighbors v).map (fun it =>
      (((g.getNeighbors v).countP (fun x => x != it && !g.adj it x) : Nat) : Int))).sum =
      (((2 * (g.nonAdjacentPairs (g.getNeighbors v)).length : Nat)) : Int) := by
    rw [← this]
    clear this
    exact sum_map_cast _ _
  rw [h2]
  push_cast
  rfl

/-- Within the range of `int`: for a graph with symmetric, irreflexive adjacency, when twice
the number of unordered pairs of distinct neighbours of `v` that are not adjacent in `g` is at
most `INT_MAX = 2^31 - 1`, `getFill g v` is that number of pairs; and it is 0 when `v` has at
most one neighbour. -/
theorem getFill_eq_nonAdjacentPairs (g : Graph) (hs : g.Symmetric) (hi : g.Irreflexive)
    (v : Nat) :
    (2 * ((g.nonAdjacentPairs (g.getNeighbors v)).length : Int) < 2147483648 →
      getFill g v = ((g.nonAdjacentPairs (g.getNeighbors v)).length : Int)) ∧
      ((g.getNeighbors v).length ≤ 1 → getFill g v = 0) := by
  have main : 2 * ((g.nonAdjacentPairs (g.getNeighbors v)).length : Int) < 2147483648 →
      getFill g v = ((g.nonAdjacentPairs (g.getNeighbors v)).length : Int) := by
    intro hsmall
    rw [getFill_eq_wrap g hs hi v, wrapInt32_of_range _ (by omega) hsmall, Int.mul_comm]
    exact Int.mul_tdiv_cancel _ (by decide)
  refine ⟨main, fun hle => ?_⟩
  have hl : g.nonAdjacentPairs (g.getNeighbors v) = [] := by
    unfold Graph.nonAdjacentPairs
    match hN : g.getNeighbors v, hle with
    | [], _ => rfl
    | [a], _ => simp
    | _ :: _ :: _, h => simp at h
  rw [main (by rw [hl]; decide), hl]
  rfl

theorem getFill_eq_nonAdjacentPairs_witness :
    cycle4Chord.Symmetric ∧ cycle4Chord.Irreflexive ∧ getFill cycle4Chord 1 = 1 ∧
    ((2 * ((cycle4Chord.nonAdjacentPairs (cycle4Chord.getNeighbors 1)).length : Int) <
        2147483648 →
      getFill cycle4Chord 1 =
        ((cycle4Chord.nonAdjacentPairs (cycle4Chord.getNeighbors 1)).length : Int)) ∧
      ((cycle4Chord.getNeighbors 1).length ≤ 1 → getFill cycle4Chord 1 = 0)) :=
  ⟨ofEdges_symmetric _ _, ofEdges_irreflexive _ _ (by decide), by decide,
    getFill_eq_nonAdjacentPairs cycle4Chord (ofEdges_symmetric _ _)
      (ofEdges_irreflexive _ _ (by decide)) 1⟩

/-! ## Walks -/

theorem Walk.mono {adj : Nat → Nat → Bool} {P Q : Nat → Prop} {a b : Nat}
    (h : ∀ x, P x → Q x) (w : Walk adj P a b) : Walk adj Q a b := by
  induction w with
  | refl b => exact Walk.refl b
  | step hadj hp _ ih => exact Walk.step hadj (h _ hp) ih

theorem Walk.snoc {adj : Nat → Nat → Bool} {P : Nat → Prop} {a b c : Nat}
    (w : Walk adj P a b) (hb : P b) (hbc : adj b c = true) : Walk adj P a c := by
  induction w with
  | refl b => exact Walk.step hbc hb (Walk.refl c)
  | step hadj hp _ ih => exact Walk.step hadj hp (ih hb hbc)

theorem Walk.append {adj : Nat → Nat → Bool} {P : Nat → Prop} {a b c : Nat}
    (w1 : Walk adj P a b) (w2 : Walk adj P b c) : Walk adj P a c := by
  induction w1 with
  | refl b => exact w2
  | step hadj hp _ ih => exact Walk.step hadj hp (ih w2)

theorem Walk.head_of_last {adj : Nat → Nat → Bool} {P : Nat → Prop} {a b : Nat}
    (w : Walk adj P a b) (hb : P b) : P a := by
  cases w with
  | refl => exact hb
  | step _ hp _ => exact hp

theorem Walk.reverse {adj : Nat → Nat → Bool} {P : Nat → Prop} {a b : Nat}
    (hsym : ∀ x y, adj x y = adj y x) (w : Walk adj P a b) (hb : P b) : Walk adj P b a := by
  induction w with
  | refl b => exact Walk.refl b
  | step hadj hp w ih =>
    exact Walk.snoc (ih hb) (w.head_of_last hb) (by rw [hsym]; exact hadj)

/-! ## Connected components -/

theorem mem_expand (g : Graph) (removed s : List Nat) (u : Nat) :
    u ∈ g.expand removed s ↔
      u < g.numberOfNodes ∧ (u ∈ s ∨ (u ∉ removed ∧ ∃ x ∈ s, g.adj x u = true)) := by
  simp [Graph.expand]

theorem mem_getNeighborsOfSet (g : Graph) (s : List Nat) (u : Nat) :
    u ∈ g.getNeighborsOfSet s ↔
      u < g.numberOfNodes ∧ u ∉ s ∧ ∃ x ∈ s, g.adj x u = true := by
  simp [Graph.getNeighborsOfSet, and_assoc]

/-- The `i`-th round of the component search from `s`. -/
theorem mem_expand_iterate_sound (g : Graph) (removed : List Nat) (s : Nat)
    (hs : g.Kept removed s) (i : Nat) (u : Nat)
    (hu : u ∈ (g.expand removed)^[i] ((List.range g.numberOfNodes).filter (fun u => u == s))) :
    g.Kept removed u ∧ Walk g.adj (g.Kept removed) s u := by
  induction i generalizing u with
  | zero =>
    simp only [Function.iterate_zero, id_eq, List.mem_filter, List.mem_range,
      beq_iff_eq] at hu
    rw [hu.2]
    exact ⟨hs, Walk.refl s⟩
  | succ i ih =>
    rw [Function.iterate_succ_apply', mem_expand] at hu
    rcases hu.2 with h | ⟨hr, x, hx, hadj⟩
    · exact ih u h
    · obtain ⟨hk, hw⟩ := ih x hx
      exact ⟨⟨hu.1, hr⟩, hw.snoc hk hadj⟩

theorem filter_eq_or_length_lt (p q : Nat → Bool) (l : List Nat)
    (h : ∀ x, p x = true → q x = true) :
    l.filter p = l.filter q ∨ (l.filter p).length < (l.filter q).length := by
  induction l with
  | nil => exact Or.inl rfl
  | cons x l ih =>
    have hle : (l.filter p).length ≤ (l.filter q).length := by
      rcases ih with h1 | h1
      · rw [h1]
      · exact Nat.le_of_lt h1
    cases hp : p x with
    | true =>
      have hq := h x hp
      rw [List.filter_cons_of_pos hp, List.filter_cons_of_pos hq]
      rcases ih with h1 | h1
      · exact Or.inl (by rw [h1])
      · exact Or.inr (by simp only [List.length_cons]; omega)
    | false =>
      have hp' : ¬ p x = true := by simp [hp]
      rw [List.filter_cons_of_neg hp']
      cases hq : q x with
      | true =>
        rw [List.filter_cons_of_pos hq]
        exact Or.inr (by simp only [List.length_cons]; omega)
      | false =>
        have hq' : ¬ q x = true := by simp [hq]
        rw [List.filter_cons_of_neg hq']
        exact ih

theorem filter_mem_self (p : Nat → Bool) (l : List Nat) :
    l.filter (fun u => decide (u ∈ l.filter p)) = l.filter p := by
  apply List.filter_congr
  intro x hx
  simp [hx]

theorem expand_eq_or_length_lt (g : Graph) (removed : List Nat) (p : Nat → Bool) :
    g.expand removed ((List.range g.numberOfNodes).filter p) =
        (List.range g.numberOfNodes).filter p ∨
      ((List.range g.numberOfNodes).filter p).length <
        (g.expand removed ((List.range g.numberOfNodes).filter p)).length := by
  have := filter_eq_or_length_lt
    (fun u => decide (u ∈ (List.range g.numberOfNodes).filter p))
    (fun u => ((List.range g.numberOfNodes).filter p).contains u ||
      (!removed.contains u && ((List.range g.numberOfNodes).filter p).any (fun x => g.adj x u)))
    (List.range g.numberOfNodes) (by
      intro x hx
      have hx' : x ∈ (List.range g.numberOfNodes).filter p := by simpa using hx
      simp only [Bool.or_eq_true, contains_iff_mem]
      exact Or.inl hx')
  rw [filter_mem_self] at this
  rcases this with h | h
  · exact Or.inl h.symm
  · exact Or.inr h

theorem expand_iterate_is_filter (g : Graph) (removed : List Nat) (s : Nat) (i : Nat) :
    ∃ p : Nat → Bool,
      (g.expand removed)^[i] ((List.range g.numberOfNodes).filter (fun u => u == s)) =
        (List.range g.numberOfNodes).filter p := by
  cases i with
  | zero => exact ⟨_, rfl⟩
  | succ i =>
    rw [Function.iterate_succ_apply']
    exact ⟨_, rfl⟩

theorem expand_iterate_stable_or_long (g : Graph) (removed : List Nat) (s : Nat)
    (hs : s < g.numberOfNodes) (i : Nat) :
    g.expand removed
        ((g.expand removed)^[i] ((List.range g.numberOfNodes).filter (fun u => u == s))) =
      (g.expand removed)^[i] ((List.range g.numberOfNodes).filter (fun u => u == s)) ∨
    i < ((g.expand removed)^[i]
      ((List.range g.numberOfNodes).filter (fun u => u == s))).length := by
  induction i with
  | zero =>
    right
    simp only [Function.iterate_zero, id_eq]
    apply List.length_pos_of_mem (a := s)
    simp [hs]
  | succ i ih =>
    rcases ih with h | h
    · left
      rw [Function.iterate_succ_apply', h, h]
    · obtain ⟨p, hp⟩ := expand_iterate_is_filter g removed s i
      rw [Function.iterate_succ_apply']
      rw [hp] at h ⊢
      rcases expand_eq_or_length_lt g removed p with h1 | h1
      · left
        rw [h1, h1]
      · right
        omega

theorem componentOf_stable (g : Graph) (removed : List Nat) (s : Nat)
    (hs : s < g.numberOfNodes) :
    g.expand removed (g.componentOf removed s) = g.componentOf removed s := by
  unfold Graph.componentOf
  rcases expand_iterate_stable_or_long g removed s hs g.numberOfNodes with h | h
  · exact h
  · exfalso
    obtain ⟨p, hp⟩ := expand_iterate_is_filter g removed s g.numberOfNodes
    rw [hp] at h
    have := List.length_filter_le p (List.range g.numberOfNodes)
    rw [List.length_range] at this
    omega

theorem self_mem_expand_iterate (g : Graph) (removed : List Nat) (s : Nat)
    (hs : s < g.numberOfNodes) (i : Nat) :
    s ∈ (g.expand removed)^[i] ((List.range g.numberOfNodes).filter (fun u => u == s)) := by
  induction i with
  | zero => simp [hs]
  | succ i ih =>
    rw [Function.iterate_succ_apply', mem_expand]
    exact ⟨hs, Or.inl ih⟩

theorem mem_componentOf (g : Graph) (removed : List Nat) (s : Nat) (hs : g.Kept removed s)
    (u : Nat) :
    u ∈ g.componentOf removed s ↔ g.Kept removed u ∧ Walk g.adj (g.Kept removed) s u := by
  constructor
  · exact mem_expand_iterate_sound g removed s hs _ u
  · rintro ⟨hu, hw⟩
    have hstart : s ∈ g.componentOf removed s := self_mem_expand_iterate g removed s hs.1 _
    have hstable := componentOf_stable g removed s hs.1
    generalize g.componentOf removed s = c at hstart hstable
    clear hs
    induction hw with
    | refl b => exact hstart
    | step hadj _ w ih =>
      apply ih hu
      rw [← hstable, mem_expand]
      have hx := w.head_of_last hu
      exact ⟨hx.1, Or.inr ⟨hx.2, _, hstart, hadj⟩⟩

theorem componentOf_isComponent (g : Graph) (removed : List Nat) (s : Nat)
    (hs : g.Kept removed s) : g.IsComponentExcluding removed (g.componentOf removed s) :=
  ⟨s, hs, mem_componentOf g removed s hs⟩

theorem mem_getComponentsEfficient_aux (g : Graph) (removed : List Nat) (l : List Nat)
    (hl : ∀ s ∈ l, s < g.numberOfNodes) (found : List (List Nat)) (c : List Nat)
    (hc : c ∈ l.foldl (fun found s =>
      if removed.contains s || found.any (fun c => c.contains s) then found
      else found ++ [g.componentOf removed s]) found) :
    c ∈ found ∨ ∃ s, g.Kept removed s ∧ c = g.componentOf removed s := by
  induction l generalizing found with
  | nil => exact Or.inl hc
  | cons x l ih =>
    simp only [List.foldl_cons] at hc
    have hx := hl x (List.mem_cons_self _ _)
    have hl' : ∀ s ∈ l, s < g.numberOfNodes := fun s h => hl s (List.mem_cons_of_mem _ h)
    split at hc
    · exact ih hl' _ hc
    · rename_i hcond
      rcases ih hl' _ hc with h | h
      · rcases List.mem_append.1 h with h | h
        · exact Or.inl h
        · right
          refine ⟨x, ⟨hx, ?_⟩, List.mem_singleton.1 h⟩
          intro hmem
          apply hcond
          simp [hmem]
      · exact Or.inr h

theorem mem_getComponentsEfficient (g : Graph) (removed : List Nat) (c : List Nat)
    (hc : c ∈ g.getComponentsEfficient removed) :
    ∃ s, g.Kept removed s ∧ c = g.componentOf removed s := by
  rcases mem_getComponentsEfficient_aux g removed _ (fun s h => List.mem_range.1 h) [] c hc
    with h | h
  · exact absurd h (List.not_mem_nil _)
  · exact h

theorem mem_foldl_markForSaturation (g : Graph) (l : List (List Nat)) (sat : NodeSetStaturator)
    (s : List Nat) :
    s ∈ (l.foldl (fun saturator c => saturator.markForSaturation (g.getNeighborsOfSet c))
      sat).toSaturate ↔ s ∈ sat.toSaturate ∨ ∃ c ∈ l, s = g.getNeighborsOfSet c := by
  induction l generalizing sat with
  | nil => simp
  | cons x l ih =>
    rw [List.foldl_cons, ih]
    simp only [NodeSetStaturator.markForSaturation, mem_setInsert, List.mem_cons]
    constructor
    · rintro ((h | h) | ⟨c, hc, h⟩)
      · exact Or.inr ⟨x, Or.inl rfl, h⟩
      · exact Or.inl h
      · exact Or.inr ⟨c, Or.inr hc, h⟩
    · rintro (h | ⟨c, hc | hc, h⟩)
      · exact Or.inl (Or.inr h)
      · subst hc; exact Or.inl (Or.inl h)
      · exact Or.inr ⟨c, hc, h⟩

theorem mem_getSubstars (g w : Graph) (v : Nat) (s : List Nat) :
    s ∈ (getSubstars g w v).toSaturate ↔
      ∃ c ∈ g.getComponentsEfficient (setInsert nodeLt v (w.getNeighbors v)),
        s = g.getNeighborsOfSet c := by
  unfold getSubstars
  simp only [mem_foldl_markForSaturation, List.not_mem_nil, false_or]

theorem ofEdges_isSupergraphOf (n : Nat) (es es' : List (Nat × Nat))
    (h : ∀ e ∈ es, e ∈ es') : (Graph.ofEdges n es').IsSupergraphOf (Graph.ofEdges n es) := by
  refine ⟨rfl, fun a b hab => ?_⟩
  have hab' : (a, b) ∈ es ∨ (b, a) ∈ es := by simpa [Graph.ofEdges] using hab
  have : (a, b) ∈ es' ∨ (b, a) ∈ es' := hab'.imp (h _) (h _)
  simpa [Graph.ofEdges] using this

/-! ## The sets marked by `getSubstars` -/

theorem getSubstars_set_subset_removed (g : Graph) (removed : List Nat) (s x : Nat)
    (hs : g.Kept removed s) (hx : x ∈ g.getNeighborsOfSet (g.componentOf removed s)) :
    x ∈ removed := by
  rw [mem_getNeighborsOfSet] at hx
  obtain ⟨hxn, hxc, y, hy, hadj⟩ := hx
  by_contra hr
  apply hxc
  rw [mem_componentOf g removed s hs] at hy ⊢
  exact ⟨⟨hxn, hr⟩, hy.2.snoc hy.1 hadj⟩

theorem getSubstars_set_not_mem (g w : Graph) (hsym : g.Symmetric) (hw : w.IsSupergraphOf g)
    (v s : Nat) (hs : g.Kept (setInsert nodeLt v (w.getNeighbors v)) s) :
    v ∉ g.getNeighborsOfSet (g.componentOf (setInsert nodeLt v (w.getNeighbors v)) s) := by
  intro hv
  rw [mem_getNeighborsOfSet] at hv
  obtain ⟨_, _, y, hy, hadj⟩ := hv
  rw [mem_componentOf g _ s hs] at hy
  apply hy.1.2
  rw [mem_setInsert]
  right
  rw [mem_getNeighbors]
  refine ⟨by rw [hw.1]; exact hy.1.1, hw.2 _ _ ?_⟩
  rw [hsym]
  exact hadj

theorem getSubstars_sets_core (g w : Graph) (hsym : g.Symmetric) (hw : w.IsSupergraphOf g)
    (v : Nat) (s : List Nat) (hs : s ∈ (getSubstars g w v).toSaturate) :
    (∃ c, g.IsComponentExcluding (setInsert nodeLt v (w.getNeighbors v)) c ∧
        s = g.getNeighborsOfSet c) ∧
      (∀ x ∈ s, x ∈ w.getNeighbors v) ∧ v ∉ s := by
  rw [mem_getSubstars] at hs
  obtain ⟨c, hc, rfl⟩ := hs
  obtain ⟨s0, hs0, rfl⟩ := mem_getComponentsEfficient g _ c hc
  have hv := getSubstars_set_not_mem g w hsym hw v s0 hs0
  refine ⟨⟨_, componentOf_isComponent g _ s0 hs0, rfl⟩, ?_, hv⟩
  intro x hx
  have := getSubstars_set_subset_removed g _ s0 x hs0 hx
  rw [mem_setInsert] at this
  rcases this with h | h
  · subst h
    exact absurd hx hv
  · exact h

/-- C8: for a graph `g` (symmetric adjacency), a working graph `w` on the same nodes that
contains every edge of `g`, and a node `v`: each node set marked for saturation by
`getSubstars g w v` is the neighbour set in `g` of a connected component of `g` with the closed
`w`-neighbourhood of `v` removed, is contained in the neighbour set of `v` in `w`, and does not
contain `v`. -/
theorem getSubstars_sets (g w : Graph) (hsym : g.Symmetric) (hw : w.IsSupergraphOf g) (v : Nat)
    (s : List Nat) (hs : s ∈ (getSubstars g w v).toSaturate) :
    (∃ c, g.IsComponentExcluding (setInsert nodeLt v (w.getNeighbors v)) c ∧
        s = g.getNeighborsOfSet c) ∧
      (∀ x ∈ s, x ∈ w.getNeighbors v) ∧ v ∉ s :=
  getSubstars_sets_core g w hsym hw v s hs

theorem getSubstars_sets_witness :
    cycle4.Symmetric ∧ cycle4Chord.IsSupergraphOf cycle4 ∧
    [1, 3] ∈ (getSubstars cycle4 cycle4Chord 0).toSaturate ∧
    ((∃ c, cycle4.IsComponentExcluding (setInsert nodeLt 0 (cycle4Chord.getNeighbors 0)) c ∧
        [1, 3] = cycle4.getNeighborsOfSet c) ∧
      (∀ x ∈ [1, 3], x ∈ cycle4Chord.getNeighbors 0) ∧ 0 ∉ [1, 3]) :=
  ⟨ofEdges_symmetric _ _, ofEdges_isSupergraphOf _ _ _ (by decide), by decide,
    getSubstars_sets cycle4 cycle4Chord (ofEdges_symmetric _ _)
      (ofEdges_isSupergraphOf _ _ _ (by decide)) 0 [1, 3] (by decide)⟩

/-! ## Minimal separators -/

theorem getNeighborsOfSet_componentOf_full (g : Graph) (removed : List Nat) (s0 : Nat)
    (hs0 : g.Kept removed s0) :
    g.IsComponentExcluding (g.getNeighborsOfSet (g.componentOf removed s0))
      (g.componentOf removed s0) := by
  have hsub : ∀ x, g.Kept removed x →
      g.Kept (g.getNeighborsOfSet (g.componentOf removed s0)) x :=
    fun x hx => ⟨hx.1, fun hm => hx.2 (getSubstars_set_subset_removed g removed s0 x hs0 hm)⟩
  refine ⟨s0, hsub s0 hs0, fun u => ⟨fun hu => ?_, fun hu => ?_⟩⟩
  · rw [mem_componentOf g removed s0 hs0] at hu
    exact ⟨hsub u hu.1, hu.2.mono hsub⟩
  · obtain ⟨hku, hwalk⟩ := hu
    have hstart : s0 ∈ g.componentOf removed s0 :=
      (mem_componentOf g removed s0 hs0 s0).2 ⟨hs0, Walk.refl s0⟩
    generalize hc : g.componentOf removed s0 = c at hku hwalk hstart
    clear hsub hs0 hc
    induction hwalk with
    | refl b => exact hstart
    | step hadj _ w ih =>
      apply ih hku
      have hx := w.head_of_last hku
      by_contra hxc
      exact hx.2 ((mem_getNeighborsOfSet g c _).2 ⟨hx.1, hxc, _, hstart, hadj⟩)

theorem getNeighborsOfSet_congr (g : Graph) (c : List Nat) (s : List Nat)
    (p : Nat → Bool) (hs : s = (List.range g.numberOfNodes).filter p)
    (h : ∀ u, u ∈ g.getNeighborsOfSet c ↔ u ∈ s) : g.getNeighborsOfSet c = s := by
  rw [hs]
  unfold Graph.getNeighborsOfSet
  apply List.filter_congr
  intro u hu
  have h1 := h u
  rw [hs] at h1
  simp only [Graph.getNeighborsOfSet, List.mem_filter, hu, true_and] at h1
  exact Bool.eq_iff_iff.2 h1

/-- For a graph `g` with symmetric adjacency, any graph `w` on the same nodes that contains
every edge of `g`, and a node `v` of `g`: each node set `s` marked by
`getSubstars g w v` is the neighbour set in `g` of a connected component of `g` with `s`
removed; and when every neighbour of `v` in `w` is a neighbour of `v` in `g` (in particular
when `w = g`), `s` is a minimal separator of `g`. -/
theorem getSubstars_minimal_separator (g w : Graph) (hsym : g.Symmetric)
    (hw : w.IsSupergraphOf g) (v : Nat) (hv : v < g.numberOfNodes) (s : List Nat)
    (hs : s ∈ (getSubstars g w v).toSaturate) :
    (∃ c, g.IsComponentExcluding s c ∧ g.getNeighborsOfSet c = s) ∧
      ((∀ x, w.adj v x = true → g.adj v x = true) → g.IsMinimalSeparator s) := by
  obtain ⟨_, hsubset, hvs⟩ := getSubstars_sets_core g w hsym hw v s hs
  rw [mem_getSubstars] at hs
  obtain ⟨c, hc, rfl⟩ := hs
  obtain ⟨s0, hs0, rfl⟩ := mem_getComponentsEfficient g _ c hc
  have hfull := getNeighborsOfSet_componentOf_full g _ s0 hs0
  refine ⟨⟨_, hfull, rfl⟩, fun hnb => ?_⟩
  generalize hS : g.getNeighborsOfSet
    (g.componentOf (setInsert nodeLt v (w.getNeighbors v)) s0) = S at hfull hsubset hvs
  have hkv : g.Kept S v := ⟨hv, hvs⟩
  have hvD : v ∈ g.componentOf S v := (mem_componentOf g S v hkv v).2 ⟨hkv, Walk.refl v⟩
  refine ⟨g.componentOf S v, _, componentOf_isComponent g S v hkv, hfull, ⟨v, hvD, ?_⟩, ?_, hS⟩
  · intro hvC
    rw [mem_componentOf g _ s0 hs0] at hvC
    exact hvC.1.2 ((mem_setInsert _ _ _ _).2 (Or.inl rfl))
  · apply getNeighborsOfSet_congr g _ S _ hS.symm
    intro u
    constructor
    · intro hu
      rw [mem_getNeighborsOfSet] at hu
      obtain ⟨hun, huD, y, hy, hadj⟩ := hu
      by_contra huS
      apply huD
      rw [mem_componentOf g S v hkv] at hy ⊢
      exact ⟨⟨hun, huS⟩, hy.2.snoc hy.1 hadj⟩
    · intro hu
      have h1 := hsubset u hu
      rw [mem_getNeighbors] at h1
      rw [mem_getNeighborsOfSet]
      refine ⟨by rw [← hw.1]; exact h1.1, ?_, v, hvD, hnb u h1.2⟩
      intro huD
      rw [mem_componentOf g S v hkv] at huD
      exact huD.1.2 hu

theorem getSubstars_minimal_separator_witness :
    cycle4.Symmetric ∧ cycle4.IsSupergraphOf cycle4 ∧ 0 < cycle4.numberOfNodes ∧
    [1, 3] ∈ (getSubstars cycle4 cycle4 0).toSaturate ∧
    ((∃ c, cycle4.IsComponentExcluding [1, 3] c ∧ cycle4.getNeighborsOfSet c = [1, 3]) ∧
      ((∀ x, cycle4.adj 0 x = true → cycle4.adj 0 x = true) →
        cycle4.IsMinimalSeparator [1, 3])) :=
  ⟨ofEdges_symmetric _ _, isSupergraphOf_refl _, by decide, by decide,
    getSubstars_minimal_separator cycle4 cycle4 (ofEdges_symmetric _ _)
      (isSupergraphOf_refl _) 0 (by decide) [1, 3] (by decide)⟩

theorem edge12_component_start (s : Nat) (c : List Nat) (hs : edge12.Kept [1] s)
    (hm : ∀ u, u ∈ c ↔ edge12.Kept [1] u ∧ Walk edge12.adj (edge12.Kept [1]) s u)
    (hn : edge12.getNeighborsOfSet c = [1]) : s = 2 := by
  have h1 : 1 ∈ edge12.getNeighborsOfSet c := by rw [hn]; exact List.mem_singleton.2 rfl
  rw [mem_getNeighborsOfSet] at h1
  obtain ⟨_, _, y, hy, hadj⟩ := h1
  have hy2 : y = 2 := by
    have : (y, 1) ∈ [(1, 2)] ∨ (1, y) ∈ [(1, 2)] := by
      simpa [edge12, Graph.ofEdges] using hadj
    simp at this
    exact this
  subst hy2
  have hwalk := ((hm 2).1 hy).2
  obtain ⟨hlt, hne⟩ := hs
  have hlt' : s < 3 := hlt
  have hne' : s ≠ 1 := by simpa using hne
  by_contra h2
  have h0 : s = 0 := by omega
  subst h0
  cases hwalk with
  | step hadj0 _ _ => simp [edge12, Graph.ofEdges] at hadj0

/-- The second graph passed to `getSubstars` matters.  Here `g` has the nodes 0, 1, 2 and the
single edge 1-2, and `w` has the edges 0-1 and 1-2: it contains every edge of `g`, but it is
not a working graph of LB-Triang on `g`, which adds no edge to `g`.  For `v = 0`, `getSubstars`
marks the set `{1}`, which is not a minimal separator of `g`: of the two components of `g`
without node 1, only `{2}` has the neighbour set `{1}`. -/
theorem getSubstars_not_minimal_separator :
    edge12.WellFormed ∧ path3.WellFormed ∧ path3.IsSupergraphOf edge12 ∧
      [1] ∈ (getSubstars edge12 path3 0).toSaturate ∧ ¬ edge12.IsMinimalSeparator [1] := by
  refine ⟨ofEdges_wellFormed _ _ (by decide), ofEdges_wellFormed _ _ (by decide),
    ofEdges_isSupergraphOf _ _ _ (by decide), by decide, ?_⟩
  rintro ⟨c1, c2, ⟨s1, hs1, hm1⟩, ⟨s2, hs2, hm2⟩, ⟨x, hx1, hx2⟩, hn1, hn2⟩
  have e1 := edge12_component_start s1 c1 hs1 hm1 hn1
  have e2 := edge12_component_start s2 c2 hs2 hm2 hn2
  subst e1 e2
  exact hx2 ((hm2 x).2 ((hm1 x).1 hx1))

/-! ## Buckets -/

theorem getD_modify (f : List Nat → List Nat) (l : List (List Nat)) (i j : Nat) :
    (l.modify f i).getD j [] =
      if j = i ∧ i < l.length then f (l.getD j []) else l.getD j [] := by
  induction l generalizing i j with
  | nil => simp
  | cons b l ih =>
    cases i with
    | zero =>
      cases j with
      | zero => simp
      | succ j => simp
    | succ i =>
      cases j with
      | zero => simp
      | succ j =>
        simp only [List.modify_succ_cons, List.getD_cons_succ, ih, List.length_cons]
        simp only [Nat.add_lt_add_iff_right, Nat.add_right_cancel_iff]

theorem mem_getD_modify_append (l : List (List Nat)) (i j u x : Nat) :
    x ∈ (l.modify (fun b => b ++ [u]) i).getD j [] ↔
      x ∈ l.getD j [] ∨ (j = i ∧ i < l.length ∧ x = u) := by
  rw [getD_modify]
  split
  · rename_i h
    simp only [List.mem_append, List.mem_singleton]
    constructor
    · rintro (h1 | h1)
      · exact Or.inl h1
      · exact Or.inr ⟨h.1, h.2, h1⟩
    · rintro (h1 | h1)
      · exact Or.inl h1
      · exact Or.inr h1.2.2
  · rename_i h
    constructor
    · exact Or.inl
    · rintro (h1 | h1)
      · exact h1
      · exact absurd ⟨h1.1, h1.2.1⟩ h

theorem sum_length_modify_le (f : List Nat → List Nat) (hf : ∀ b, (f b).length ≤ b.length + 1)
    (l : List (List Nat)) (i : Nat) :
    ((l.modify f i).map List.length).sum ≤ (l.map List.length).sum + 1 := by
  induction l generalizing i with
  | nil => simp
  | cons b l ih =>
    cases i with
    | zero =>
      simp only [List.modify_zero_cons, List.map_cons, List.sum_cons]
      have := hf b
      omega
    | succ i =>
      simp only [List.modify_succ_cons, List.map_cons, List.sum_cons]
      have := ih i
      omega

theorem sum_length_modify_dropLast (l : List (List Nat)) (i : Nat) (h : l.getD i [] ≠ []) :
    ((l.modify List.dropLast i).map List.length).sum + 1 = (l.map List.length).sum := by
  induction l generalizing i with
  | nil => simp at h
  | cons b l ih =>
    cases i with
    | zero =>
      simp only [List.getD_cons_zero] at h
      simp only [List.modify_zero_cons, List.map_cons, List.sum_cons, List.length_dropLast]
      have := List.length_pos.2 h
      omega
    | succ i =>
      simp only [List.getD_cons_succ] at h
      simp only [List.modify_succ_cons, List.map_cons, List.sum_cons]
      have := ih i h
      omega

theorem getD_eq_nil_of_sum_length (l : List (List Nat)) (h : (l.map List.length).sum = 0)
    (j : Nat) : l.getD j [] = [] := by
  induction l generalizing j with
  | nil => simp
  | cons b l ih =>
    simp only [List.map_cons, List.sum_cons] at h
    cases j with
    | zero =>
      simp only [List.getD_cons_zero]
      exact List.length_eq_zero.1 (by omega)
    | succ j =>
      simp only [List.getD_cons_succ]
      exact ih (by omega) j

theorem countP_reach_new (h reached : Nat → Bool) (n u : Nat) (hu : u < n) (hh : h u = false)
    (hr : reached u = false) :
    (List.range n).countP (fun x => !h x && !(x == u || reached x)) + 1 =
      (List.range n).countP (fun x => !h x && !reached x) := by
  rw [countP_remove_self (List.range n) u (fun x => !h x && !reached x) (List.nodup_range n)
    (List.mem_range.2 hu) (by simp [hh, hr])]
  congr 1
  apply List.countP_congr
  intro x _
  by_cases hx : x = u <;> simp [hx, hr]

/-! ## The search of one outer iteration -/

theorem SearchInv.mono_pend {g : Graph} {w : Nat → Nat} {h : Nat → Bool} {v m : Nat}
    {pendSeed : Nat → Prop} {pend pend' : Nat → Nat → Prop} {st : ReachState}
    (hinv : SearchInv g w h v m pendSeed pend st)
    (hp : ∀ a b, h b = false → pend a b → st.reached b = true ∨ pend' a b) :
    SearchInv g w h v m pendSeed pend' st where
  len := hinv.len
  nodup := hinv.nodup
  upd_reached := hinv.upd_reached
  reached_ok := hinv.reached_ok
  seeds := hinv.seeds
  upd_sound := hinv.upd_sound
  upd_or_low := hinv.upd_or_low
  bucket_mem := hinv.bucket_mem
  processed := by
    intro x hx
    rcases hinv.processed x hx with h1 | ⟨h1, h2⟩
    · exact Or.inl h1
    · refine Or.inr ⟨h1, fun u hu hadj hhu => ?_⟩
      rcases h2 u hu hadj hhu with h3 | h3
      · exact Or.inl h3
      · exact hp x u hhu h3
  complete := hinv.complete

theorem SearchInv.step_visit {g : Graph} {q : IncreasingWeightNodeQueue} {h : Nat → Bool}
    {v m : Nat} {pendSeed : Nat → Prop} {st : ReachState} {x u : Nat} {rest : List Nat}
    (hwt : ∀ a, a < g.numberOfNodes → h a = false → q.weight a < g.numberOfNodes)
    (hm : m < g.numberOfNodes)
    (hinv : SearchInv g q.weight h v m pendSeed (fun a b => a = x ∧ b ∈ u :: rest) st)
    (hu : u < g.numberOfNodes) (hxu : g.adj x u = true) (hx : q.weight x ≤ m)
    (hxk : x < g.numberOfNodes ∧ h x = false)
    (hxr : ∃ x0, g.adj v x0 = true ∧
      Walk g.adj (fun a => a < g.numberOfNodes ∧ h a = false ∧ q.weight a ≤ m) x0 x) :
    SearchInv g q.weight h v m pendSeed (fun a b => a = x ∧ b ∈ rest)
      (visitNeighbor q h m st u) := by
  unfold visitNeighbor
  split
  · rename_i hcond
    simp only [Bool.and_eq_true, Bool.not_eq_true', IncreasingWeightNodeQueue.getWeight]
      at hcond ⊢
    obtain ⟨hhu, hru⟩ := hcond
    have hnotin : u ∉ st.nodesToUpdate := fun hmem => by
      have := hinv.upd_reached u hmem
      rw [hru] at this
      exact Bool.false_ne_true this
    have hwalk : ∀ k, m ≤ k → ∃ x0, g.adj v x0 = true ∧
        Walk g.adj (fun a => a < g.numberOfNodes ∧ h a = false ∧ q.weight a ≤ k) x0 u := by
      intro k hk
      obtain ⟨x0, hx0, hw0⟩ := hxr
      exact ⟨x0, hx0, (hw0.mono (fun a ha => ⟨ha.1, ha.2.1, le_trans ha.2.2 hk⟩)).snoc
        ⟨hxk.1, hxk.2, le_trans hx hk⟩ hxu⟩
    have hupd_mono : ∀ a, a ∈ st.nodesToUpdate →
        a ∈ (if q.weight u > m then st.nodesToUpdate ++ [u] else st.nodesToUpdate) := by
      intro a ha
      split
      · exact List.mem_append_left _ ha
      · exact ha
    have hupd_cases : ∀ a,
        a ∈ (if q.weight u > m then st.nodesToUpdate ++ [u] else st.nodesToUpdate) →
        a ∈ st.nodesToUpdate ∨ (a = u ∧ m < q.weight u) := by
      intro a ha
      split at ha
      · rename_i hgt
        rcases List.mem_append.1 ha with h1 | h1
        · exact Or.inl h1
        · exact Or.inr ⟨List.mem_singleton.1 h1, hgt⟩
      · exact Or.inl ha
    refine ⟨?_, ?_, ?_, ?_, ?_, ?_, ?_, ?_, ?_, ?_⟩
    · simp only [List.length_modify]
      exact hinv.len
    · show (if q.weight u > m then st.nodesToUpdate ++ [u] else st.nodesToUpdate).Nodup
      split
      · exact List.Nodup.append hinv.nodup (List.nodup_singleton u)
          (by
            intro a ha hb
            rw [List.mem_singleton.1 hb] at ha
            exact hnotin ha)
      · exact hinv.nodup
    · intro a ha
      show (a == u || st.reached a) = true
      rcases hupd_cases a ha with h1 | h1
      · simp [hinv.upd_reached a h1]
      · simp [h1.1]
    · intro a ha
      have ha' : (a == u || st.reached a) = true := ha
      simp only [Bool.or_eq_true, beq_iff_eq] at ha'
      rcases ha' with h1 | h1
      · rw [h1]; exact ⟨hu, hhu⟩
      · exact hinv.reached_ok a h1
    · intro a ha hadj hha
      rcases hinv.seeds a ha hadj hha with h1 | h1
      · exact Or.inl (hupd_mono a h1)
      · exact Or.inr h1
    · intro a ha
      rcases hupd_cases a ha with h1 | ⟨h1, h2⟩
      · exact hinv.upd_sound a h1
      · subst h1
        obtain ⟨x0, hx0, hw0⟩ := hxr
        refine ⟨hu, hhu, x0, hx0, ?_⟩
        exact (hw0.mono (fun b hb => ⟨hb.1, hb.2.1, lt_of_le_of_lt hb.2.2 h2⟩)).snoc
          ⟨hxk.1, hxk.2, lt_of_le_of_lt hx h2⟩ hxu
    · intro a ha
      have ha' : (a == u || st.reached a) = true := ha
      simp only [Bool.or_eq_true, beq_iff_eq] at ha'
      show a ∈ (if q.weight u > m then st.nodesToUpdate ++ [u] else st.nodesToUpdate) ∨ _
      rcases ha' with h1 | h1
      · subst h1
        by_cases hgt : q.weight a > m
        · left
          rw [if_pos hgt]
          exact List.mem_append_right _ (List.mem_singleton.2 rfl)
        · right
          omega
      · rcases hinv.upd_or_low a h1 with h2 | h2
        · exact Or.inl (hupd_mono a h2)
        · exact Or.inr h2
    · intro j a ha
      have ha' := (mem_getD_modify_append _ _ _ _ _).1 ha
      show (a == u || st.reached a) = true ∧ _
      rcases ha' with h1 | ⟨h1, _, h3⟩
      · obtain ⟨b1, b2⟩ := hinv.bucket_mem j a h1
        exact ⟨by simp [b1], b2⟩
      · subst h3
        refine ⟨by simp, ?_, ?_, ?_, hwalk j ?_⟩
        · rw [h1]; exact le_max_left _ _
        · rw [h1]; exact le_max_right _ _
        · rw [h1]
          rcases le_total (q.weight a) m with h4 | h4
          · exact Or.inr (max_eq_right h4)
          · exact Or.inl (max_eq_left h4)
        · rw [h1]; exact le_max_right _ _
    · intro a ha
      have ha' : (a == u || st.reached a) = true := ha
      simp only [Bool.or_eq_true, beq_iff_eq] at ha'
      have hnew : ∃ j, u ∈ (st.reachedByMaxWeight.modify (fun b => b ++ [u])
          (max (q.weight u) m)).getD j [] := by
        refine ⟨max (q.weight u) m, (mem_getD_modify_append _ _ _ _ _).2 (Or.inr ⟨rfl, ?_, rfl⟩)⟩
        rw [hinv.len]
        exact max_lt (hwt u hu hhu) hm
      by_cases hau : a = u
      · rw [hau]
        exact Or.inl hnew
      · have h1 : st.reached a = true := by
          rcases ha' with h1 | h1
          · exact absurd h1 hau
          · exact h1
        rcases hinv.processed a h1 with ⟨j, hj⟩ | ⟨h2, h3⟩
        · exact Or.inl ⟨j, (mem_getD_modify_append _ _ _ _ _).2 (Or.inl hj)⟩
        · refine Or.inr ⟨h2, fun b hb hadj hhb => ?_⟩
          show (b == u || st.reached b) = true ∨ _
          rcases h3 b hb hadj hhb with h4 | ⟨h4, h5⟩
          · exact Or.inl (by simp [h4])
          · rcases List.mem_cons.1 h5 with h6 | h6
            · exact Or.inl (by simp [h6])
            · exact Or.inr ⟨h4, h6⟩
    · intro a ha hha hw
      rcases hinv.complete a ha hha hw with h1 | h1
      · exact Or.inl (hupd_mono a h1)
      · exact Or.inr h1
  · rename_i hcond
    apply hinv.mono_pend
    intro a b hhb hp
    rcases List.mem_cons.1 hp.2 with h1 | h1
    · left
      rw [h1]
      simp only [Bool.and_eq_true, Bool.not_eq_true', not_and, Bool.not_eq_false] at hcond
      rw [h1] at hhb
      exact hcond hhb
    · exact Or.inr ⟨hp.1, h1⟩

theorem SearchInv.fold_visit {g : Graph} {q : IncreasingWeightNodeQueue}
    {h : Nat → Bool} {v m : Nat} {pendSeed : Nat → Prop} {x : Nat}
    (hwt : ∀ a, a < g.numberOfNodes → h a = false → q.weight a < g.numberOfNodes)
    (hm : m < g.numberOfNodes) (hx : q.weight x ≤ m)
    (hxk : x < g.numberOfNodes ∧ h x = false)
    (hxr : ∃ x0, g.adj v x0 = true ∧
      Walk g.adj (fun a => a < g.numberOfNodes ∧ h a = false ∧ q.weight a ≤ m) x0 x)
    (l : List Nat) (hl : ∀ u ∈ l, u < g.numberOfNodes ∧ g.adj x u = true) (st : ReachState)
    (hinv : SearchInv g q.weight h v m pendSeed (fun a b => a = x ∧ b ∈ l) st) :
    SearchInv g q.weight h v m pendSeed (fun _ _ => False)
      (l.foldl (visitNeighbor q h m) st) := by
  induction l generalizing st with
  | nil =>
    exact hinv.mono_pend (fun a b _ hp => absurd hp.2 (List.not_mem_nil _))
  | cons u l ih =>
    simp only [List.foldl_cons]
    have hu := hl u (List.mem_cons_self _ _)
    exact ih (fun a ha => hl a (List.mem_cons_of_mem _ ha)) _
      (SearchInv.step_visit hwt hm hinv hu.1 hu.2 hx hxk hxr)

theorem searchMeasure_visitNeighbor (g : Graph) (q : IncreasingWeightNodeQueue)
    (h : Nat → Bool) (m : Nat) (st : ReachState) (u : Nat) (hu : u < g.numberOfNodes) :
    searchMeasure g h (visitNeighbor q h m st u) ≤ searchMeasure g h st := by
  unfold visitNeighbor searchMeasure
  split
  · rename_i hcond
    simp only [Bool.and_eq_true, Bool.not_eq_true'] at hcond
    have h1 := sum_length_modify_le (fun b => b ++ [u]) (fun b => by simp)
      st.reachedByMaxWeight (max (q.getWeight u) m)
    have h2 := countP_reach_new h st.reached g.numberOfNodes u hu hcond.1 hcond.2
    simp only
    omega
  · exact le_refl _

theorem searchMeasure_foldl_visitNeighbor (g : Graph) (q : IncreasingWeightNodeQueue)
    (h : Nat → Bool) (m : Nat) (l : List Nat) (hl : ∀ u ∈ l, u < g.numberOfNodes)
    (st : ReachState) :
    searchMeasure g h (l.foldl (visitNeighbor q h m) st) ≤ searchMeasure g h st := by
  induction l generalizing st with
  | nil => exact le_refl _
  | cons u l ih =>
    simp only [List.foldl_cons]
    exact le_trans (ih (fun a ha => hl a (List.mem_cons_of_mem _ ha)) _)
      (searchMeasure_visitNeighbor g q h m st u (hl u (List.mem_cons_self _ _)))

theorem mem_of_getLast?_eq_some {l : List Nat} {x : Nat} (h : l.getLast? = some x) : x ∈ l := by
  have hsplit := List.dropLast_append_getLast? x (show x ∈ l.getLast? from by rw [h]; exact rfl)
  rw [← hsplit]
  exact List.mem_append_right _ (List.mem_singleton.2 rfl)

theorem SearchInv.pop_bucket {g : Graph} {w : Nat → Nat} {h : Nat → Bool} {v m : Nat}
    {pendSeed : Nat → Prop} {st : ReachState} {x : Nat}
    (hinv : SearchInv g w h v m pendSeed (fun _ _ => False) st)
    (hlast : (st.reachedByMaxWeight.getD m []).getLast? = some x) :
    SearchInv g w h v m pendSeed (fun a b => a = x ∧ b ∈ g.getNeighbors x)
      { st with reachedByMaxWeight := st.reachedByMaxWeight.modify List.dropLast m } := by
  have hsplit := List.dropLast_append_getLast? x
    (show x ∈ (st.reachedByMaxWeight.getD m []).getLast? from by rw [hlast]; exact rfl)
  have hxmem : x ∈ st.reachedByMaxWeight.getD m [] := mem_of_getLast?_eq_some hlast
  have hmlen : m < st.reachedByMaxWeight.length := by
    by_contra hc
    rw [List.getD_eq_default _ _ (by omega)] at hxmem
    exact absurd hxmem (List.not_mem_nil _)
  have hsub : ∀ j a, a ∈ (st.reachedByMaxWeight.modify List.dropLast m).getD j [] →
      a ∈ st.reachedByMaxWeight.getD j [] := by
    intro j a ha
    rw [getD_modify] at ha
    split at ha
    · exact List.mem_of_mem_dropLast ha
    · exact ha
  refine ⟨?_, hinv.nodup, hinv.upd_reached, hinv.reached_ok, hinv.seeds, hinv.upd_sound,
    hinv.upd_or_low, ?_, ?_, hinv.complete⟩
  · simp only [List.length_modify]
    exact hinv.len
  · intro j a ha
    exact hinv.bucket_mem j a (hsub j a ha)
  · intro a ha
    by_cases hax : a = x
    · right
      rw [hax]
      refine ⟨(hinv.bucket_mem m x hxmem).2.1, fun u hu hadj _ => Or.inr ⟨rfl, ?_⟩⟩
      exact (mem_getNeighbors g x u).2 ⟨hu, hadj⟩
    · rcases hinv.processed a ha with ⟨j, hj⟩ | ⟨h1, h2⟩
      · left
        refine ⟨j, ?_⟩
        show a ∈ (st.reachedByMaxWeight.modify List.dropLast m).getD j []
        rw [getD_modify]
        split
        · rename_i hjm
          rw [hjm.1] at hj ⊢
          rw [← hsplit] at hj
          rcases List.mem_append.1 hj with h3 | h3
          · exact h3
          · exact absurd (List.mem_singleton.1 h3) hax
        · exact hj
      · refine Or.inr ⟨h1, fun u hu hadj hhu => ?_⟩
        rcases h2 u hu hadj hhu with h3 | h3
        · exact Or.inl h3
        · exact absurd h3 id

theorem searchMeasure_pop_bucket (g : Graph) (h : Nat → Bool) (st : ReachState) (m x : Nat)
    (hlast : (st.reachedByMaxWeight.getD m []).getLast? = some x) :
    searchMeasure g h
        { st with reachedByMaxWeight := st.reachedByMaxWeight.modify List.dropLast m } + 1 =
      searchMeasure g h st := by
  unfold searchMeasure
  have hne : st.reachedByMaxWeight.getD m [] ≠ [] := by
    intro hc
    rw [hc] at hlast
    simp at hlast
  have := sum_length_modify_dropLast st.reachedByMaxWeight m hne
  simp only
  omega

theorem SearchInv.drain {g : Graph} {q : IncreasingWeightNodeQueue} {h : Nat → Bool}
    {v m : Nat} {pendSeed : Nat → Prop}
    (hwt : ∀ a, a < g.numberOfNodes → h a = false → q.weight a < g.numberOfNodes)
    (hm : m < g.numberOfNodes) (fuel : Nat) (st : ReachState)
    (hinv : SearchInv g q.weight h v m pendSeed (fun _ _ => False) st)
    (hfuel : searchMeasure g h st ≤ fuel) :
    SearchInv g q.weight h v m pendSeed (fun _ _ => False) (drainBucket g q h m fuel st) ∧
      (drainBucket g q h m fuel st).reachedByMaxWeight.getD m [] = [] ∧
      searchMeasure g h (drainBucket g q h m fuel st) ≤ searchMeasure g h st := by
  induction fuel generalizing st with
  | zero =>
    refine ⟨hinv, ?_, le_refl _⟩
    apply getD_eq_nil_of_sum_length
    unfold searchMeasure at hfuel
    show (st.reachedByMaxWeight.map List.length).sum = 0
    omega
  | succ fuel ih =>
    unfold drainBucket
    split
    · rename_i hnone
      exact ⟨hinv, List.getLast?_eq_none_iff.1 hnone, le_refl _⟩
    · rename_i x hlast
      have hpop := hinv.pop_bucket hlast
      have hmeas := searchMeasure_pop_bucket g h st m x hlast
      have hxmem : x ∈ st.reachedByMaxWeight.getD m [] := mem_of_getLast?_eq_some hlast
      obtain ⟨b1, b2, _, _, b5⟩ := hinv.bucket_mem m x hxmem
      have hl : ∀ u ∈ g.getNeighbors x, u < g.numberOfNodes ∧ g.adj x u = true :=
        fun u hu => (mem_getNeighbors g x u).1 hu
      have hfold := SearchInv.fold_visit hwt hm b2 (hinv.reached_ok x b1) b5
        (g.getNeighbors x) hl _ hpop
      have hmeas2 := searchMeasure_foldl_visitNeighbor g q h m (g.getNeighbors x)
        (fun u hu => (hl u hu).1)
        { st with reachedByMaxWeight := st.reachedByMaxWeight.modify List.dropLast m }
      obtain ⟨c1, c2, c3⟩ := ih _ hfold (by omega)
      exact ⟨c1, c2, by omega⟩

theorem SearchInv.reached_closed {g : Graph} {w : Nat → Nat} {h : Nat → Bool} {v m : Nat}
    {pendSeed : Nat → Prop} {st : ReachState}
    (hinv : SearchInv g w h v m pendSeed (fun _ _ => False) st)
    (hempty : st.reachedByMaxWeight.getD m [] = []) {a e : Nat}
    (hw : Walk g.adj (fun a => a < g.numberOfNodes ∧ h a = false ∧ w a ≤ m) a e)
    (ha : st.reached a = true) (he : e < g.numberOfNodes ∧ h e = false) :
    st.reached e = true := by
  induction hw with
  | refl b => exact ha
  | @step a x e hadj hp hw ih =>
    apply ih _ he
    rcases hinv.processed a ha with ⟨j, hj⟩ | ⟨_, h2⟩
    · exfalso
      obtain ⟨_, _, b3, b4, _⟩ := hinv.bucket_mem j a hj
      have hjm : j = m := by
        rcases b4 with h4 | h4
        · have := hp.2.2
          omega
        · exact h4
      rw [hjm, hempty] at hj
      exact absurd hj (List.not_mem_nil _)
    · have hx : x < g.numberOfNodes ∧ h x = false :=
        (hw.mono (fun b hb => (⟨hb.1, hb.2.1⟩ : b < g.numberOfNodes ∧ h b = false))).head_of_last
          he
      rcases h2 x hx.1 hadj hx.2 with h3 | h3
      · exact h3
      · exact absurd h3 id

theorem SearchInv.next_level {g : Graph} {w : Nat → Nat} {h : Nat → Bool} {v m : Nat}
    {st : ReachState}
    (hinv : SearchInv g w h v m (fun _ => False) (fun _ _ => False) st)
    (hempty : st.reachedByMaxWeight.getD m [] = []) :
    SearchInv g w h v (m + 1) (fun _ => False) (fun _ _ => False) st := by
  refine ⟨hinv.len, hinv.nodup, hinv.upd_reached, hinv.reached_ok, hinv.seeds, hinv.upd_sound,
    ?_, ?_, ?_, ?_⟩
  · intro u hu
    rcases hinv.upd_or_low u hu with h1 | h1
    · exact Or.inl h1
    · exact Or.inr (by omega)
  · intro j x hx
    obtain ⟨b1, b2, b3, b4, b5⟩ := hinv.bucket_mem j x hx
    have hjm : j ≠ m := by
      intro hc
      rw [hc, hempty] at hx
      exact absurd hx (List.not_mem_nil _)
    refine ⟨b1, b2, by omega, ?_, b5⟩
    rcases b4 with h4 | h4
    · exact Or.inl h4
    · exact absurd h4 hjm
  · intro x hx
    rcases hinv.processed x hx with h1 | ⟨h1, h2⟩
    · exact Or.inl h1
    · exact Or.inr ⟨by omega, h2⟩
  · intro u hu hhu hwalk
    obtain ⟨x0, hx0, hw⟩ := hwalk
    by_cases hle : w u ≤ m
    · exact hinv.complete u hu hhu ⟨x0, hx0,
        hw.mono (fun a ha => ⟨ha.1, ha.2.1, ha.2.2.1, by have := ha.2.2.1; omega⟩)⟩
    · left
      have hx0k : x0 < g.numberOfNodes ∧ h x0 = false :=
        (hw.mono (fun b hb => (⟨hb.1, hb.2.1⟩ : b < g.numberOfNodes ∧ h b = false))).head_of_last
          ⟨hu, hhu⟩
      have hx0r : st.reached x0 = true := by
        rcases hinv.seeds x0 hx0k.1 hx0 hx0k.2 with h1 | h1
        · exact hinv.upd_reached x0 h1
        · exact absurd h1 id
      have hur := hinv.reached_closed hempty
        (hw.mono (fun a ha => ⟨ha.1, ha.2.1, by have := ha.2.2.2; omega⟩)) hx0r ⟨hu, hhu⟩
      rcases hinv.upd_or_low u hur with h1 | h1
      · exact h1
      · exact absurd h1 hle

theorem SearchInv.levels {g : Graph} {q : IncreasingWeightNodeQueue} {h : Nat → Bool} {v : Nat}
    (hwt : ∀ a, a < g.numberOfNodes → h a = false → q.weight a < g.numberOfNodes)
    (st : ReachState)
    (hinv : SearchInv g q.weight h v 0 (fun _ => False) (fun _ _ => False) st)
    (hmeas : searchMeasure g h st ≤ g.numberOfNodes) (k : Nat) (hk : k ≤ g.numberOfNodes) :
    SearchInv g q.weight h v k (fun _ => False) (fun _ _ => False)
        ((List.range k).foldl (fun st m => drainBucket g q h m g.numberOfNodes st) st) ∧
      searchMeasure g h
        ((List.range k).foldl (fun st m => drainBucket g q h m g.numberOfNodes st) st) ≤
        g.numberOfNodes := by
  induction k with
  | zero => exact ⟨hinv, hmeas⟩
  | succ k ih =>
    obtain ⟨h1, h2⟩ := ih (by omega)
    rw [List.range_succ, List.foldl_append]
    simp only [List.foldl_cons, List.foldl_nil]
    obtain ⟨c1, c2, c3⟩ := SearchInv.drain hwt (show k < g.numberOfNodes by omega)
      g.numberOfNodes _ h1 h2
    exact ⟨c1.next_level c2, by omega⟩

theorem getD_replicate_nil (n j : Nat) : (List.replicate n ([] : List Nat)).getD j [] = [] := by
  induction n generalizing j with
  | zero => simp
  | succ n ih =>
    cases j with
    | zero => simp [List.replicate_succ]
    | succ j =>
      rw [List.replicate_succ, List.getD_cons_succ]
      exact ih j

theorem SearchInv.start (g : Graph) (w : Nat → Nat) (h : Nat → Bool) (v : Nat) :
    SearchInv g w h v 0 (fun x => x ∈ g.getNeighbors v) (fun _ _ => False)
      ⟨[], fun _ => false, List.replicate g.getNumberOfNodes []⟩ := by
  refine ⟨?_, List.nodup_nil, ?_, ?_, ?_, ?_, ?_, ?_, ?_, ?_⟩
  · simp [Graph.getNumberOfNodes]
  · intro u hu; exact absurd hu (List.not_mem_nil _)
  · intro u hu; exact absurd hu Bool.false_ne_true
  · intro x hx hadj _
    exact Or.inr ((mem_getNeighbors g v x).2 ⟨hx, hadj⟩)
  · intro u hu; exact absurd hu (List.not_mem_nil _)
  · intro u hu; exact absurd hu Bool.false_ne_true
  · intro j x hx
    simp only [getD_replicate_nil] at hx
    exact absurd hx (List.not_mem_nil _)
  · intro u hu; exact absurd hu Bool.false_ne_true
  · intro u hu _ hwalk
    obtain ⟨x, hx, hw⟩ := hwalk
    right
    cases hw with
    | refl => exact (mem_getNeighbors g v u).2 ⟨hu, hx⟩
    | step _ hp _ => exact absurd hp.2.2.2 (Nat.not_lt_zero _)

theorem SearchInv.mono_pendSeed {g : Graph} {w : Nat → Nat} {h : Nat → Bool} {v m : Nat}
    {pendSeed pendSeed' : Nat → Prop} {pend : Nat → Nat → Prop} {st : ReachState}
    (hinv : SearchInv g w h v m pendSeed pend st)
    (hp : ∀ x, h x = false → pendSeed x → x ∈ st.nodesToUpdate ∨ pendSeed' x) :
    SearchInv g w h v m pendSeed' pend st where
  len := hinv.len
  nodup := hinv.nodup
  upd_reached := hinv.upd_reached
  reached_ok := hinv.reached_ok
  seeds := by
    intro x hx hadj hhx
    rcases hinv.seeds x hx hadj hhx with h1 | h1
    · exact Or.inl h1
    · exact hp x hhx h1
  upd_sound := hinv.upd_sound
  upd_or_low := hinv.upd_or_low
  bucket_mem := hinv.bucket_mem
  processed := hinv.processed
  complete := by
    intro u hu hhu hwalk
    rcases hinv.complete u hu hhu hwalk with h1 | h1
    · exact Or.inl h1
    · exact hp u hhu h1

theorem SearchInv.step_seed {g : Graph} {q : IncreasingWeightNodeQueue} {h : Nat → Bool}
    {v : Nat} {st : ReachState} {u : Nat} {rest : List Nat}
    (hwt : ∀ a, a < g.numberOfNodes → h a = false → q.weight a < g.numberOfNodes)
    (hinv : SearchInv g q.weight h v 0 (fun x => x ∈ u :: rest) (fun _ _ => False) st)
    (hu : u < g.numberOfNodes) (hvu : g.adj v u = true) (hru : st.reached u = false) :
    SearchInv g q.weight h v 0 (fun x => x ∈ rest) (fun _ _ => False)
      (seedNeighbor q h st u) := by
  unfold seedNeighbor
  split
  · rename_i hcond
    simp only [Bool.not_eq_true'] at hcond
    simp only [IncreasingWeightNodeQueue.getWeight]
    have hnotin : u ∉ st.nodesToUpdate := fun hmem => by
      have := hinv.upd_reached u hmem
      rw [hru] at this
      exact Bool.false_ne_true this
    refine ⟨?_, ?_, ?_, ?_, ?_, ?_, ?_, ?_, ?_, ?_⟩
    · simp only [List.length_modify]
      exact hinv.len
    · exact List.Nodup.append hinv.nodup (List.nodup_singleton u)
        (by
          intro a ha hb
          rw [List.mem_singleton.1 hb] at ha
          exact hnotin ha)
    · intro a ha
      show (a == u || st.reached a) = true
      rcases List.mem_append.1 ha with h1 | h1
      · simp [hinv.upd_reached a h1]
      · simp [List.mem_singleton.1 h1]
    · intro a ha
      have ha' : (a == u || st.reached a) = true := ha
      simp only [Bool.or_eq_true, beq_iff_eq] at ha'
      rcases ha' with h1 | h1
      · rw [h1]; exact ⟨hu, hcond⟩
      · exact hinv.reached_ok a h1
    · intro a ha hadj hha
      show a ∈ st.nodesToUpdate ++ [u] ∨ _
      rcases hinv.seeds a ha hadj hha with h1 | h1
      · exact Or.inl (List.mem_append_left _ h1)
      · rcases List.mem_cons.1 h1 with h2 | h2
        · exact Or.inl (List.mem_append_right _ (List.mem_singleton.2 h2))
        · exact Or.inr h2
    · intro a ha
      rcases List.mem_append.1 ha with h1 | h1
      · exact hinv.upd_sound a h1
      · rw [List.mem_singleton.1 h1]
        exact ⟨hu, hcond, u, hvu, Walk.refl u⟩
    · intro a ha
      have ha' : (a == u || st.reached a) = true := ha
      simp only [Bool.or_eq_true, beq_iff_eq] at ha'
      show a ∈ st.nodesToUpdate ++ [u] ∨ _
      rcases ha' with h1 | h1
      · exact Or.inl (List.mem_append_right _ (List.mem_singleton.2 h1))
      · rcases hinv.upd_or_low a h1 with h2 | h2
        · exact Or.inl (List.mem_append_left _ h2)
        · exact Or.inr h2
    · intro j a ha
      have ha' := (mem_getD_modify_append _ _ _ _ _).1 ha
      show (a == u || st.reached a) = true ∧ _
      rcases ha' with h1 | ⟨h1, _, h3⟩
      · obtain ⟨b1, b2⟩ := hinv.bucket_mem j a h1
        exact ⟨by simp [b1], b2⟩
      · subst h3
        exact ⟨by simp, by omega, by omega, Or.inl h1, a, hvu, Walk.refl a⟩
    · intro a ha
      have ha' : (a == u || st.reached a) = true := ha
      simp only [Bool.or_eq_true, beq_iff_eq] at ha'
      by_cases hau : a = u
      · left
        rw [hau]
        refine ⟨q.weight u, (mem_getD_modify_append _ _ _ _ _).2 (Or.inr ⟨rfl, ?_, rfl⟩)⟩
        rw [hinv.len]
        exact hwt u hu hcond
      · have h1 : st.reached a = true := by
          rcases ha' with h1 | h1
          · exact absurd h1 hau
          · exact h1
        rcases hinv.processed a h1 with ⟨j, hj⟩ | ⟨h2, h3⟩
        · exact Or.inl ⟨j, (mem_getD_modify_append _ _ _ _ _).2 (Or.inl hj)⟩
        · refine Or.inr ⟨h2, fun b hb hadj hhb => ?_⟩
          rcases h3 b hb hadj hhb with h4 | h4
          · exact Or.inl (by show (b == u || st.reached b) = true; simp [h4])
          · exact absurd h4 id
    · intro a ha hha hw
      show a ∈ st.nodesToUpdate ++ [u] ∨ _
      rcases hinv.complete a ha hha hw with h1 | h1
      · exact Or.inl (List.mem_append_left _ h1)
      · rcases List.mem_cons.1 h1 with h2 | h2
        · exact Or.inl (List.mem_append_right _ (List.mem_singleton.2 h2))
        · exact Or.inr h2
  · rename_i hcond
    simp only [Bool.not_eq_true', Bool.not_eq_false] at hcond
    apply hinv.mono_pendSeed
    intro x hhx hp
    rcases List.mem_cons.1 hp with h1 | h1
    · rw [h1, hcond] at hhx
      exact absurd hhx Bool.noConfusion
    · exact Or.inr h1

theorem searchMeasure_seedNeighbor (g : Graph) (q : IncreasingWeightNodeQueue)
    (h : Nat → Bool) (st : ReachState) (u : Nat) (hu : u < g.numberOfNodes)
    (hru : st.reached u = false) :
    searchMeasure g h (seedNeighbor q h st u) ≤ searchMeasure g h st := by
  unfold seedNeighbor searchMeasure
  split
  · rename_i hcond
    simp only [Bool.not_eq_true'] at hcond
    have h1 := sum_length_modify_le (fun b => b ++ [u]) (fun b => by simp)
      st.reachedByMaxWeight (q.getWeight u)
    have h2 := countP_reach_new h st.reached g.numberOfNodes u hu hcond hru
    simp only
    omega
  · exact le_refl _

theorem seedNeighbor_reached_of_ne (q : IncreasingWeightNodeQueue) (h : Nat → Bool)
    (st : ReachState) (u x : Nat) (hne : x ≠ u) (hr : st.reached x = false) :
    (seedNeighbor q h st u).reached x = false := by
  unfold seedNeighbor
  split
  · show (x == u || st.reached x) = false
    simp [hne, hr]
  · exact hr

theorem SearchInv.fold_seed {g : Graph} {q : IncreasingWeightNodeQueue} {h : Nat → Bool}
    {v : Nat}
    (hwt : ∀ a, a < g.numberOfNodes → h a = false → q.weight a < g.numberOfNodes)
    (l : List Nat) (hl : ∀ u ∈ l, u < g.numberOfNodes ∧ g.adj v u = true) (hnd : l.Nodup)
    (st : ReachState) (hr : ∀ u ∈ l, st.reached u = false)
    (hinv : SearchInv g q.weight h v 0 (fun x => x ∈ l) (fun _ _ => False) st) :
    SearchInv g q.weight h v 0 (fun _ => False) (fun _ _ => False)
        (l.foldl (seedNeighbor q h) st) ∧
      searchMeasure g h (l.foldl (seedNeighbor q h) st) ≤ searchMeasure g h st := by
  induction l generalizing st with
  | nil =>
    exact ⟨hinv.mono_pendSeed (fun x _ hp => absurd hp (List.not_mem_nil _)), le_refl _⟩
  | cons u l ih =>
    simp only [List.foldl_cons]
    have hu := hl u (List.mem_cons_self _ _)
    have hru := hr u (List.mem_cons_self _ _)
    have hnd' := List.nodup_cons.1 hnd
    obtain ⟨c1, c2⟩ := ih (fun a ha => hl a (List.mem_cons_of_mem _ ha)) hnd'.2 _
      (fun a ha => seedNeighbor_reached_of_ne q h st u a (fun hc => hnd'.1 (hc ▸ ha))
        (hr a (List.mem_cons_of_mem _ ha)))
      (SearchInv.step_seed hwt hinv hu.1 hu.2 hru)
    exact ⟨c1, le_trans c2 (searchMeasure_seedNeighbor g q h st u hu.1 hru)⟩

/-- The search of one outer iteration collects, without repetition, exactly the unhandled
nodes that a walk from a neighbour of the popped node reaches through unhandled nodes of
smaller weight. -/
theorem findNodesToUpdate_spec (g : Graph) (q : IncreasingWeightNodeQueue) (h : Nat → Bool)
    (v : Nat)
    (hwt : ∀ a, a < g.numberOfNodes → h a = false → q.weight a < g.numberOfNodes) :
    (findNodesToUpdate g q h v).nodesToUpdate.Nodup ∧
      ∀ u, u ∈ (findNodesToUpdate g q h v).nodesToUpdate ↔ ReachTarget g q.weight h v u := by
  have hstart := SearchInv.start g q.weight h v
  have hmeas0 : searchMeasure g h ⟨[], fun _ => false, List.replicate g.getNumberOfNodes []⟩ ≤
      g.numberOfNodes := by
    unfold searchMeasure
    have h1 : ((List.replicate g.getNumberOfNodes ([] : List Nat)).map List.length).sum = 0 := by
      simp
    have h2 := List.countP_le_length (fun u => !h u && !(fun _ => false) u)
      (l := List.range g.numberOfNodes)
    rw [List.length_range] at h2
    simp only at h1 h2 ⊢
    omega
  obtain ⟨c1, c2⟩ := SearchInv.fold_seed hwt (g.getNeighbors v)
    (fun u hu => (mem_getNeighbors g v u).1 hu) (nodup_getNeighbors g v) _ (fun _ _ => rfl) hstart
  obtain ⟨d1, _⟩ := SearchInv.levels hwt _ c1 (le_trans c2 hmeas0) g.numberOfNodes (le_refl _)
  refine ⟨d1.nodup, fun u => ⟨d1.upd_sound u, fun hu => ?_⟩⟩
  obtain ⟨hun, hhu, x, hx, hw⟩ := hu
  rcases d1.complete u hun hhu ⟨x, hx,
    hw.mono (fun a ha => ⟨ha.1, ha.2.1, ha.2.2, hwt a ha.1 ha.2.1⟩)⟩ with h1 | h1
  · exact h1
  · exact absurd h1 id

/-! ## The priority queue -/

theorem foldl_max_ge (l : List Nat) (a : Nat) :
    a ≤ l.foldl max a ∧ ∀ x ∈ l, x ≤ l.foldl max a := by
  induction l generalizing a with
  | nil => exact ⟨le_refl _, fun x hx => absurd hx (List.not_mem_nil _)⟩
  | cons b l ih =>
    simp only [List.foldl_cons]
    obtain ⟨h1, h2⟩ := ih (max a b)
    refine ⟨le_trans (le_max_left a b) h1, fun x hx => ?_⟩
    rcases List.mem_cons.1 hx with h | h
    · rw [h]; exact le_trans (le_max_right a b) h1
    · exact h2 x h

theorem foldl_max_mem (l : List Nat) (a : Nat) : l.foldl max a = a ∨ l.foldl max a ∈ l := by
  induction l generalizing a with
  | nil => exact Or.inl rfl
  | cons b l ih =>
    simp only [List.foldl_cons]
    rcases ih (max a b) with h | h
    · rcases le_total a b with hab | hab
      · right
        rw [h, max_eq_right hab]
        exact List.mem_cons_self _ _
      · left
        rw [h, max_eq_left hab]
    · exact Or.inr (List.mem_cons_of_mem _ h)

theorem IncreasingWeightNodeQueue.le_maxWeight (q : IncreasingWeightNodeQueue) (x : Nat)
    (hx : x ∈ q.remaining) : q.weight x ≤ q.maxWeight :=
  (foldl_max_ge (q.remaining.map q.weight) 0).2 _ (List.mem_map_of_mem _ hx)

theorem IncreasingWeightNodeQueue.candidates_ne_nil (q : IncreasingWeightNodeQueue)
    (h : q.remaining ≠ []) : q.candidates ≠ [] := by
  have hex : ∃ x ∈ q.remaining, q.weight x = q.maxWeight := by
    rcases foldl_max_mem (q.remaining.map q.weight) 0 with h0 | hm
    · obtain ⟨x, hx⟩ := List.exists_mem_of_ne_nil _ h
      refine ⟨x, hx, ?_⟩
      have := q.le_maxWeight x hx
      unfold IncreasingWeightNodeQueue.maxWeight at this ⊢
      omega
    · obtain ⟨x, hx, hxe⟩ := List.mem_map.1 hm
      exact ⟨x, hx, hxe⟩
  obtain ⟨x, hx, hxe⟩ := hex
  intro hc
  have : x ∈ q.candidates := by
    unfold IncreasingWeightNodeQueue.candidates
    rw [List.mem_filter]
    exact ⟨hx, by simp [hxe]⟩
  rw [hc] at this
  exact absurd this (List.not_mem_nil _)

/-- A `pop` from a queue that is not empty returns a node not yet popped whose weight is
maximal among the nodes not yet popped. -/
theorem IncreasingWeightNodeQueue.pop_spec (q : IncreasingWeightNodeQueue) (c : Nat)
    (h : q.remaining ≠ []) :
    (q.pop c).1 ∈ q.remaining ∧ ∀ x ∈ q.remaining, q.weight x ≤ q.weight (q.pop c).1 := by
  have hne := q.candidates_ne_nil h
  have hlen : 0 < q.candidates.length := List.length_pos.2 hne
  have hmem : (q.pop c).1 ∈ q.candidates := by
    show q.candidates.getD (c % q.candidates.length) 0 ∈ q.candidates
    rw [List.getD_eq_getElem _ _ (Nat.mod_lt _ hlen)]
    exact List.getElem_mem _
  unfold IncreasingWeightNodeQueue.candidates at hmem
  rw [List.mem_filter] at hmem
  refine ⟨hmem.1, fun x hx => ?_⟩
  have h1 := q.le_maxWeight x hx
  have h2 : q.weight (q.pop c).1 = q.maxWeight := by simpa using hmem.2
  omega

theorem IncreasingWeightNodeQueue.mem_remaining (q : IncreasingWeightNodeQueue) (x : Nat) :
    x ∈ q.remaining ↔ x < q.size ∧ q.removed x = false := by
  simp [IncreasingWeightNodeQueue.remaining]

/-! ## The update loop -/

theorem updateNodes_queue (v : Nat) (l : List Nat) (t : Graph) (q : IncreasingWeightNodeQueue) :
    (updateNodes v l t q).2.size = q.size ∧ (updateNodes v l t q).2.removed = q.removed ∧
      ∀ x, (updateNodes v l t q).2.weight x = q.weight x + l.count x := by
  unfold updateNodes
  induction l generalizing t q with
  | nil => simp
  | cons u l ih =>
    simp only [List.foldl_cons]
    obtain ⟨h1, h2, h3⟩ := ih (t.addEdge u v) (q.increaseWeight u)
    refine ⟨h1, h2, fun x => ?_⟩
    rw [h3 x, List.count_cons]
    simp only [IncreasingWeightNodeQueue.increaseWeight, beq_iff_eq]
    by_cases hxu : x = u
    · subst hxu
      simp
      omega
    · have : ¬ u = x := fun h => hxu h.symm
      simp [hxu, this]

theorem updateNodes_graph (v : Nat) (l : List Nat) (t : Graph) (q : IncreasingWeightNodeQueue) :
    (updateNodes v l t q).1.numberOfNodes = t.numberOfNodes ∧
      ∀ a b, (updateNodes v l t q).1.adj a b = true ↔
        t.adj a b = true ∨ (a ∈ l ∧ b = v) ∨ (a = v ∧ b ∈ l) := by
  unfold updateNodes
  induction l generalizing t q with
  | nil => simp
  | cons u l ih =>
    simp only [List.foldl_cons]
    obtain ⟨h1, h2⟩ := ih (t.addEdge u v) (q.increaseWeight u)
    refine ⟨h1, fun a b => ?_⟩
    rw [h2 a b]
    simp only [Graph.addEdge, Bool.or_eq_true, Bool.and_eq_true, beq_iff_eq, List.mem_cons]
    tauto

/-! ## The outer loop of MCS-M -/

theorem MSCMInv.init (g : Graph) : MSCMInv g (mscmInit g) 0 where
  size := rfl
  removed_eq := fun _ => rfl
  handled_lt := fun x hx => absurd hx Bool.false_ne_true
  count := by
    simp [mscmInit]
  weight_le := fun _ => le_refl _

theorem MSCMInv.remaining_ne_nil {g : Graph} {s : MSCMState} {t : Nat} (hinv : MSCMInv g s t)
    (ht : t < g.numberOfNodes) : s.queue.remaining ≠ [] := by
  have hc := hinv.count
  have hpos : 0 < (List.range g.numberOfNodes).countP (fun x => !s.handled x) := by omega
  obtain ⟨x, hx, hpx⟩ := List.countP_pos_iff.1 hpos
  intro hnil
  have : x ∈ s.queue.remaining := by
    rw [IncreasingWeightNodeQueue.mem_remaining, hinv.size, hinv.removed_eq]
    exact ⟨List.mem_range.1 hx, by simpa using hpx⟩
  rw [hnil] at this
  exact absurd this (List.not_mem_nil _)

/-- The node popped from a state that satisfies the invariant is an unhandled node of maximal
weight among the unhandled nodes. -/
theorem MSCMInv.pop_unhandled_max {g : Graph} {s : MSCMState} {t : Nat} (hinv : MSCMInv g s t)
    (ht : t < g.numberOfNodes) (c : Nat) :
    (s.queue.pop c).1 < g.numberOfNodes ∧ s.handled (s.queue.pop c).1 = false ∧
      ∀ x, x < g.numberOfNodes → s.handled x = false →
        s.queue.weight x ≤ s.queue.weight (s.queue.pop c).1 := by
  obtain ⟨h1, h2⟩ := s.queue.pop_spec c (hinv.remaining_ne_nil ht)
  rw [IncreasingWeightNodeQueue.mem_remaining, hinv.size, hinv.removed_eq] at h1
  refine ⟨h1.1, h1.2, fun x hx hhx => h2 x ?_⟩
  rw [IncreasingWeightNodeQueue.mem_remaining, hinv.size, hinv.removed_eq]
  exact ⟨hx, hhx⟩

theorem MSCMInv.search_spec {g : Graph} {s : MSCMState} {t : Nat} (hinv : MSCMInv g s t)
    (ht : t < g.numberOfNodes) (c : Nat) :
    (findNodesToUpdate g (s.queue.pop c).2 (fun x => x == (s.queue.pop c).1 || s.handled x)
        (s.queue.pop c).1).nodesToUpdate.Nodup ∧
      ∀ u, u ∈ (findNodesToUpdate g (s.queue.pop c).2
          (fun x => x == (s.queue.pop c).1 || s.handled x) (s.queue.pop c).1).nodesToUpdate ↔
        ReachTarget g s.queue.weight (fun x => x == (s.queue.pop c).1 || s.handled x)
          (s.queue.pop c).1 u :=
  findNodesToUpdate_spec g (s.queue.pop c).2 _ _
    (fun a _ _ => lt_of_le_of_lt (hinv.weight_le a) ht)

theorem mscmIteration_weight {g : Graph} {s : MSCMState} {t : Nat} (hinv : MSCMInv g s t)
    (ht : t < g.numberOfNodes) (c : Nat) (x : Nat) :
    (mscmIteration g c s).queue.weight x = s.queue.weight x +
      (if (findNodesToUpdate g (s.queue.pop c).2 (fun x => x == (s.queue.pop c).1 || s.handled x)
        (s.queue.pop c).1).nodesToUpdate.contains x = true then 1 else 0) := by
  obtain ⟨hnd, _⟩ := hinv.search_spec ht c
  have h3 := (updateNodes_queue (s.queue.pop c).1 (findNodesToUpdate g (s.queue.pop c).2
    (fun x => x == (s.queue.pop c).1 || s.handled x) (s.queue.pop c).1).nodesToUpdate
    s.triangulation (s.queue.pop c).2).2.2 x
  show (updateNodes _ _ _ _).2.weight x = _
  rw [h3]
  show s.queue.weight x + _ = _
  congr 1
  by_cases hx : x ∈ (findNodesToUpdate g (s.queue.pop c).2
      (fun x => x == (s.queue.pop c).1 || s.handled x) (s.queue.pop c).1).nodesToUpdate
  · rw [List.count_eq_one_of_mem hnd hx, if_pos ((contains_iff_mem _ _).2 hx)]
  · rw [List.count_eq_zero_of_not_mem hx, if_neg (fun h => hx ((contains_iff_mem _ _).1 h))]

theorem MSCMInv.step {g : Graph} {s : MSCMState} {t : Nat} (hinv : MSCMInv g s t)
    (ht : t < g.numberOfNodes) (c : Nat) : MSCMInv g (mscmIteration g c s) (t + 1) := by
  obtain ⟨hv, hhv, _⟩ := hinv.pop_unhandled_max ht c
  have hq := updateNodes_queue (s.queue.pop c).1 (findNodesToUpdate g (s.queue.pop c).2
    (fun x => x == (s.queue.pop c).1 || s.handled x) (s.queue.pop c).1).nodesToUpdate
    s.triangulation (s.queue.pop c).2
  refine ⟨?_, ?_, ?_, ?_, ?_⟩
  · show (updateNodes _ _ _ _).2.size = _
    rw [hq.1]
    exact hinv.size
  · intro x
    show (updateNodes _ _ _ _).2.removed x = (x == (s.queue.pop c).1 || s.handled x)
    rw [hq.2.1]
    show (x == (s.queue.pop c).1 || s.queue.removed x) = _
    rw [hinv.removed_eq]
  · intro x hx
    have hx' : (x == (s.queue.pop c).1 || s.handled x) = true := hx
    simp only [Bool.or_eq_true, beq_iff_eq] at hx'
    rcases hx' with h | h
    · rw [h]; exact hv
    · exact hinv.handled_lt x h
  · have := countP_reach_new (fun _ => false) s.handled g.numberOfNodes (s.queue.pop c).1 hv rfl
      hhv
    simp only [Bool.not_false, Bool.true_and] at this
    have hc := hinv.count
    show (List.range g.numberOfNodes).countP
      (fun x => !(x == (s.queue.pop c).1 || s.handled x)) + (t + 1) = _
    omega
  · intro x
    rw [mscmIteration_weight hinv ht c x]
    have := hinv.weight_le x
    split <;> omega

theorem mscmStateAt_inv (g : Graph) (tie : List Nat) (t : Nat) (ht : t ≤ g.numberOfNodes) :
    MSCMInv g (mscmStateAt g tie t) t := by
  induction t with
  | zero => exact MSCMInv.init g
  | succ t ih => exact (ih (by omega)).step (by omega) _

theorem mscmStateAt_handled_succ (g : Graph) (tie : List Nat) (t x : Nat) :
    (mscmStateAt g tie (t + 1)).handled x =
      (x == mscmPopped g tie t || (mscmStateAt g tie t).handled x) := rfl

/-- The loop of the source runs exactly `n` iterations: it ends in the state after `n`
iterations, where the queue is empty. -/
theorem mscmLoop_eq_stateAt (g : Graph) (tie : List Nat) (k t : Nat)
    (h : t + k = g.numberOfNodes) :
    mscmLoop g k (tie.drop t) (mscmStateAt g tie t) = mscmStateAt g tie g.numberOfNodes := by
  induction k generalizing t with
  | zero =>
    simp only [Nat.add_zero] at h
    rw [h]
    rfl
  | succ k ih =>
    unfold mscmLoop
    have hinv := mscmStateAt_inv g tie t (by omega)
    have hne := hinv.remaining_ne_nil (by omega)
    have hemp : (mscmStateAt g tie t).queue.isEmpty = false := by
      unfold IncreasingWeightNodeQueue.isEmpty
      cases hrem : (mscmStateAt g tie t).queue.remaining with
      | nil => exact absurd hrem hne
      | cons a l => rfl
    rw [hemp]
    simp only [Bool.false_eq_true, if_false]
    have hhead : (tie.drop t).headD 0 = tie.getD t 0 := by
      simp [List.headD_eq_head?_getD, List.head?_drop]
    rw [hhead, List.tail_drop]
    exact ih (t + 1) (by omega)

theorem mscm_eq_stateAt (g : Graph) (tie : List Nat) :
    getMinimalTriangulationUsingMSCM tie g =
      (mscmStateAt g tie g.numberOfNodes).triangulation := by
  unfold getMinimalTriangulationUsingMSCM
  have := mscmLoop_eq_stateAt g tie g.numberOfNodes 0 (by omega)
  simp only [List.drop_zero] at this
  show (mscmLoop g g.numberOfNodes tie (mscmStateAt g tie 0)).triangulation = _
  rw [this]

theorem mscm_queue_empty (g : Graph) (tie : List Nat) :
    (mscmStateAt g tie g.numberOfNodes).queue.isEmpty = true := by
  have hinv := mscmStateAt_inv g tie g.numberOfNodes (le_refl _)
  have hc := hinv.count
  have h0 : (List.range g.numberOfNodes).countP
      (fun x => !(mscmStateAt g tie g.numberOfNodes).handled x) = 0 := by omega
  unfold IncreasingWeightNodeQueue.isEmpty IncreasingWeightNodeQueue.remaining
  rw [hinv.size, List.isEmpty_iff, List.filter_eq_nil_iff]
  intro x hx
  rw [hinv.removed_eq]
  rw [List.countP_eq_zero] at h0
  exact h0 x hx

/-! ## Runs of MCS-M -/

/-- Pointwise change of the predicate of a walk, with the rest of the walk at hand. -/
theorem Walk.mono_suffix {adj : Nat → Nat → Bool} {P Q : Nat → Prop} {a b : Nat}
    (h : ∀ x, P x → Walk adj P x b → Q x) (w : Walk adj P a b) : Walk adj Q a b := by
  induction w with
  | refl b => exact Walk.refl b
  | step hadj hp w ih => exact Walk.step hadj (h _ hp (Walk.step hadj hp w)) (ih h)

theorem Walk.head_ne {adj : Nat → Nat → Bool} {P : Nat → Prop} {a b : Nat}
    (w : Walk adj P a b) (hne : a ≠ b) : P a := by
  cases w with
  | refl => exact absurd rfl hne
  | step _ hp _ => exact hp

namespace MCSRun

variable {r : MCSRun}

theorem IsRun.pos_inj (hr : r.IsRun) {x y : Nat} (hx : x < r.n) (hy : y < r.n)
    (h : r.pos x = r.pos y) : x = y := by
  rw [← (hr.v_pos x hx).2, ← (hr.v_pos y hy).2, h]

/-- A collected node that leads, through lighter nodes, to a heavier node makes that node
collected too. -/
theorem IsRun.S_of_walk (hr : r.IsRun) {t x b : Nat} (ht : t < r.n) (hS : r.S t x = true)
    (hlt : r.w t x < r.w t b) (hb : b < r.n) (hpb : t < r.pos b)
    (hw : Walk r.adj (r.Low t b) x b) : r.S t b = true := by
  rw [hr.S_iff t b ht]
  rw [hr.S_iff t x ht] at hS
  obtain ⟨_, _, y, hy, hwy⟩ := hS
  refine ⟨hb, hpb, y, hy, ?_⟩
  exact (hwy.mono (fun a ha => ⟨ha.1, ha.2.1, lt_trans ha.2.2 hlt⟩)).append hw

/-- Persistence: a node lighter than `b` on a walk of lighter nodes to `b` stays unhandled and
lighter in the next iteration, as long as `b` is not popped. -/
theorem IsRun.low_succ (hr : r.IsRun) {t x b : Nat} (hb : b < r.n) (hpb : t + 1 < r.pos b)
    (hx : r.Low t b x) (hw : Walk r.adj (r.Low t b) x b) : r.Low (t + 1) b x := by
  have hbn := (hr.v_pos b hb).1
  have ht : t < r.n := by omega
  have hwx := hr.weight_succ t x ht hx.1 hx.2.1
  have hwb := hr.weight_succ t b ht hb (by omega)
  have hlt : r.w (t + 1) x < r.w (t + 1) b := by
    rw [hwx, hwb]
    by_cases hSx : r.S t x = true
    · have hSb := hr.S_of_walk ht hSx hx.2.2 hb (by omega) hw
      rw [if_pos hSx, if_pos hSb]
      have := hx.2.2
      omega
    · rw [if_neg hSx]
      have := hx.2.2
      split <;> omega
  refine ⟨hx.1, ?_, hlt⟩
  have h1 := hx.2.1
  by_contra hc
  have hpx : r.pos x = t + 1 := by omega
  have hvx : r.v (t + 1) = x := by rw [← hpx]; exact (hr.v_pos x hx.1).2
  have := hr.max_weight (t + 1) b (by omega) hb (by omega)
  rw [hvx] at this
  omega

theorem IsRun.walk_low_add (hr : r.IsRun) {t a b : Nat} (hb : b < r.n) (k : Nat)
    (hk : t + k < r.pos b) (hw : Walk r.adj (r.Low t b) a b) :
    Walk r.adj (fun x => r.Low t b x ∧ r.Low (t + k) b x) a b := by
  induction k with
  | zero => exact hw.mono (fun x hx => ⟨hx, hx⟩)
  | succ k ih =>
    have := ih (by omega)
    refine this.mono_suffix (fun x hx hwx => ⟨hx.1, ?_⟩)
    have h1 : t + k + 1 < r.pos b := by omega
    exact hr.low_succ (t := t + k) hb h1 hx.2 (hwx.mono (fun y hy => hy.2))

/-- Every node of a walk of lighter nodes to `b` is popped after `b`. -/
theorem IsRun.walk_low_after (hr : r.IsRun) {t a b : Nat} (hb : b < r.n) (hpb : t < r.pos b)
    (hw : Walk r.adj (r.Low t b) a b) :
    Walk r.adj (fun x => r.Low t b x ∧ r.After b x) a b := by
  have := hr.walk_low_add hb (r.pos b - 1 - t) (by omega) hw
  refine this.mono (fun x hx => ⟨hx.1, hx.1.1, ?_⟩)
  have h1 := hx.2.2.1
  have h2 := hx.2.2.2
  have hne : x ≠ b := fun h => by rw [h] at h2; exact lt_irrefl _ h2
  have hpne : r.pos x ≠ r.pos b := fun h => hne (hr.pos_inj hx.1.1 hb h)
  omega

/-- A collected node is joined to the popped node by a path of nodes popped after it. -/
theorem IsRun.joined_of_S (hr : r.IsRun) {t u : Nat} (ht : t < r.n) (hS : r.S t u = true) :
    r.Joined (r.v t) u := by
  rw [hr.S_iff t u ht] at hS
  obtain ⟨hu, hpu, x, hx, hw⟩ := hS
  exact ⟨x, hx, (hr.walk_low_after hu hpu hw).mono (fun a ha => ha.2)⟩

theorem IsRun.suffix_cases (hr : r.IsRun) {t u a e : Nat} (hu : u < r.n) (hpu : t < r.pos u)
    (hw : Walk r.adj (r.After u) a e) (he : e = u) :
    (∃ p, r.After u p ∧ r.w (t + 1) u < r.w (t + 1) p ∧ Walk r.adj (r.Low (t + 1) p) u p) ∨
      Walk r.adj (fun x => r.After u x ∧ r.w (t + 1) x ≤ r.w (t + 1) u) a e := by
  induction hw with
  | refl b => exact Or.inr (Walk.refl b)
  | @step a x e hadj ha w ih =>
    rcases ih he with h | h
    · exact Or.inl h
    · by_cases hle : r.w (t + 1) a ≤ r.w (t + 1) u
      · exact Or.inr (Walk.step hadj ⟨ha, hle⟩ h)
      · left
        subst he
        have hlt : r.w (t + 1) e < r.w (t + 1) a := by omega
        have hpa := ha.2
        have hpe := (hr.v_pos e hu).1
        have hpos : t + 1 < r.pos e := by
          by_contra hc
          have hpe1 : r.pos e = t + 1 := by omega
          have hve : r.v (t + 1) = e := by rw [← hpe1]; exact (hr.v_pos e hu).2
          have := hr.max_weight (t + 1) a (by omega) ha.1 (by omega)
          rw [hve] at this
          omega
        have hlowe : r.Low (t + 1) a e := ⟨hu, hpos, hlt⟩
        have hm : Walk r.adj (r.Low (t + 1) a) x e :=
          h.mono (fun y hy => ⟨hy.1.1, by have := hy.1.2; omega, lt_of_le_of_lt hy.2 hlt⟩)
        refine ⟨a, ha, hlt, (hm.reverse hr.sym hlowe).snoc (hm.head_of_last hlowe) ?_⟩
        rw [hr.sym]
        exact hadj

theorem IsRun.S_or_high (hr : r.IsRun) {t u a e : Nat} (ht : t < r.n) (hu : u < r.n)
    (hpu : t < r.pos u) (hw : Walk r.adj (r.After u) a e) (he : e = u)
    (hreach : ∃ x0, r.adj (r.v t) x0 = true ∧ Walk r.adj (r.Low t u) x0 a) :
    r.S t u = true ∨
      ∃ p, r.After u p ∧ r.w (t + 1) u < r.w (t + 1) p ∧ Walk r.adj (r.Low (t + 1) p) u p := by
  induction hw with
  | refl b =>
    subst he
    obtain ⟨x0, hx0, hw0⟩ := hreach
    exact Or.inl ((hr.S_iff t b ht).2 ⟨hu, hpu, x0, hx0, hw0⟩)
  | @step a x e hadj ha w ih =>
    obtain ⟨x0, hx0, hw0⟩ := hreach
    have hpa : t < r.pos a := by have := ha.2; omega
    by_cases hlt : r.w t a < r.w t u
    · exact ih he ⟨x0, hx0, hw0.snoc ⟨ha.1, hpa, hlt⟩ hadj⟩
    · have hSa : r.S t a = true :=
        (hr.S_iff t a ht).2 ⟨ha.1, hpa, x0, hx0,
          hw0.mono (fun y hy => ⟨hy.1, hy.2.1, by have := hy.2.2; omega⟩)⟩
      by_cases hSu : r.S t u = true
      · exact Or.inl hSu
      · right
        have h1 := hr.weight_succ t a ht ha.1 hpa
        have h2 := hr.weight_succ t u ht hu hpu
        rw [if_pos hSa] at h1
        rw [if_neg hSu] at h2
        rcases hr.suffix_cases (t := t) hu hpu (Walk.step hadj ha w) he with h | h
        · exact h
        · exfalso
          cases h with
          | refl =>
            rw [he] at ha
            exact lt_irrefl _ ha.2
          | step _ hp _ =>
            have := hp.2
            omega

/-- A node joined to the popped node by a path of nodes popped after it is collected. -/
theorem IsRun.S_of_joined (hr : r.IsRun) {t u : Nat} (ht : t < r.n) (hu : u < r.n)
    (hpu : t < r.pos u) (hj : r.Joined (r.v t) u) : r.S t u = true := by
  obtain ⟨x0, hx0, hw⟩ := hj
  rcases hr.S_or_high ht hu hpu hw rfl ⟨x0, hx0, Walk.refl x0⟩ with h | ⟨p, hp, hlt, hwp⟩
  · exact h
  · exfalso
    have hpp : t + 1 < r.pos p := by have := hp.2; omega
    have := hr.walk_low_after hp.1 hpp hwp
    have hne : u ≠ p := fun h => by rw [h] at hp; exact lt_irrefl _ hp.2
    have := (this.head_ne hne).2.2
    have := hp.2
    omega

theorem IsRun.S_iff_joined (hr : r.IsRun) {t u : Nat} (ht : t < r.n) (hu : u < r.n)
    (hpu : t < r.pos u) : r.S t u = true ↔ r.Joined (r.v t) u :=
  ⟨hr.joined_of_S ht, hr.S_of_joined ht hu hpu⟩

theorem IsRun.joined_trans (hr : r.IsRun) {a b c : Nat} (hc : c < r.n)
    (hbc : r.pos b < r.pos c) (h1 : r.Joined a c) (h2 : r.Joined b c) : r.Joined a b := by
  obtain ⟨x, hx, hw1⟩ := h1
  obtain ⟨y, hy, hw2⟩ := h2
  have hmono : ∀ z, r.After c z → r.After b z := fun z hz => ⟨hz.1, lt_trans hbc hz.2⟩
  have hcb : r.After b c := ⟨hc, hbc⟩
  have hw2' := hw2.mono hmono
  have hyb : r.adj y b = true := by rw [hr.sym]; exact hy
  exact ⟨x, hx, (hw1.mono hmono).append
    ((hw2'.reverse hr.sym hcb).snoc (hw2'.head_of_last hcb) hyb)⟩

theorem IsRun.fillAdj_symm (_ : r.IsRun) {a b : Nat} (h : r.fillAdj a b) : r.fillAdj b a :=
  ⟨h.2.1, h.1, h.2.2.symm⟩

theorem IsRun.fillAdj_of_lt (_hr : r.IsRun) {a b : Nat} (h : r.fillAdj a b)
    (hlt : r.pos a < r.pos b) : r.S (r.pos a) b = true := by
  rcases h.2.2 with h1 | h1
  · exact h1.2
  · exact absurd h1.1 (by omega)

/-- The pop order is a perfect elimination ordering of the triangulation: two neighbours of a
node that are popped before it are adjacent. -/
theorem IsRun.fillAdj_earlier_neighbours (hr : r.IsRun) {a b c : Nat} (hac : r.fillAdj a c)
    (hbc : r.fillAdj b c) (hab : r.pos a < r.pos b) (hbc' : r.pos b < r.pos c) :
    r.fillAdj a b := by
  have ha := hac.1
  have hb := hbc.1
  have hc := hac.2.1
  have hpa := (hr.v_pos a ha)
  have hpb := (hr.v_pos b hb)
  have h1 := hr.joined_of_S hpa.1 (hr.fillAdj_of_lt hac (lt_trans hab hbc'))
  have h2 := hr.joined_of_S hpb.1 (hr.fillAdj_of_lt hbc hbc')
  rw [hpa.2] at h1
  rw [hpb.2] at h2
  have h3 := hr.joined_trans hc hbc' h1 h2
  refine ⟨ha, hb, Or.inl ⟨hab, ?_⟩⟩
  apply hr.S_of_joined hpa.1 hb hab
  rw [hpa.2]
  exact h3

theorem getD_inj_of_nodup {c : List Nat} (hc : c.Nodup) {i j : Nat} (hi : i < c.length)
    (hj : j < c.length) (h : c.getD i 0 = c.getD j 0) : i = j := by
  rw [List.getD_eq_getElem _ _ hi, List.getD_eq_getElem _ _ hj] at h
  exact (hc.getElem_inj_iff).1 h

theorem IsRun.fillAdj_of_earlier (hr : r.IsRun) {a b c : Nat} (hac : r.fillAdj a c)
    (hbc : r.fillAdj b c) (ha : r.pos a < r.pos c) (hb : r.pos b < r.pos c) (hne : a ≠ b) :
    r.fillAdj a b := by
  have hpne : r.pos a ≠ r.pos b := fun h => hne (hr.pos_inj hac.1 hbc.1 h)
  rcases Nat.lt_or_gt_of_ne hpne with h | h
  · exact hr.fillAdj_earlier_neighbours hac hbc h hb
  · exact hr.fillAdj_symm (hr.fillAdj_earlier_neighbours hbc hac h ha)

/-- The triangulation a run builds is chordal. -/
theorem IsRun.chordal (hr : r.IsRun) (H : Graph)
    (hH : ∀ a b, H.adj a b = true ↔ r.fillAdj a b) : H.Chordal := by
  intro c hlen hc
  obtain ⟨hnd, hadj⟩ := hc
  obtain ⟨m, hm, hmax⟩ := Finset.exists_max_image (Finset.range c.length)
    (fun i => r.pos (c.getD i 0)) ⟨0, Finset.mem_range.2 (by omega)⟩
  rw [Finset.mem_range] at hm
  have hmax' : ∀ i, i < c.length → i ≠ m → r.fillAdj (c.getD i 0) (c.getD m 0) →
      r.pos (c.getD i 0) < r.pos (c.getD m 0) := by
    intro i hi him hf
    have h1 := hmax i (Finset.mem_range.2 hi)
    have h2 : r.pos (c.getD i 0) ≠ r.pos (c.getD m 0) := fun h =>
      him (getD_inj_of_nodup hnd hi hm (hr.pos_inj hf.1 hf.2.1 h))
    simp only at h1
    omega
  have key : ∀ p q, p < q → q < c.length → p ≠ m → q ≠ m →
      r.fillAdj (c.getD p 0) (c.getD m 0) → r.fillAdj (c.getD q 0) (c.getD m 0) →
      (q = p + 1 ∨ (p = 0 ∧ q + 1 = c.length)) := by
    intro p q hpq hq hpm hqm hfp hfq
    have hne : c.getD p 0 ≠ c.getD q 0 := fun h => by
      have := getD_inj_of_nodup hnd (by omega) hq h
      omega
    have := hr.fillAdj_of_earlier hfp hfq (hmax' p (by omega) hpm hfp) (hmax' q hq hqm hfq) hne
    exact (hadj p q hpq hq).1 ((hH _ _).2 this)
  by_cases hm0 : m = 0
  · subst hm0
    have h1 := (hH _ _).1 ((hadj 0 1 (by omega) (by omega)).2 (Or.inl rfl))
    have h2 := (hH _ _).1 ((hadj 0 (c.length - 1) (by omega) (by omega)).2
      (Or.inr ⟨rfl, by omega⟩))
    have := key 1 (c.length - 1) (by omega) (by omega) (by omega) (by omega)
      (hr.fillAdj_symm h1) (hr.fillAdj_symm h2)
    omega
  · by_cases hml : m + 1 = c.length
    · have h1 := (hH _ _).1 ((hadj 0 m (by omega) hm).2 (Or.inr ⟨rfl, hml⟩))
      have h2 := (hH _ _).1 ((hadj (m - 1) m (by omega) hm).2 (Or.inl (by omega)))
      have := key 0 (m - 1) (by omega) (by omega) (by omega) (by omega) h1 h2
      omega
    · have h1 := (hH _ _).1 ((hadj (m - 1) m (by omega) hm).2 (Or.inl (by omega)))
      have h2 := (hH _ _).1 ((hadj m (m + 1) (by omega) (by omega)).2 (Or.inl rfl))
      have := key (m - 1) (m + 1) (by omega) (by omega) (by omega) (by omega) h1
        (hr.fillAdj_symm h2)
      omega

/-- Up to the start of the iteration that pops it, the weight of a node counts the earlier
iterations that collected it. -/
theorem IsRun.weight_eq_count (hr : r.IsRun) {u : Nat} (hu : u < r.n) (t : Nat)
    (ht : t ≤ r.pos u) : r.w t u = (List.range t).countP (fun s => r.S s u) := by
  induction t with
  | zero => simp [hr.weight_zero]
  | succ t ih =>
    have hpos := (hr.v_pos u hu).1
    rw [hr.weight_succ t u (by omega) hu (by omega), ih (by omega), List.range_succ,
      List.countP_append]
    simp [List.countP_cons]

theorem exists_of_countP_lt (p q : Nat → Bool) (l : List Nat)
    (h : l.countP p < l.countP q) : ∃ s ∈ l, q s = true ∧ p s = false := by
  by_contra hc
  have : l.countP q ≤ l.countP p := by
    apply List.countP_mono_left
    intro x hx hq
    by_contra hp
    exact hc ⟨x, hx, hq, by simpa using hp⟩
  omega

/-- On a walk with at least one node before its end, the node popped first among those before
the end is joined, through nodes popped after it, to the start and to a neighbour of the end. -/
theorem IsRun.exists_first_popped (hr : r.IsRun) {P : Nat → Prop} (hP : ∀ x, P x → x < r.n)
    {a e : Nat} (hw : Walk r.adj P a e) (hne : a ≠ e) :
    ∃ m, P m ∧ Walk r.adj (r.After m) a m ∧
      ∃ x, r.adj e x = true ∧ Walk r.adj (r.After m) x m := by
  induction hw with
  | refl b => exact absurd rfl hne
  | @step a x e hadj hp hw ih =>
    have hax : r.adj x a = true := by rw [hr.sym]; exact hadj
    by_cases hxe : x = e
    · subst hxe
      exact ⟨a, hp, Walk.refl a, a, hax, Walk.refl a⟩
    · obtain ⟨m, hPm, hw1, y, hy, hw2⟩ := ih hxe
      have han := hP a hp
      have hmn := hP m hPm
      rcases Nat.lt_trichotomy (r.pos a) (r.pos m) with h | h | h
      · have hmono : ∀ z, r.After m z → r.After a z := fun z hz => ⟨hz.1, lt_trans h hz.2⟩
        have hma : r.After a m := ⟨hmn, h⟩
        have hw1' := hw1.mono hmono
        refine ⟨a, hp, Walk.refl a, y, hy, ?_⟩
        exact (hw2.mono hmono).append
          ((hw1'.reverse hr.sym hma).snoc (hw1'.head_of_last hma) hax)
      · have := hr.pos_inj han hmn h
        subst this
        exact ⟨a, hp, Walk.refl a, y, hy, hw2⟩
      · exact ⟨m, hPm, Walk.step hadj ⟨han, h⟩ hw1, y, hy, hw2⟩

theorem removeEdge_adj (H : Graph) (a b x y : Nat) :
    (H.removeEdge a b).adj x y = true ↔
      H.adj x y = true ∧ ¬(x = a ∧ y = b) ∧ ¬(x = b ∧ y = a) := by
  simp [Graph.removeEdge]
  tauto

/-- A fill edge joins the ends of a chordless 4-cycle of the rest of the triangulation. -/
theorem IsRun.fill_edge_cycle (hr : r.IsRun) {a b : Nat} (hab : r.fillAdj a b)
    (hlt : r.pos a < r.pos b) (hnot : r.adj a b = false) :
    ∃ m e, r.fillAdj a m ∧ r.fillAdj m b ∧ r.fillAdj b e ∧ r.fillAdj a e ∧ ¬ r.fillAdj m e ∧
      r.pos e < r.pos a ∧ r.pos b < r.pos m := by
  have ha := hab.1
  have hb := hab.2.1
  have hpa := hr.v_pos a ha
  have hpb := hr.v_pos b hb
  have hS := hr.fillAdj_of_lt hab hlt
  have hS' := hS
  rw [hr.S_iff _ _ hpa.1, hpa.2] at hS'
  obtain ⟨_, _, x0, hx0, hw0⟩ := hS'
  have hx0b : x0 ≠ b := fun h => by
    rw [h, hnot] at hx0
    exact Bool.false_ne_true hx0
  have hw1 := hr.walk_low_after hb hlt hw0
  obtain ⟨m, hPm, hwm1, y, hy, hwm2⟩ := hr.exists_first_popped (fun x hx => hx.1.1) hw1 hx0b
  have hmn := hPm.1.1
  have hpm := hr.v_pos m hmn
  have hSam : r.S (r.pos a) m = true := by
    apply hr.S_of_joined hpa.1 hmn hPm.1.2.1
    rw [hpa.2]
    exact ⟨x0, hx0, hwm1⟩
  have hSbm : r.S (r.pos b) m = true := by
    apply hr.S_of_joined hpb.1 hmn hPm.2.2
    rw [hpb.2]
    exact ⟨y, hy, hwm2⟩
  have hcount : (List.range (r.pos a)).countP (fun s => r.S s m) <
      (List.range (r.pos a)).countP (fun s => r.S s b) := by
    rw [← hr.weight_eq_count hmn (r.pos a) (le_of_lt hPm.1.2.1),
      ← hr.weight_eq_count hb (r.pos a) (le_of_lt hlt)]
    exact hPm.1.2.2
  obtain ⟨s, hs, hsb, hsm⟩ := exists_of_countP_lt _ _ _ hcount
  rw [List.mem_range] at hs
  have hsn : s < r.n := by omega
  have hvs := hr.pos_v s hsn
  have hbe : r.fillAdj b (r.v s) := ⟨hb, hvs.1, Or.inr ⟨by rw [hvs.2]; omega, by rw [hvs.2]; exact hsb⟩⟩
  have hae : r.fillAdj a (r.v s) := by
    apply hr.fillAdj_symm
    exact hr.fillAdj_earlier_neighbours (hr.fillAdj_symm hbe) hab (by rw [hvs.2]; exact hs) hlt
  refine ⟨m, r.v s, ⟨ha, hmn, Or.inl ⟨hPm.1.2.1, hSam⟩⟩, ⟨hmn, hb, Or.inr ⟨hPm.2.2, hSbm⟩⟩,
    hbe, hae, ?_, by rw [hvs.2]; exact hs, hPm.2.2⟩
  intro hme
  have h1 := hPm.1.2.1
  rcases hme.2.2 with h | h
  · rw [hvs.2] at h
    omega
  · rw [hvs.2] at h
    rw [hsm] at h
    exact Bool.false_ne_true h.2

theorem isInducedCycle_congr {g g' : Graph} (h : ∀ x y, g.adj x y = g'.adj x y) (c : List Nat) :
    g.IsInducedCycle c ↔ g'.IsInducedCycle c := by
  unfold Graph.IsInducedCycle
  simp only [h]

theorem chordal_congr {g g' : Graph} (h : ∀ x y, g.adj x y = g'.adj x y) :
    g.Chordal ↔ g'.Chordal := by
  unfold Graph.Chordal
  simp only [isInducedCycle_congr h]

theorem IsRun.not_chordal_of_lt (hr : r.IsRun) (H : Graph)
    (hH : ∀ a b, H.adj a b = true ↔ r.fillAdj a b) {a b : Nat} (hab : r.fillAdj a b)
    (hlt : r.pos a < r.pos b) (hnot : r.adj a b = false) : ¬ (H.removeEdge a b).Chordal := by
  obtain ⟨m, e, ham, hmb, hbe, hae, hme, hea, hbm⟩ := hr.fill_edge_cycle hab hlt hnot
  intro hch
  apply hch [a, m, b, e] (by simp)
  have hne : ∀ {x y : Nat}, r.pos x ≠ r.pos y → x ≠ y := fun h1 h2 => h1 (by rw [h2])
  have n1 : a ≠ m := hne (by omega)
  have n2 : a ≠ b := hne (by omega)
  have n3 : a ≠ e := hne (by omega)
  have n4 : m ≠ b := hne (by omega)
  have n5 : m ≠ e := hne (by omega)
  have n6 : b ≠ e := hne (by omega)
  refine ⟨by simp [n1, n2, n3, n4, n5, n6], ?_⟩
  intro i j hij hj
  simp only [List.length_cons, List.length_nil] at hj
  have hcases : (i = 0 ∧ j = 1) ∨ (i = 0 ∧ j = 2) ∨ (i = 0 ∧ j = 3) ∨ (i = 1 ∧ j = 2) ∨
      (i = 1 ∧ j = 3) ∨ (i = 2 ∧ j = 3) := by omega
  rcases hcases with ⟨rfl, rfl⟩ | ⟨rfl, rfl⟩ | ⟨rfl, rfl⟩ | ⟨rfl, rfl⟩ | ⟨rfl, rfl⟩ | ⟨rfl, rfl⟩
  · simp only [List.getD_cons_zero, List.getD_cons_succ, removeEdge_adj, hH]
    simp [ham, n4, n2]
  · simp only [List.getD_cons_zero, List.getD_cons_succ, removeEdge_adj, hH]
    simp
  · simp only [List.getD_cons_zero, List.getD_cons_succ, removeEdge_adj, hH]
    simp [hae, n6.symm, n2]
  · simp only [List.getD_cons_zero, List.getD_cons_succ, removeEdge_adj, hH]
    simp [hmb, n1.symm, n4]
  · simp only [List.getD_cons_zero, List.getD_cons_succ, removeEdge_adj, hH]
    simp [hme]
  · simp only [List.getD_cons_zero, List.getD_cons_succ, removeEdge_adj, hH]
    simp [hbe, n2.symm, n3.symm]

/-- Minimality: the triangulation a run builds stops being chordal when any one of the edges
that are not edges of the input graph is removed. -/
theorem IsRun.not_chordal_removeEdge (hr : r.IsRun) (H : Graph)
    (hH : ∀ a b, H.adj a b = true ↔ r.fillAdj a b) {a b : Nat} (hab : r.fillAdj a b)
    (hnot : r.adj a b = false) : ¬ (H.removeEdge a b).Chordal := by
  have hne : r.pos a ≠ r.pos b := by
    rcases hab.2.2 with h | h <;> omega
  rcases Nat.lt_or_gt_of_ne hne with h | h
  · exact hr.not_chordal_of_lt H hH hab h hnot
  · have := hr.not_chordal_of_lt H hH (hr.fillAdj_symm hab) h (by rw [hr.sym]; exact hnot)
    intro hch
    apply this
    refine (chordal_congr (fun x y => ?_)).1 hch
    simp only [Graph.removeEdge]
    rw [Bool.or_comm]

end MCSRun

/-! ## The run of `getMinimalTriangulationUsingMSCM` -/

theorem monotone_flag_of_le (f : Nat → Bool) (hf : ∀ t, f t = true → f (t + 1) = true)
    {t t' : Nat} (h : t ≤ t') (ht : f t = true) : f t' = true := by
  induction t' with
  | zero =>
    have : t = 0 := by omega
    rw [← this]; exact ht
  | succ k ih =>
    by_cases hk : t = k + 1
    · rw [← hk]; exact ht
    · exact hf k (ih (by omega))

/-- For a flag that stays raised once raised, the number of steps below `n` at which it is
down is the first step at which it is up. -/
theorem count_down_monotone (f : Nat → Bool) (hf : ∀ t, f t = true → f (t + 1) = true)
    (n : Nat) :
    ∀ t, t < n → (f t = true ↔ (List.range n).countP (fun t => !f t) ≤ t) := by
  induction n with
  | zero => intro t ht; omega
  | succ n ih =>
    have hle : (List.range n).countP (fun t => !f t) ≤ n := by
      have := List.countP_le_length (fun t => !f t) (l := List.range n)
      rw [List.length_range] at this
      exact this
    intro t ht
    rw [List.range_succ, List.countP_append]
    cases hfn : f n with
    | true =>
      simp only [List.countP_cons, List.countP_nil, hfn, Bool.not_true, Bool.false_eq_true,
        if_false, Nat.add_zero]
      by_cases htn : t = n
      · rw [htn, hfn]
        exact ⟨fun _ => hle, fun _ => rfl⟩
      · exact ih t (by omega)
    | false =>
      simp only [List.countP_cons, List.countP_nil, hfn, Bool.not_false, if_true, Nat.zero_add]
      have hall : ∀ s, s ≤ n → f s = false := by
        intro s hs
        by_contra hc
        have := monotone_flag_of_le f hf hs (by simpa using hc)
        rw [hfn] at this
        exact Bool.false_ne_true this
      have hcount : (List.range n).countP (fun t => !f t) = n := by
        by_contra hc
        have hlt : (List.range n).countP (fun t => !f t) < n := by omega
        have := (ih _ hlt).2 (le_refl _)
        rw [hall _ (by omega)] at this
        exact Bool.false_ne_true this
      rw [hcount, hall t (by omega)]
      constructor
      · intro h; exact absurd h Bool.false_ne_true
      · intro h; omega

theorem mscm_handled_mono (g : Graph) (tie : List Nat) (x t : Nat)
    (h : (mscmStateAt g tie (t + 1)).handled x = true) :
    (mscmStateAt g tie (t + 1 + 1)).handled x = true := by
  rw [mscmStateAt_handled_succ, h]
  simp

theorem mscm_handled_succ_iff (g : Graph) (tie : List Nat) (x t : Nat)
    (ht : t < g.numberOfNodes) :
    (mscmStateAt g tie (t + 1)).handled x = true ↔ (mscmRun g tie).pos x ≤ t :=
  count_down_monotone (fun t => (mscmStateAt g tie (t + 1)).handled x)
    (fun t h => mscm_handled_mono g tie x t h) g.numberOfNodes t ht

theorem mscm_all_handled (g : Graph) (tie : List Nat) (x : Nat) (hx : x < g.numberOfNodes) :
    (mscmStateAt g tie g.numberOfNodes).handled x = true := by
  have hinv := mscmStateAt_inv g tie g.numberOfNodes (le_refl _)
  have hc := hinv.count
  have h0 : (List.range g.numberOfNodes).countP
      (fun x => !(mscmStateAt g tie g.numberOfNodes).handled x) = 0 := by omega
  rw [List.countP_eq_zero] at h0
  have := h0 x (List.mem_range.2 hx)
  simpa using this

theorem mscm_pos_lt (g : Graph) (tie : List Nat) (x : Nat) (hx : x < g.numberOfNodes) :
    (mscmRun g tie).pos x < g.numberOfNodes := by
  have h1 := mscm_all_handled g tie x hx
  have h2 := (mscm_handled_succ_iff g tie x (g.numberOfNodes - 1) (by omega)).1
    (by rw [show g.numberOfNodes - 1 + 1 = g.numberOfNodes by omega]; exact h1)
  omega

theorem mscm_handled_iff (g : Graph) (tie : List Nat) (x t : Nat)
    (ht : t ≤ g.numberOfNodes) :
    (mscmStateAt g tie t).handled x = true ↔ (mscmRun g tie).pos x < t := by
  cases t with
  | zero =>
    constructor
    · intro h; exact absurd h Bool.false_ne_true
    · intro h; omega
  | succ t =>
    rw [mscm_handled_succ_iff g tie x t (by omega)]
    omega

theorem mscm_popped_spec (g : Graph) (tie : List Nat) (t : Nat) (ht : t < g.numberOfNodes) :
    mscmPopped g tie t < g.numberOfNodes ∧
      (mscmStateAt g tie t).handled (mscmPopped g tie t) = false ∧
      ∀ x, x < g.numberOfNodes → (mscmStateAt g tie t).handled x = false →
        (mscmStateAt g tie t).queue.weight x ≤
          (mscmStateAt g tie t).queue.weight (mscmPopped g tie t) :=
  (mscmStateAt_inv g tie t (by omega)).pop_unhandled_max ht _

theorem mscm_pos_popped (g : Graph) (tie : List Nat) (t : Nat) (ht : t < g.numberOfNodes) :
    (mscmRun g tie).pos (mscmPopped g tie t) = t := by
  obtain ⟨_, h2, _⟩ := mscm_popped_spec g tie t ht
  have h3 : (mscmStateAt g tie (t + 1)).handled (mscmPopped g tie t) = true := by
    rw [mscmStateAt_handled_succ]
    simp
  have h4 := (mscm_handled_succ_iff g tie _ t ht).1 h3
  have h5 : ¬ (mscmRun g tie).pos (mscmPopped g tie t) < t := fun h => by
    have := (mscm_handled_iff g tie _ t (by omega)).2 h
    rw [h2] at this
    exact Bool.false_ne_true this
  omega

theorem mscm_popped_pos (g : Graph) (tie : List Nat) (x : Nat) (hx : x < g.numberOfNodes) :
    mscmPopped g tie ((mscmRun g tie).pos x) = x := by
  have hp := mscm_pos_lt g tie x hx
  have h1 : (mscmStateAt g tie ((mscmRun g tie).pos x + 1)).handled x = true :=
    (mscm_handled_succ_iff g tie x _ hp).2 (le_refl _)
  have h2 : ¬ (mscmStateAt g tie ((mscmRun g tie).pos x)).handled x = true := fun h => by
    have := (mscm_handled_iff g tie x _ (by omega)).1 h
    omega
  rw [mscmStateAt_handled_succ] at h1
  simp only [Bool.or_eq_true, beq_iff_eq] at h1
  rcases h1 with h | h
  · exact h.symm
  · exact absurd h h2

theorem mscm_S_iff (g : Graph) (tie : List Nat) (t u : Nat) (ht : t < g.numberOfNodes) :
    (mscmRun g tie).S t u = true ↔ u < g.numberOfNodes ∧ t < (mscmRun g tie).pos u ∧
      ∃ x, g.adj (mscmPopped g tie t) x = true ∧
        Walk g.adj ((mscmRun g tie).Low t u) x u := by
  have hspec := ((mscmStateAt_inv g tie t (by omega)).search_spec ht (tie.getD t 0)).2 u
  have hflag : ∀ a, (a == mscmPopped g tie t || (mscmStateAt g tie t).handled a) = false ↔
      t < (mscmRun g tie).pos a := by
    intro a
    rw [← mscmStateAt_handled_succ, ← Bool.not_eq_true, mscm_handled_succ_iff g tie a t ht]
    omega
  show (List.contains _ u = true) ↔ _
  rw [contains_iff_mem]
  show u ∈ (findNodesToUpdate g ((mscmStateAt g tie t).queue.pop (tie.getD t 0)).2
    (fun x => x == ((mscmStateAt g tie t).queue.pop (tie.getD t 0)).1 ||
      (mscmStateAt g tie t).handled x)
    ((mscmStateAt g tie t).queue.pop (tie.getD t 0)).1).nodesToUpdate ↔ _
  rw [hspec]
  unfold ReachTarget
  constructor
  · rintro ⟨h1, h2, x, hx, hw⟩
    exact ⟨h1, (hflag u).1 h2, x, hx, hw.mono (fun a ha => ⟨ha.1, (hflag a).1 ha.2.1, ha.2.2⟩)⟩
  · rintro ⟨h1, h2, x, hx, hw⟩
    exact ⟨h1, (hflag u).2 h2, x, hx, hw.mono (fun a ha => ⟨ha.1, (hflag a).2 ha.2.1, ha.2.2⟩)⟩

/-- The run of `getMinimalTriangulationUsingMSCM` on a well-formed graph obeys the laws of a
run of MCS-M. -/
theorem mscm_isRun (g : Graph) (hg : g.WellFormed) (tie : List Nat) : (mscmRun g tie).IsRun where
  sym := hg.2.1
  inRange := hg.1
  v_pos := fun x hx => ⟨mscm_pos_lt g tie x hx, mscm_popped_pos g tie x hx⟩
  pos_v := fun t ht => ⟨(mscm_popped_spec g tie t ht).1, mscm_pos_popped g tie t ht⟩
  max_weight := by
    intro t x ht hx hpos
    have ht' : t < g.numberOfNodes := ht
    apply (mscm_popped_spec g tie t ht).2.2 x hx
    rw [← Bool.not_eq_true, mscm_handled_iff g tie x t (le_of_lt ht')]
    exact not_lt.2 hpos
  weight_succ := fun t x ht _ _ =>
    mscmIteration_weight (mscmStateAt_inv g tie t (le_of_lt ht)) ht _ x
  weight_zero := fun _ => rfl
  S_iff := fun t u ht => mscm_S_iff g tie t u ht

theorem mscmStateAt_adj (g : Graph) (tie : List Nat) (t : Nat) (a b : Nat) :
    (mscmStateAt g tie t).triangulation.adj a b = true ↔
      g.adj a b = true ∨ ∃ s, s < t ∧
        (((mscmRun g tie).S s a = true ∧ b = mscmPopped g tie s) ∨
          (a = mscmPopped g tie s ∧ (mscmRun g tie).S s b = true)) := by
  induction t with
  | zero =>
    show g.adj a b = true ↔ _
    constructor
    · exact Or.inl
    · rintro (h | ⟨s, hs, _⟩)
      · exact h
      · omega
  | succ t ih =>
    have := (updateNodes_graph (mscmPopped g tie t) (findNodesToUpdate g
      ((mscmStateAt g tie t).queue.pop (tie.getD t 0)).2
      (fun x => x == mscmPopped g tie t || (mscmStateAt g tie t).handled x)
      (mscmPopped g tie t)).nodesToUpdate (mscmStateAt g tie t).triangulation
      ((mscmStateAt g tie t).queue.pop (tie.getD t 0)).2).2 a b
    refine this.trans ?_
    rw [ih]
    have hS : ∀ u, (mscmRun g tie).S t u = true ↔ u ∈ (findNodesToUpdate g
        ((mscmStateAt g tie t).queue.pop (tie.getD t 0)).2
        (fun x => x == mscmPopped g tie t || (mscmStateAt g tie t).handled x)
        (mscmPopped g tie t)).nodesToUpdate := fun u => contains_iff_mem _ _
    rw [← hS a, ← hS b]
    constructor
    · rintro ((h | ⟨s, hs, h⟩) | h)
      · exact Or.inl h
      · exact Or.inr ⟨s, by omega, h⟩
      · exact Or.inr ⟨t, by omega, h⟩
    · rintro (h | ⟨s, hs, h⟩)
      · exact Or.inl (Or.inl h)
      · by_cases hst : s = t
        · subst hst
          exact Or.inr h
        · exact Or.inl (Or.inr ⟨s, by omega, h⟩)

/-- The edges of the result of `getMinimalTriangulationUsingMSCM` are the pairs one of which
was collected in the iteration that popped the other. -/
theorem mscm_adj_iff_fillAdj (g : Graph) (hg : g.WellFormed) (tie : List Nat) (a b : Nat) :
    (getMinimalTriangulationUsingMSCM tie g).adj a b = true ↔ (mscmRun g tie).fillAdj a b := by
  have hr := mscm_isRun g hg tie
  rw [mscm_eq_stateAt, mscmStateAt_adj]
  constructor
  · rintro (h | ⟨s, hs, h | h⟩)
    · obtain ⟨ha, hb⟩ := hg.1 a b h
      have hne : a ≠ b := fun hab => by
        rw [hab, hg.2.2 b] at h
        exact Bool.false_ne_true h
      have hpne : (mscmRun g tie).pos a ≠ (mscmRun g tie).pos b :=
        fun hp => hne (hr.pos_inj ha hb hp)
      refine ⟨ha, hb, ?_⟩
      rcases Nat.lt_or_gt_of_ne hpne with hlt | hlt
      · left
        refine ⟨hlt, (hr.S_iff _ _ (hr.v_pos a ha).1).2 ⟨hb, hlt, b, ?_, Walk.refl b⟩⟩
        rw [(hr.v_pos a ha).2]
        exact h
      · right
        refine ⟨hlt, (hr.S_iff _ _ (hr.v_pos b hb).1).2 ⟨ha, hlt, a, ?_, Walk.refl a⟩⟩
        rw [(hr.v_pos b hb).2]
        show g.adj b a = true
        rw [hg.2.1]
        exact h
    · obtain ⟨h1, h2⟩ := h
      have hS := (hr.S_iff s a hs).1 h1
      have hv := hr.pos_v s hs
      have hv2 : (mscmRun g tie).pos (mscmPopped g tie s) = s := hv.2
      subst h2
      exact ⟨hS.1, hv.1, Or.inr ⟨by rw [hv2]; exact hS.2.1, by rw [hv2]; exact h1⟩⟩
    · obtain ⟨h1, h2⟩ := h
      have hS := (hr.S_iff s b hs).1 h2
      have hv := hr.pos_v s hs
      have hv2 : (mscmRun g tie).pos (mscmPopped g tie s) = s := hv.2
      subst h1
      exact ⟨hv.1, hS.1, Or.inl ⟨by rw [hv2]; exact hS.2.1, by rw [hv2]; exact h2⟩⟩
  · rintro ⟨ha, hb, h | h⟩
    · right
      refine ⟨(mscmRun g tie).pos a, lt_of_lt_of_le h.1 (le_of_lt (hr.v_pos b hb).1),
        Or.inr ⟨(hr.v_pos a ha).2.symm, h.2⟩⟩
    · right
      refine ⟨(mscmRun g tie).pos b, lt_of_lt_of_le h.1 (le_of_lt (hr.v_pos a ha).1),
        Or.inl ⟨h.2, (hr.v_pos b hb).2.symm⟩⟩

/-- C1: for every well-formed input graph and every tie-break of the queue (every sequence of
choices), the graph returned by `getMinimalTriangulationUsingMSCM` is chordal: it has no induced
cycle of length at least 4. -/
theorem mscm_chordal (g : Graph) (hg : g.WellFormed) (tie : List Nat) :
    (getMinimalTriangulationUsingMSCM tie g).Chordal :=
  (mscm_isRun g hg tie).chordal _ (mscm_adj_iff_fillAdj g hg tie)

theorem mscm_chordal_witness :
    cycle4.WellFormed ∧ (getMinimalTriangulationUsingMSCM [] cycle4).Chordal :=
  ⟨ofEdges_wellFormed _ _ (by decide), mscm_chordal cycle4 (ofEdges_wellFormed _ _ (by decide)) []⟩

/-- C2: for every well-formed input graph, the result of `getMinimalTriangulationUsingMSCM` is
a minimal triangulation: removing any one edge of the result that is not an edge of the input
leaves a graph that is not chordal. -/
theorem mscm_minimal (g : Graph) (hg : g.WellFormed) (tie : List Nat) (a b : Nat)
    (hres : (getMinimalTriangulationUsingMSCM tie g).adj a b = true)
    (hnot : g.adj a b = false) :
    ¬ ((getMinimalTriangulationUsingMSCM tie g).removeEdge a b).Chordal :=
  (mscm_isRun g hg tie).not_chordal_removeEdge _ (mscm_adj_iff_fillAdj g hg tie)
    ((mscm_adj_iff_fillAdj g hg tie a b).1 hres) hnot

theorem mscm_minimal_witness :
    cycle4.WellFormed ∧ (getMinimalTriangulationUsingMSCM [] cycle4).adj 1 3 = true ∧
      cycle4.adj 1 3 = false ∧
      ¬ ((getMinimalTriangulationUsingMSCM [] cycle4).removeEdge 1 3).Chordal :=
  ⟨ofEdges_wellFormed _ _ (by decide), by decide, by decide,
    mscm_minimal cycle4 (ofEdges_wellFormed _ _ (by decide)) [] 1 3 (by decide) (by decide)⟩

/-! ## Chordal input graphs -/

theorem getD_take_append_drop (q : List Nat) (i j k : Nat) (hi : i < q.length) :
    (q.take (i + 1) ++ q.drop j).getD k 0 =
      if k ≤ i then q.getD k 0 else q.getD (k - (i + 1) + j) 0 := by
  simp only [List.getD_eq_getElem?_getD]
  by_cases hk : k ≤ i
  · rw [if_pos hk, List.getElem?_append_left (by simp; omega), List.getElem?_take_of_lt (by omega)]
  · rw [if_neg hk, List.getElem?_append_right (by simp; omega), List.getElem?_drop]
    congr 2
    simp only [List.length_take]
    omega

theorem length_take_append_drop (q : List Nat) (i j : Nat) (hi : i < q.length)
    (_hj : j ≤ q.length) : (q.take (i + 1) ++ q.drop j).length = i + 1 + (q.length - j) := by
  simp only [List.length_append, List.length_take, List.length_drop]
  omega

theorem nodup_of_getD_ne (l : List Nat)
    (h : ∀ i j, i < j → j < l.length → l.getD i 0 ≠ l.getD j 0) : l.Nodup := by
  rw [List.Nodup, List.pairwise_iff_getElem]
  intro i j hi hj hij
  have := h i j hij hj
  rw [List.getD_eq_getElem _ _ hi, List.getD_eq_getElem _ _ hj] at this
  exact this

theorem getD_cons_drop (q : List Nat) (e i a : Nat) :
    (e :: q.drop i).getD (a + 1) 0 = q.getD (i + a) 0 := by
  rw [List.getD_cons_succ]
  simp only [List.getD_eq_getElem?_getD, List.getElem?_drop]

theorem Walk.toList {adj : Nat → Nat → Bool} {P : Nat → Prop} {a b : Nat}
    (w : Walk adj P a b) :
    ∃ q : List Nat, 1 ≤ q.length ∧ q.getD 0 0 = a ∧ q.getD (q.length - 1) 0 = b ∧
      (∀ i, i + 1 < q.length → adj (q.getD i 0) (q.getD (i + 1) 0) = true) ∧
      ∀ i, i + 1 < q.length → P (q.getD i 0) := by
  induction w with
  | refl b => exact ⟨[b], by simp, rfl, rfl, fun i hi => by simp at hi, fun i hi => by simp at hi⟩
  | @step a x b hadj hp _ ih =>
    obtain ⟨q, h1, h2, h3, h4, h5⟩ := ih
    refine ⟨a :: q, by simp, rfl, ?_, ?_, ?_⟩
    · simp only [List.length_cons, Nat.add_sub_cancel]
      rw [show q.length = (q.length - 1) + 1 by omega, List.getD_cons_succ]
      exact h3
    · intro i hi
      simp only [List.length_cons] at hi
      cases i with
      | zero =>
        simp only [List.getD_cons_zero, List.getD_cons_succ, h2]
        exact hadj
      | succ i =>
        simp only [List.getD_cons_succ]
        exact h4 i (by omega)
    · intro i hi
      simp only [List.length_cons] at hi
      cases i with
      | zero => exact hp
      | succ i =>
        simp only [List.getD_cons_succ]
        exact h5 i (by omega)

theorem isPathBetween_of_walk {adj : Nat → Nat → Bool} {P : Nat → Prop} {z x y : Nat}
    (hzx : adj z x = true) (w : Walk adj P x y) : ∃ q, IsPathBetween adj P z y q := by
  obtain ⟨q, h1, h2, h3, h4, h5⟩ := w.toList
  refine ⟨z :: q, by simp; omega, rfl, ?_, ?_, ?_⟩
  · simp only [List.length_cons, Nat.add_sub_cancel]
    rw [show q.length = (q.length - 1) + 1 by omega, List.getD_cons_succ]
    exact h3
  · intro i hi
    simp only [List.length_cons] at hi
    cases i with
    | zero =>
      simp only [List.getD_cons_zero, List.getD_cons_succ, h2]
      exact hzx
    | succ i =>
      simp only [List.getD_cons_succ]
      exact h4 i (by omega)
  · intro i hi0 hi
    simp only [List.length_cons] at hi
    cases i with
    | zero => omega
    | succ i =>
      simp only [List.getD_cons_succ]
      exact h5 i (by omega)

theorem IsPathBetween.shortcut {adj : Nat → Nat → Bool} {P : Nat → Prop} {z y : Nat}
    {q : List Nat} (hq : IsPathBetween adj P z y q) {i j : Nat} (hij : i + 1 < j)
    (hj : j < q.length) (hadj : adj (q.getD i 0) (q.getD j 0) = true) :
    IsPathBetween adj P z y (q.take (i + 1) ++ q.drop j) ∧
      (q.take (i + 1) ++ q.drop j).length < q.length := by
  obtain ⟨h1, h2, h3, h4, h5⟩ := hq
  have hlen := length_take_append_drop q i j (by omega) (by omega)
  have hget := getD_take_append_drop q i j
  refine ⟨⟨by omega, ?_, ?_, ?_, ?_⟩, by omega⟩
  · rw [hget 0 (by omega), if_pos (by omega)]
    exact h2
  · rw [hget _ (by omega), hlen, if_neg (by omega)]
    rw [show i + 1 + (q.length - j) - 1 - (i + 1) + j = q.length - 1 by omega]
    exact h3
  · intro k hk
    rw [hlen] at hk
    rw [hget k (by omega), hget (k + 1) (by omega)]
    by_cases hki : k + 1 ≤ i
    · rw [if_pos (by omega), if_pos hki]
      exact h4 k (by omega)
    · by_cases hki2 : k = i
      · subst hki2
        rw [if_pos (le_refl _), if_neg (by omega)]
        rw [show k + 1 - (k + 1) + j = j by omega]
        exact hadj
      · rw [if_neg (by omega), if_neg (by omega)]
        rw [show k + 1 - (i + 1) + j = (k - (i + 1) + j) + 1 by omega]
        exact h4 _ (by omega)
  · intro k hk0 hk
    rw [hlen] at hk
    rw [hget k (by omega)]
    by_cases hki : k ≤ i
    · rw [if_pos hki]
      exact h5 k hk0 (by omega)
    · rw [if_neg hki]
      exact h5 _ (by omega) (by omega)

/-- A path between two nodes can be shortened to one without a chord. -/
theorem IsPathBetween.exists_induced {adj : Nat → Nat → Bool} {P : Nat → Prop} {z y : Nat}
    (n : Nat) (q : List Nat) (hn : q.length ≤ n) (hq : IsPathBetween adj P z y q) :
    ∃ q', IsPathBetween adj P z y q' ∧
      ∀ i j, i + 1 < j → j < q'.length → adj (q'.getD i 0) (q'.getD j 0) = false := by
  induction n generalizing q with
  | zero =>
    have := hq.1
    omega
  | succ n ih =>
    by_cases hsc : ∀ i j, i + 1 < j → j < q.length → adj (q.getD i 0) (q.getD j 0) = false
    · exact ⟨q, hq, hsc⟩
    · push_neg at hsc
      obtain ⟨i, j, hij, hj, hadj⟩ := hsc
      obtain ⟨h1, h2⟩ := hq.shortcut hij hj (by simpa using hadj)
      exact ih _ (by omega) h1

namespace MCSRun

variable {r : MCSRun}

/-- On a chordal input graph every collected node is a neighbour of the popped node. -/
theorem IsRun.adj_of_S_of_chordal (hr : r.IsRun) (G : Graph)
    (hG : ∀ a b, G.adj a b = r.adj a b) (hch : G.Chordal) (t : Nat) :
    t < r.n → ∀ u, r.S t u = true → r.adj (r.v t) u = true := by
  induction t using Nat.strong_induction_on with
  | _ t ih =>
    intro ht y hS
    by_contra hnot
    have hnot' : r.adj (r.v t) y = false := by simpa using hnot
    have hvt := hr.pos_v t ht
    have hS' := (hr.S_iff t y ht).1 hS
    obtain ⟨hy, hpy, x0, hx0, hw0⟩ := hS'
    obtain ⟨q0, hq0⟩ := isPathBetween_of_walk hx0 hw0
    obtain ⟨q, hq, hind⟩ := hq0.exists_induced q0.length q0 (le_refl _)
    obtain ⟨h1, h2, h3, h4, h5⟩ := hq
    have hlen3 : 3 ≤ q.length := by
      by_contra hc
      have hl2 : q.length = 2 := by omega
      have := h4 0 (by omega)
      rw [h2] at this
      rw [hl2] at h3
      rw [h3, hnot'] at this
      exact Bool.false_ne_true this
    -- the last inner node is lighter than `y`
    have hlast := h5 (q.length - 2) (by omega) (by omega)
    have hcount : (List.range t).countP (fun s => r.S s (q.getD (q.length - 2) 0)) <
        (List.range t).countP (fun s => r.S s y) := by
      rw [← hr.weight_eq_count hlast.1 t (le_of_lt hlast.2.1),
        ← hr.weight_eq_count hy t (le_of_lt hpy)]
      exact hlast.2.2
    obtain ⟨s, hs, hsy, hsx⟩ := exists_of_countP_lt _ _ _ hcount
    rw [List.mem_range] at hs
    have hsn : s < r.n := by omega
    have hvs := hr.pos_v s hsn
    -- the neighbours of `e = v s`
    have hey : r.adj (r.v s) y = true := ih s hs hsn y hsy
    have hez : r.adj (r.v s) (r.v t) = true := by
      apply ih s hs hsn
      have hfy : r.fillAdj (r.v s) y := ⟨hvs.1, hy, Or.inl ⟨by rw [hvs.2]; omega, by rw [hvs.2]; exact hsy⟩⟩
      have hfz : r.fillAdj (r.v t) y := ⟨hvt.1, hy, Or.inl ⟨by rw [hvt.2]; omega, by rw [hvt.2]; exact hS⟩⟩
      have := hr.fillAdj_earlier_neighbours hfy hfz (by rw [hvs.2, hvt.2]; exact hs)
        (by rw [hvt.2]; exact hpy)
      have := hr.fillAdj_of_lt this (by rw [hvs.2, hvt.2]; exact hs)
      rw [hvs.2] at this
      exact this
    have hex : r.adj (r.v s) (q.getD (q.length - 2) 0) = false := by
      by_contra hc
      have hc' : r.adj (r.v s) (q.getD (q.length - 2) 0) = true := by simpa using hc
      have : r.S s (q.getD (q.length - 2) 0) = true :=
        (hr.S_iff s _ hsn).2 ⟨hlast.1, by have := hlast.2.1; omega, _, hc', Walk.refl _⟩
      rw [hsx] at this
      exact Bool.false_ne_true this
    -- positions of the nodes of the path
    have hpos : ∀ k, k < q.length → q.getD k 0 < r.n ∧ t ≤ r.pos (q.getD k 0) := by
      intro k hk
      by_cases hk0 : k = 0
      · rw [hk0, h2]
        exact ⟨hvt.1, by rw [hvt.2]⟩
      · by_cases hkl : k + 1 = q.length
        · rw [show k = q.length - 1 by omega, h3]
          exact ⟨hy, le_of_lt hpy⟩
        · have := h5 k (by omega) (by omega)
          exact ⟨this.1, le_of_lt this.2.1⟩
    have hne_path : ∀ i j, i < j → j < q.length → q.getD i 0 ≠ q.getD j 0 := by
      intro i j hij hj heq
      by_cases hjl : j + 1 = q.length
      · rw [show j = q.length - 1 by omega, h3] at heq
        by_cases hi0 : i = 0
        · rw [hi0, h2] at heq
          rw [← heq, hvt.2] at hpy
          exact lt_irrefl _ hpy
        · have := (h5 i (by omega) (by omega)).2.2
          rw [heq] at this
          exact lt_irrefl _ this
      · have h6 := h4 j (by omega)
        rw [← heq] at h6
        have := hind i (j + 1) (by omega) (by omega)
        rw [this] at h6
        exact Bool.false_ne_true h6
    -- the last node of the path before its end that is adjacent to `e`
    have hP0 : r.adj (r.v s) (q.getD 0 0) = true := by rw [h2]; exact hez
    have hgr_spec := Nat.findGreatest_spec (P := fun i => r.adj (r.v s) (q.getD i 0) = true)
      (Nat.zero_le (q.length - 3)) hP0
    have hgr_le := Nat.findGreatest_le (P := fun i => r.adj (r.v s) (q.getD i 0) = true)
      (q.length - 3)
    have hgr_max := fun k => Nat.findGreatest_is_greatest
      (P := fun i => r.adj (r.v s) (q.getD i 0) = true) (n := q.length - 3) (k := k)
    generalize Nat.findGreatest (fun i => r.adj (r.v s) (q.getD i 0) = true) (q.length - 3) = i
      at hgr_spec hgr_le hgr_max
    -- the cycle
    apply hch (r.v s :: q.drop i) (by simp only [List.length_cons, List.length_drop]; omega)
    have hclen : (r.v s :: q.drop i).length = q.length - i + 1 := by
      simp only [List.length_cons, List.length_drop]
    refine ⟨nodup_of_getD_ne _ ?_, ?_⟩
    · intro a b hab hb
      rw [hclen] at hb
      obtain ⟨b', rfl⟩ : ∃ b', b = b' + 1 := ⟨b - 1, by omega⟩
      rw [getD_cons_drop]
      cases a with
      | zero =>
        rw [List.getD_cons_zero]
        intro heq
        have := (hpos (i + b') (by omega)).2
        rw [← heq, hvs.2] at this
        omega
      | succ a' =>
        rw [getD_cons_drop]
        exact hne_path _ _ (by omega) (by omega)
    · intro a b hab hb
      rw [hclen] at hb ⊢
      obtain ⟨b', rfl⟩ : ∃ b', b = b' + 1 := ⟨b - 1, by omega⟩
      rw [getD_cons_drop, hG]
      cases a with
      | zero =>
        rw [List.getD_cons_zero]
        constructor
        · intro hadj
          by_contra hc
          push_neg at hc
          have hb1 : b' ≠ 0 := by omega
          have hb2 : i + b' + 1 ≠ q.length := by
            intro h
            exact hc.2 rfl (by omega)
          by_cases hb3 : i + b' + 2 = q.length
          · rw [show i + b' = q.length - 2 by omega, hex] at hadj
            exact Bool.false_ne_true hadj
          · exact hgr_max (i + b') (by omega) (by omega) hadj
        · rintro (h | ⟨_, h⟩)
          · have : b' = 0 := by omega
            rw [this, Nat.add_zero]
            exact hgr_spec
          · rw [show i + b' = q.length - 1 by omega, h3]
            exact hey
      | succ a' =>
        rw [getD_cons_drop]
        constructor
        · intro hadj
          left
          by_contra hc
          have := hind (i + a') (i + b') (by omega) (by omega)
          rw [this] at hadj
          exact Bool.false_ne_true hadj
        · rintro (h | ⟨h, _⟩)
          · rw [show i + b' = i + a' + 1 by omega]
            exact h4 _ (by omega)
          · omega

end MCSRun

/-- C6: for every well-formed input graph that is already chordal,
`getMinimalTriangulationUsingMSCM` returns a graph with the nodes and exactly the edges of the
input, whatever the tie-break of the queue. -/
theorem mscm_chordal_input_unchanged (g : Graph) (hg : g.WellFormed) (hch : g.Chordal)
    (tie : List Nat) :
    (getMinimalTriangulationUsingMSCM tie g).numberOfNodes = g.numberOfNodes ∧
      ∀ a b, (getMinimalTriangulationUsingMSCM tie g).adj a b = g.adj a b := by
  have hr := mscm_isRun g hg tie
  refine ⟨(mscm_isSupergraphOf tie g).1, fun a b => ?_⟩
  rw [Bool.eq_iff_iff]
  constructor
  · intro h
    have hf := (mscm_adj_iff_fillAdj g hg tie a b).1 h
    obtain ⟨ha, hb, h1 | h1⟩ := hf
    · have := hr.adj_of_S_of_chordal g (fun _ _ => rfl) hch _ (hr.v_pos a ha).1 b h1.2
      rw [(hr.v_pos a ha).2] at this
      exact this
    · have := hr.adj_of_S_of_chordal g (fun _ _ => rfl) hch _ (hr.v_pos b hb).1 a h1.2
      rw [(hr.v_pos b hb).2] at this
      rw [hg.2.1]
      exact this
  · exact (mscm_isSupergraphOf tie g).2 a b

theorem chordal_of_le_three (g : Graph) (hg : g.InRange) (hn : g.numberOfNodes ≤ 3) :
    g.Chordal := by
  intro c hlen hc
  obtain ⟨hnd, hadj⟩ := hc
  have hsub : c ⊆ List.range 3 := by
    intro x hx
    obtain ⟨⟨i, hi⟩, hxi⟩ := List.mem_iff_get.1 hx
    have hx' : c.getD i 0 = x := by rw [List.getD_eq_getElem c 0 hi]; exact hxi
    rw [List.mem_range]
    have hlt : x < g.numberOfNodes := by
      rw [← hx']
      by_cases hi0 : i = 0
      · have := (hadj 0 1 (by omega) (by omega)).2 (Or.inl rfl)
        rw [hi0]
        exact (hg _ _ this).1
      · have := (hadj (i - 1) i (by omega) hi).2 (Or.inl (by omega))
        exact (hg _ _ this).2
    omega
  have := (List.subperm_of_subset hnd hsub).length_le
  simp only [List.length_range] at this
  omega

theorem mscm_chordal_input_unchanged_witness :
    path3.WellFormed ∧ path3.Chordal ∧
      ((getMinimalTriangulationUsingMSCM [] path3).numberOfNodes = path3.numberOfNodes ∧
        ∀ a b, (getMinimalTriangulationUsingMSCM [] path3).adj a b = path3.adj a b) :=
  ⟨ofEdges_wellFormed _ _ (by decide),
    chordal_of_le_three path3 (ofEdges_inRange _ _ (by decide)) (by decide),
    mscm_chordal_input_unchanged path3 (ofEdges_wellFormed _ _ (by decide))
      (chordal_of_le_three path3 (ofEdges_inRange _ _ (by decide)) (by decide)) []⟩

/-! ## LB-Triang: separators that do not cross -/

theorem mem_closedNeighbors (h : Graph) (x y : Nat) :
    y ∈ h.closedNeighbors x ↔ y = x ∨ (y < h.numberOfNodes ∧ h.adj x y = true) := by
  unfold Graph.closedNeighbors
  rw [mem_setInsert, mem_getNeighbors]

theorem Graph.Conn.refl {g : Graph} {t : List Nat} {a : Nat} (ha : g.Kept t a) : g.Conn t a a :=
  ⟨ha, ha, Walk.refl a⟩

theorem Graph.Conn.symm {g : Graph} (hg : g.Symmetric) {t : List Nat} {a b : Nat}
    (h : g.Conn t a b) : g.Conn t b a :=
  ⟨h.2.1, h.1, h.2.2.reverse hg h.2.1⟩

theorem Graph.Conn.trans {g : Graph} {t : List Nat} {a b c : Nat} (h1 : g.Conn t a b)
    (h2 : g.Conn t b c) : g.Conn t a c :=
  ⟨h1.1, h2.2.1, h1.2.2.append h2.2.2⟩

theorem Graph.Conn.edge {g : Graph} {t : List Nat} {a b : Nat} (ha : g.Kept t a)
    (hb : g.Kept t b) (hab : g.adj a b = true) : g.Conn t a b :=
  ⟨ha, hb, Walk.step hab ha (Walk.refl b)⟩

theorem Graph.Conn.shrink {g : Graph} {t t' : List Nat} {a b : Nat} (hsub : ∀ x, x ∈ t' → x ∈ t)
    (h : g.Conn t a b) : g.Conn t' a b :=
  ⟨⟨h.1.1, fun hm => h.1.2 (hsub _ hm)⟩, ⟨h.2.1.1, fun hm => h.2.1.2 (hsub _ hm)⟩,
    h.2.2.mono (fun _ hx => ⟨hx.1, fun hm => hx.2 (hsub _ hm)⟩)⟩

/-- Every node of a walk outside `t` is joined to the end of the walk. -/
theorem Graph.Conn.walk_inner {g : Graph} {t : List Nat} {a b : Nat} (h : g.Conn t a b) :
    Walk g.adj (fun y => g.Conn t y b) a b :=
  h.2.2.mono_suffix (fun _ hy hw => ⟨hy, h.2.1, hw⟩)

/-- Two nodes of `t` are joined by a walk through a full component of `t`. -/
theorem Graph.Full.walk_via {g : Graph} (hg : g.Symmetric) {t : List Nat} {α : Nat}
    (hα : g.Full t α) {x y : Nat} (hx : x ∈ t) (hy : y ∈ t) (Q : Nat → Prop) (hQx : Q x)
    (hQ : ∀ c, g.Conn t α c → Q c) : Walk g.adj Q x y := by
  obtain ⟨c1, h1, hc1⟩ := hα.2 x hx
  obtain ⟨c2, h2, hc2⟩ := hα.2 y hy
  have h12 : g.Conn t c1 c2 := (hc1.symm hg).trans hc2
  have hw : Walk g.adj Q c1 c2 :=
    h12.walk_inner.mono (fun z hz => hQ z (hc2.trans (hz.symm hg)))
  have hx1 : g.adj x c1 = true := by rw [hg]; exact h1
  exact Walk.step hx1 hQx (hw.snoc (hQ c2 hc2) h2)

theorem LBInv.h_symm {g h : Graph} {seps : List (List Nat)} {proc : Nat → Prop}
    (hinv : LBInv g h seps proc) : h.Symmetric := by
  intro a b
  rw [Bool.eq_iff_iff, hinv.adj_iff, hinv.adj_iff, hinv.g_wf.2.1 a b]
  constructor
  · rintro (h1 | ⟨h1, t, ht, ha, hb⟩)
    · exact Or.inl h1
    · exact Or.inr ⟨fun hc => h1 hc.symm, t, ht, hb, ha⟩
  · rintro (h1 | ⟨h1, t, ht, ha, hb⟩)
    · exact Or.inl h1
    · exact Or.inr ⟨fun hc => h1 hc.symm, t, ht, hb, ha⟩

theorem LBInv.h_lt {g h : Graph} {seps : List (List Nat)} {proc : Nat → Prop}
    (hinv : LBInv g h seps proc) {a b : Nat} (hab : h.adj a b = true) :
    a < g.numberOfNodes ∧ b < g.numberOfNodes := by
  rcases (hinv.adj_iff a b).1 hab with h1 | ⟨_, t, ht, ha, hb⟩
  · exact hinv.g_wf.1 a b h1
  · exact ⟨hinv.sep_lt t ht a ha, hinv.sep_lt t ht b hb⟩

theorem LBInv.h_ne {g h : Graph} {seps : List (List Nat)} {proc : Nat → Prop}
    (hinv : LBInv g h seps proc) {a b : Nat} (hab : h.adj a b = true) : a ≠ b := by
  rcases (hinv.adj_iff a b).1 hab with h1 | ⟨h1, _⟩
  · intro hc
    rw [hc, hinv.g_wf.2.2 b] at h1
    exact Bool.false_ne_true h1
  · exact h1

theorem LBInv.sep_clique {g h : Graph} {seps : List (List Nat)} {proc : Nat → Prop}
    (hinv : LBInv g h seps proc) {t : List Nat} (ht : t ∈ seps) {a b : Nat} (ha : a ∈ t)
    (hb : b ∈ t) (hne : a ≠ b) : h.adj a b = true :=
  (hinv.adj_iff a b).2 (Or.inr ⟨hne, t, ht, ha, hb⟩)

/-- The neighbours in `h` of a node outside a saturated separator `t` lie in `t` or in the
component of the node. -/
theorem LBInv.adj_sep_or_conn {g h : Graph} {seps : List (List Nat)} {proc : Nat → Prop}
    (hinv : LBInv g h seps proc) {t : List Nat} (ht : t ∈ seps) {x y : Nat} (hx : x ∉ t)
    (hxy : h.adj x y = true) : y ∈ t ∨ g.Conn t x y := by
  by_cases hy : y ∈ t
  · exact Or.inl hy
  · right
    obtain ⟨hxn, hyn⟩ := hinv.h_lt hxy
    rcases (hinv.adj_iff x y).1 hxy with h1 | ⟨_, s, hs, hxs, hys⟩
    · exact Graph.Conn.edge ⟨hxn, hx⟩ ⟨hyn, hy⟩ h1
    · exact hinv.noncross s hs t ht x hxs y hys hx hy

/-- A saturated separator has a full component that does not contain a given node. -/
theorem LBInv.exists_full_not_conn {g h : Graph} {seps : List (List Nat)} {proc : Nat → Prop}
    (hinv : LBInv g h seps proc) {t : List Nat} (ht : t ∈ seps) (z : Nat) :
    ∃ α, g.Full t α ∧ ¬ g.Conn t z α := by
  obtain ⟨α, β, hα, hβ, hαβ⟩ := hinv.full t ht
  by_cases h1 : g.Conn t z α
  · refine ⟨β, hβ, fun h2 => hαβ ((h1.symm hinv.g_wf.2.1).trans h2)⟩
  · exact ⟨α, hα, h1⟩

/-- Every edge `a b` of the working graph is accompanied by a walk of the input graph from
`a` to `b` that avoids, before its end, the closed neighbourhood in `h` of any node `x` that is
neither `a` nor a neighbour of `a`. -/
theorem LBInv.edge_walk {g h : Graph} {seps : List (List Nat)} {proc : Nat → Prop}
    (hinv : LBInv g h seps proc) {a b x : Nat} (hab : h.adj a b = true) (hax : a ≠ x)
    (hxa : h.adj x a = false) :
    Walk g.adj (fun y => y < g.numberOfNodes ∧ y ≠ x ∧ h.adj x y = false) a b := by
  obtain ⟨han, hbn⟩ := hinv.h_lt hab
  rcases (hinv.adj_iff a b).1 hab with h1 | ⟨hne, t, ht, hat, hbt⟩
  · exact Walk.step h1 ⟨han, hax, hxa⟩ (Walk.refl b)
  · have hxt : x ∉ t := by
      intro hxt
      have := hinv.sep_clique ht hxt hat (fun hc => hax hc.symm)
      rw [hxa] at this
      exact Bool.false_ne_true this
    obtain ⟨α, hα, hzα⟩ := hinv.exists_full_not_conn ht x
    apply hα.walk_via hinv.g_wf.2.1 hat hbt _ ⟨han, hax, hxa⟩
    intro c hc
    refine ⟨hc.2.1.1, ?_, ?_⟩
    · intro hcx
      rw [hcx] at hc
      exact hzα (hc.symm hinv.g_wf.2.1)
    · by_contra hadj
      have hadj' : h.adj x c = true := by simpa using hadj
      rcases hinv.adj_sep_or_conn ht hxt hadj' with h2 | h2
      · exact hc.2.1.2 h2
      · exact hzα (h2.trans (hc.symm hinv.g_wf.2.1))

theorem Walk.last_step {adj : Nat → Nat → Bool} {P : Nat → Prop} {a b : Nat}
    (w : Walk adj P a b) (hne : a ≠ b) : ∃ p, P p ∧ adj p b = true ∧ Walk adj P a p := by
  induction w with
  | refl b => exact absurd rfl hne
  | @step a x b hadj hP w ih =>
    by_cases hx : x = b
    · subst hx
      exact ⟨a, hP, hadj, Walk.refl a⟩
    · obtain ⟨p, hp, hpb, hw⟩ := ih hx
      exact ⟨p, hp, hpb, Walk.step hadj hP hw⟩

theorem mem_componentOf_conn (g : Graph) (removed : List Nat) (s : Nat)
    (hs : g.Kept removed s) (u : Nat) :
    u ∈ g.componentOf removed s ↔ g.Conn removed s u := by
  rw [mem_componentOf g removed s hs]
  exact ⟨fun h => ⟨hs, h.1, h.2⟩, fun h => ⟨h.2.1, h.2.2⟩⟩

/-- A walk that starts in a node set and avoids the neighbour set of the node set stays in the
node set. -/
theorem mem_of_walk_avoiding_neighbors (g : Graph) (c : List Nat) {a u : Nat} (ha : a ∈ c)
    (hw : Walk g.adj (g.Kept (g.getNeighborsOfSet c)) a u)
    (hu : g.Kept (g.getNeighborsOfSet c) u) : u ∈ c := by
  induction hw with
  | refl b => exact ha
  | step hadj _ w ih =>
    apply ih _ hu
    have hx := w.head_of_last hu
    by_contra hxc
    exact hx.2 ((mem_getNeighborsOfSet g c _).2 ⟨hx.1, hxc, _, ha, hadj⟩)

/-- A walk that starts in a node set either ends in it or meets its neighbour set. -/
theorem walk_meets_neighbors (g : Graph) (c : List Nat) (K : Nat → Prop)
    (hK : ∀ z, K z → z < g.numberOfNodes) {a b : Nat} (hw : Walk g.adj K a b) (hb : K b)
    (ha : a ∈ c) : b ∈ c ∨ ∃ p, K p ∧ p ∈ g.getNeighborsOfSet c := by
  induction hw with
  | refl b => exact Or.inl ha
  | @step a x b hadj _ w ih =>
    have hx := w.head_of_last hb
    by_cases hxc : x ∈ c
    · exact ih hb hxc
    · exact Or.inr ⟨x, hx, (mem_getNeighborsOfSet g c x).2 ⟨hK x hx, hxc, a, ha, hadj⟩⟩

theorem getComponentsEfficient_complete_aux (g : Graph) (removed : List Nat) (l : List Nat)
    (found : List (List Nat)) :
    (∀ c ∈ found, c ∈ l.foldl (fun found s =>
      if removed.contains s || found.any (fun c => c.contains s) then found
      else found ++ [g.componentOf removed s]) found) ∧
    ∀ s ∈ l, g.Kept removed s → ∃ c ∈ l.foldl (fun found s =>
      if removed.contains s || found.any (fun c => c.contains s) then found
      else found ++ [g.componentOf removed s]) found, s ∈ c := by
  induction l generalizing found with
  | nil => exact ⟨fun c hc => hc, fun s hs => absurd hs (List.not_mem_nil _)⟩
  | cons x l ih =>
    simp only [List.foldl_cons]
    by_cases hcond : (removed.contains x || found.any (fun c => c.contains x)) = true
    · rw [if_pos hcond]
      obtain ⟨h1, h2⟩ := ih found
      refine ⟨h1, fun s hs hk => ?_⟩
      rcases List.mem_cons.1 hs with rfl | hs
      · rw [Bool.or_eq_true] at hcond
        rcases hcond with hc | hc
        · exact absurd ((contains_iff_mem _ _).1 hc) hk.2
        · rw [List.any_eq_true] at hc
          obtain ⟨c, hc, hsc⟩ := hc
          exact ⟨c, h1 c hc, (contains_iff_mem _ _).1 hsc⟩
      · exact h2 s hs hk
    · rw [if_neg hcond]
      obtain ⟨h1, h2⟩ := ih (found ++ [g.componentOf removed x])
      refine ⟨fun c hc => h1 c (List.mem_append_left _ hc), fun s hs hk => ?_⟩
      rcases List.mem_cons.1 hs with rfl | hs
      · exact ⟨_, h1 _ (List.mem_append_right _ (List.mem_singleton_self _)),
          (mem_componentOf_conn g removed s hk s).2 (Graph.Conn.refl hk)⟩
      · exact h2 s hs hk

/-- Every node outside `removed` lies in one of the enumerated components. -/
theorem getComponentsEfficient_complete (g : Graph) (removed : List Nat) (s : Nat)
    (hs : g.Kept removed s) : ∃ c ∈ g.getComponentsEfficient removed, s ∈ c :=
  (getComponentsEfficient_complete_aux g removed _ []).2 s (List.mem_range.2 hs.1) hs

theorem mem_getSubstars_closed (g h : Graph) (x : Nat) (s : List Nat)
    (hs : s ∈ (getSubstars g h x).toSaturate) :
    ∃ c0, g.Kept (h.closedNeighbors x) c0 ∧
      s = g.getNeighborsOfSet (g.componentOf (h.closedNeighbors x) c0) := by
  rw [mem_getSubstars] at hs
  obtain ⟨c, hc, rfl⟩ := hs
  obtain ⟨s0, hs0, rfl⟩ := mem_getComponentsEfficient g _ c hc
  exact ⟨s0, hs0, rfl⟩

/-- The neighbour set of the component of every node outside the closed neighbourhood of `x`
is marked by `getSubstars`, up to the listing of its members. -/
theorem getSubstars_complete (g h : Graph) (hg : g.Symmetric) (x c0 : Nat)
    (hc0 : g.Kept (h.closedNeighbors x) c0) :
    ∃ s ∈ (getSubstars g h x).toSaturate, ∀ u,
      u ∈ g.getNeighborsOfSet (g.componentOf (h.closedNeighbors x) c0) ↔ u ∈ s := by
  obtain ⟨c, hc, hc0c⟩ := getComponentsEfficient_complete g _ c0 hc0
  refine ⟨g.getNeighborsOfSet c, (mem_getSubstars g h x _).2 ⟨c, hc, rfl⟩, fun u => ?_⟩
  obtain ⟨s0, hs0, rfl⟩ := mem_getComponentsEfficient g _ c hc
  have h0 : g.Conn (h.closedNeighbors x) s0 c0 := (mem_componentOf_conn g _ s0 hs0 c0).1 hc0c
  have hmem : ∀ z, z ∈ g.componentOf (h.closedNeighbors x) c0 ↔
      z ∈ g.componentOf (h.closedNeighbors x) s0 := by
    intro z
    rw [mem_componentOf_conn g _ c0 hc0, mem_componentOf_conn g _ s0 hs0]
    exact ⟨fun hz => h0.trans hz, fun hz => (h0.symm hg).trans hz⟩
  rw [mem_getNeighborsOfSet, mem_getNeighborsOfSet, hmem u]
  constructor
  · rintro ⟨h1, h2, y, hy, hadj⟩
    exact ⟨h1, h2, y, (hmem y).1 hy, hadj⟩
  · rintro ⟨h1, h2, y, hy, hadj⟩
    exact ⟨h1, h2, y, (hmem y).2 hy, hadj⟩

theorem LBInv.isSupergraphOf {g h : Graph} {seps : List (List Nat)} {proc : Nat → Prop}
    (hinv : LBInv g h seps proc) : h.IsSupergraphOf g :=
  ⟨hinv.n_eq, fun a b hab => (hinv.adj_iff a b).2 (Or.inl hab)⟩

theorem LBInv.kept_closed_iff {g h : Graph} {seps : List (List Nat)} {proc : Nat → Prop}
    (hinv : LBInv g h seps proc) (v z : Nat) :
    g.Kept (h.closedNeighbors v) z ↔
      z < g.numberOfNodes ∧ z ≠ v ∧ h.adj v z = false := by
  unfold Graph.Kept
  rw [mem_closedNeighbors, hinv.n_eq]
  constructor
  · rintro ⟨h1, h2⟩
    refine ⟨h1, fun hc => h2 (Or.inl hc), ?_⟩
    by_contra hadj
    exact h2 (Or.inr ⟨h1, by simpa using hadj⟩)
  · rintro ⟨h1, h2, h3⟩
    refine ⟨h1, ?_⟩
    rintro (hc | ⟨_, hc⟩)
    · exact h2 hc
    · rw [h3] at hc
      exact Bool.false_ne_true hc

/-! ## LB-Triang: one step keeps the invariant -/

theorem LBInv.star_adj {g h : Graph} {seps : List (List Nat)} {proc : Nat → Prop}
    (hinv : LBInv g h seps proc) {x c0 : Nat} (hc0 : g.Kept (h.closedNeighbors x) c0)
    {s : Nat} (hs : s ∈ g.getNeighborsOfSet (g.componentOf (h.closedNeighbors x) c0)) :
    h.adj x s = true := by
  have h1 := getSubstars_set_subset_removed g _ c0 s hc0 hs
  rw [mem_closedNeighbors] at h1
  rcases h1 with h1 | h1
  · subst h1
    exact absurd hs (getSubstars_set_not_mem g h hinv.g_wf.2.1 hinv.isSupergraphOf s c0 hc0)
  · exact h1.2

theorem LBInv.star_not_mem {g h : Graph} {seps : List (List Nat)} {proc : Nat → Prop}
    (hinv : LBInv g h seps proc) {x c0 : Nat} (hc0 : g.Kept (h.closedNeighbors x) c0) :
    x ∉ g.getNeighborsOfSet (g.componentOf (h.closedNeighbors x) c0) :=
  getSubstars_set_not_mem g h hinv.g_wf.2.1 hinv.isSupergraphOf x c0 hc0

theorem LBInv.sep_subset_closed {g h : Graph} {seps : List (List Nat)} {proc : Nat → Prop}
    (hinv : LBInv g h seps proc) {t : List Nat} (ht : t ∈ seps) {x : Nat} (hx : x ∈ t)
    (y : Nat) (hy : y ∈ t) : y ∈ h.closedNeighbors x := by
  rw [mem_closedNeighbors]
  by_cases hyx : y = x
  · exact Or.inl hyx
  · refine Or.inr ⟨?_, hinv.sep_clique ht hx hy (fun hc => hyx hc.symm)⟩
    rw [hinv.n_eq]
    exact hinv.sep_lt t ht y hy

/-- Every saturated separator has a full component that misses the new separator. -/
theorem LBInv.exists_full_avoiding {g h : Graph} {seps : List (List Nat)} {proc : Nat → Prop}
    (hinv : LBInv g h seps proc) {x c0 : Nat} (hc0 : g.Kept (h.closedNeighbors x) c0)
    {t : List Nat} (ht : t ∈ seps) :
    ∃ α, g.Full t α ∧ ∀ c, g.Conn t α c →
      c ∉ g.getNeighborsOfSet (g.componentOf (h.closedNeighbors x) c0) := by
  have hsym := hinv.g_wf.2.1
  by_cases hxt : x ∈ t
  · obtain ⟨α, hα, hn⟩ := hinv.exists_full_not_conn ht c0
    refine ⟨α, hα, fun c hc hcs => hn ?_⟩
    rw [mem_getNeighborsOfSet] at hcs
    obtain ⟨_, _, y, hy, hadj⟩ := hcs
    rw [mem_componentOf_conn g _ c0 hc0] at hy
    have h1 : g.Conn t c0 y := hy.shrink (hinv.sep_subset_closed ht hxt)
    have h2 : g.Conn t y c := Graph.Conn.edge h1.2.1 hc.2.1 hadj
    exact (h1.trans h2).trans (hc.symm hsym)
  · obtain ⟨α, hα, hn⟩ := hinv.exists_full_not_conn ht x
    refine ⟨α, hα, fun c hc hcs => hn ?_⟩
    rcases hinv.adj_sep_or_conn ht hxt (hinv.star_adj hc0 hcs) with h1 | h1
    · exact absurd h1 hc.2.1.2
    · exact h1.trans (hc.symm hsym)

/-- The nodes of a saturated separator outside the new separator are joined outside it. -/
theorem LBInv.sep_conn_star {g h : Graph} {seps : List (List Nat)} {proc : Nat → Prop}
    (hinv : LBInv g h seps proc) {x c0 : Nat} (hc0 : g.Kept (h.closedNeighbors x) c0)
    {t : List Nat} (ht : t ∈ seps) {a b : Nat} (ha : a ∈ t) (hb : b ∈ t)
    (has : a ∉ g.getNeighborsOfSet (g.componentOf (h.closedNeighbors x) c0))
    (hbs : b ∉ g.getNeighborsOfSet (g.componentOf (h.closedNeighbors x) c0)) :
    g.Conn (g.getNeighborsOfSet (g.componentOf (h.closedNeighbors x) c0)) a b := by
  obtain ⟨α, hα, hav⟩ := hinv.exists_full_avoiding hc0 ht
  have hka : g.Kept (g.getNeighborsOfSet (g.componentOf (h.closedNeighbors x) c0)) a :=
    ⟨hinv.sep_lt t ht a ha, has⟩
  exact ⟨hka, ⟨hinv.sep_lt t ht b hb, hbs⟩,
    hα.walk_via hinv.g_wf.2.1 ha hb _ hka (fun c hc => ⟨hc.2.1.1, hav c hc⟩)⟩

/-- The neighbours of `x` in the working graph outside the new separator are joined to `x`
outside it. -/
theorem LBInv.nbr_conn_star {g h : Graph} {seps : List (List Nat)} {proc : Nat → Prop}
    (hinv : LBInv g h seps proc) {x c0 : Nat} (hc0 : g.Kept (h.closedNeighbors x) c0)
    {y : Nat} (hxy : h.adj x y = true)
    (hys : y ∉ g.getNeighborsOfSet (g.componentOf (h.closedNeighbors x) c0)) :
    g.Conn (g.getNeighborsOfSet (g.componentOf (h.closedNeighbors x) c0)) x y := by
  obtain ⟨hxn, hyn⟩ := hinv.h_lt hxy
  rcases (hinv.adj_iff x y).1 hxy with h1 | ⟨_, t, ht, hxt, hyt⟩
  · exact Graph.Conn.edge ⟨hxn, hinv.star_not_mem hc0⟩ ⟨hyn, hys⟩ h1
  · exact hinv.sep_conn_star hc0 ht hxt hyt (hinv.star_not_mem hc0) hys

theorem LBInv.star_subset_closed {g h : Graph} {seps : List (List Nat)} {proc : Nat → Prop}
    (_hinv : LBInv g h seps proc) {x c0 : Nat} (hc0 : g.Kept (h.closedNeighbors x) c0)
    (s : Nat) (hs : s ∈ g.getNeighborsOfSet (g.componentOf (h.closedNeighbors x) c0)) :
    s ∈ h.closedNeighbors x :=
  getSubstars_set_subset_removed g _ c0 s hc0 hs

theorem LBInv.star_full_comp {g h : Graph} {seps : List (List Nat)} {proc : Nat → Prop}
    (hinv : LBInv g h seps proc) {x c0 : Nat} (hc0 : g.Kept (h.closedNeighbors x) c0) :
    g.Full (g.getNeighborsOfSet (g.componentOf (h.closedNeighbors x) c0)) c0 := by
  have hk : g.Kept (g.getNeighborsOfSet (g.componentOf (h.closedNeighbors x) c0)) c0 :=
    ⟨hc0.1, fun hm => hc0.2 (hinv.star_subset_closed hc0 c0 hm)⟩
  refine ⟨hk, fun s hs => ?_⟩
  obtain ⟨_, _, y, hy, hadj⟩ := (mem_getNeighborsOfSet g _ s).1 hs
  rw [mem_componentOf_conn g _ c0 hc0] at hy
  exact ⟨y, hadj, hy.shrink (hinv.star_subset_closed hc0)⟩

theorem LBInv.star_full_self {g h : Graph} {seps : List (List Nat)} {proc : Nat → Prop}
    (hinv : LBInv g h seps proc) {x c0 : Nat} (hx : x < g.numberOfNodes)
    (hc0 : g.Kept (h.closedNeighbors x) c0) :
    g.Full (g.getNeighborsOfSet (g.componentOf (h.closedNeighbors x) c0)) x := by
  have hk : g.Kept (g.getNeighborsOfSet (g.componentOf (h.closedNeighbors x) c0)) x :=
    ⟨hx, hinv.star_not_mem hc0⟩
  refine ⟨hk, fun s hs => ?_⟩
  have hxs := hinv.star_adj hc0 hs
  rcases (hinv.adj_iff x s).1 hxs with h1 | ⟨hne, t, ht, hxt, hst⟩
  · exact ⟨x, h1, Graph.Conn.refl hk⟩
  · obtain ⟨α, hα, hav⟩ := hinv.exists_full_avoiding hc0 ht
    have hw := hα.walk_via hinv.g_wf.2.1 hxt hst _ hk (fun c hc => ⟨hc.2.1.1, hav c hc⟩)
    obtain ⟨p, hp, hps, hwp⟩ := hw.last_step hne
    exact ⟨p, hps, hk, hp, hwp⟩

theorem LBInv.star_not_conn {g h : Graph} {seps : List (List Nat)} {proc : Nat → Prop}
    (_hinv : LBInv g h seps proc) {x c0 : Nat} (hc0 : g.Kept (h.closedNeighbors x) c0) :
    ¬ g.Conn (g.getNeighborsOfSet (g.componentOf (h.closedNeighbors x) c0)) c0 x := by
  intro hc
  have h1 : x ∈ g.componentOf (h.closedNeighbors x) c0 :=
    mem_of_walk_avoiding_neighbors g _
      ((mem_componentOf_conn g _ c0 hc0 c0).2 (Graph.Conn.refl hc0)) hc.2.2 hc.2.1
  rw [mem_componentOf_conn g _ c0 hc0] at h1
  exact h1.2.1.2 ((mem_closedNeighbors h x x).2 (Or.inl rfl))

/-- The nodes of the new separator outside a saturated separator are joined outside it. -/
theorem LBInv.star_conn_sep {g h : Graph} {seps : List (List Nat)} {proc : Nat → Prop}
    (hinv : LBInv g h seps proc) {x c0 : Nat} (hc0 : g.Kept (h.closedNeighbors x) c0)
    {t : List Nat} (ht : t ∈ seps) {a b : Nat}
    (ha : a ∈ g.getNeighborsOfSet (g.componentOf (h.closedNeighbors x) c0))
    (hb : b ∈ g.getNeighborsOfSet (g.componentOf (h.closedNeighbors x) c0))
    (hat : a ∉ t) (hbt : b ∉ t) : g.Conn t a b := by
  have hsym := hinv.g_wf.2.1
  by_cases hxt : x ∈ t
  · have key : ∀ z, z ∈ g.getNeighborsOfSet (g.componentOf (h.closedNeighbors x) c0) →
        z ∉ t → g.Conn t c0 z := by
      intro z hz hzt
      obtain ⟨hzn, _, y, hy, hadj⟩ := (mem_getNeighborsOfSet g _ z).1 hz
      rw [mem_componentOf_conn g _ c0 hc0] at hy
      have h1 : g.Conn t c0 y := hy.shrink (hinv.sep_subset_closed ht hxt)
      exact h1.trans (Graph.Conn.edge h1.2.1 ⟨hzn, hzt⟩ hadj)
    exact ((key a ha hat).symm hsym).trans (key b hb hbt)
  · have key : ∀ z, z ∈ g.getNeighborsOfSet (g.componentOf (h.closedNeighbors x) c0) →
        z ∉ t → g.Conn t x z := by
      intro z hz hzt
      rcases hinv.adj_sep_or_conn ht hxt (hinv.star_adj hc0 hz) with h1 | h1
      · exact absurd h1 hzt
      · exact h1
    exact ((key a ha hat).symm hsym).trans (key b hb hbt)

/-- Saturating the separators of `x` adds no edge at a node that was already processed: two
nodes of a new separator, one of them processed, are already adjacent. -/
theorem LBInv.frozen {g h : Graph} {seps : List (List Nat)} {proc : Nat → Prop}
    (hinv : LBInv g h seps proc) {x c0 : Nat} (hc0 : g.Kept (h.closedNeighbors x) c0)
    {v y : Nat} (hv : proc v)
    (hvs : v ∈ g.getNeighborsOfSet (g.componentOf (h.closedNeighbors x) c0))
    (hys : y ∈ g.getNeighborsOfSet (g.componentOf (h.closedNeighbors x) c0))
    (hne : v ≠ y) : h.adj v y = true := by
  by_contra hcon
  have hvy : h.adj v y = false := by simpa using hcon
  have hsym := hinv.g_wf.2.1
  have hxv := hinv.star_adj hc0 hvs
  have hxy := hinv.star_adj hc0 hys
  have hvx : h.adj v x = true := by rw [hinv.h_symm]; exact hxv
  have hyx : h.adj y x = true := by rw [hinv.h_symm]; exact hxy
  obtain ⟨hvn, _, cv, hcv, hadjv⟩ := (mem_getNeighborsOfSet g _ v).1 hvs
  obtain ⟨hyn, _, cy, hcy, hadjy⟩ := (mem_getNeighborsOfSet g _ y).1 hys
  have hyK : g.Kept (h.closedNeighbors v) y :=
    (hinv.kept_closed_iff v y).2 ⟨hyn, fun hc => hne hc.symm, hvy⟩
  have hcl := hinv.proc_clique v hv y hyK
  have hyD : y ∈ g.componentOf (h.closedNeighbors v) y :=
    (mem_componentOf_conn g _ y hyK y).2 (Graph.Conn.refl hyK)
  -- the node `x` is a neighbour of the component of `y`
  have hxD : x ∈ g.getNeighborsOfSet (g.componentOf (h.closedNeighbors v) y) := by
    have hw := hinv.edge_walk hyx (fun hc => hne hc.symm) hvy
    obtain ⟨p, hp, hpx, hwp⟩ := hw.last_step (hinv.h_ne hyx)
    rw [mem_getNeighborsOfSet]
    refine ⟨(hinv.h_lt hvx).2, ?_, p, ?_, hpx⟩
    · intro hx
      rw [mem_componentOf_conn g _ y hyK] at hx
      have := (hinv.kept_closed_iff v x).1 hx.2.1
      rw [hvx] at this
      exact Bool.noConfusion this.2.2
    · rw [mem_componentOf_conn g _ y hyK]
      exact ⟨hyK, (hinv.kept_closed_iff v p).2 hp,
        hwp.mono (fun z hz => (hinv.kept_closed_iff v z).2 hz)⟩
  -- the component of `c0` meets the neighbour set of the component of `y`
  have hmeet : ∃ p, g.Kept (h.closedNeighbors x) p ∧
      p ∈ g.getNeighborsOfSet (g.componentOf (h.closedNeighbors v) y) := by
    rw [mem_componentOf_conn g _ c0 hc0] at hcv hcy
    by_cases hcyD : cy ∈ g.componentOf (h.closedNeighbors v) y
    · have hw : g.Conn (h.closedNeighbors x) cy cv := (hcy.symm hsym).trans hcv
      rcases walk_meets_neighbors g _ _ (fun z hz => hz.1) hw.2.2 hw.2.1 hcyD with h1 | h1
      · exfalso
        rw [mem_componentOf_conn g _ y hyK] at h1
        have := (hinv.kept_closed_iff v cv).1 h1.2.1
        have hvc : h.adj v cv = true :=
          (hinv.adj_iff v cv).2 (Or.inl (by rw [hsym]; exact hadjv))
        rw [hvc] at this
        exact Bool.noConfusion this.2.2
      · exact h1
    · refine ⟨cy, hcy.2.1, (mem_getNeighborsOfSet g _ cy).2 ⟨hcy.2.1.1, hcyD, y, hyD, ?_⟩⟩
      rw [hsym]
      exact hadjy
  obtain ⟨p, hpK, hpD⟩ := hmeet
  have hxp : x ≠ p := by
    intro hc
    rw [← hc] at hpK
    exact hpK.2 ((mem_closedNeighbors h x x).2 (Or.inl rfl))
  have := hcl x hxD p hpD hxp
  refine hpK.2 ((mem_closedNeighbors h x p).2 (Or.inr ⟨?_, this⟩))
  rw [hinv.n_eq]
  exact hpK.1

theorem makeNodeLBSimplicial_adj (g h : Graph) (x a b : Nat) :
    (makeNodeLBSimplicial g h x).adj a b = true ↔
      h.adj a b = true ∨ (a ≠ b ∧ ∃ s ∈ (getSubstars g h x).toSaturate, a ∈ s ∧ b ∈ s) := by
  simp [makeNodeLBSimplicial, NodeSetStaturator.saturate, Graph.saturateNodeSets]

theorem closedNeighbors_congr (h h' : Graph) (v : Nat)
    (hn : h'.numberOfNodes = h.numberOfNodes)
    (hadj : ∀ y, h'.adj v y = true ↔ h.adj v y = true) :
    h'.closedNeighbors v = h.closedNeighbors v := by
  unfold Graph.closedNeighbors Graph.getNeighbors
  rw [hn]
  congr 1
  apply List.filter_congr
  intro y _
  exact Bool.eq_iff_iff.2 (hadj y)

/-- One step of LB-Triang keeps the invariant: the separators of `x` are added to the
saturated separators and `x` to the processed nodes. -/
theorem LBInv.step_node {g h : Graph} {seps : List (List Nat)} {proc : Nat → Prop}
    (hinv : LBInv g h seps proc) {x : Nat} (hx : x < g.numberOfNodes) (proc' : Nat → Prop)
    (hproc : ∀ v, proc' v → proc v ∨ v = x) :
    LBInv g (makeNodeLBSimplicial g h x) ((getSubstars g h x).toSaturate ++ seps) proc' := by
  have hsym := hinv.g_wf.2.1
  refine ⟨hinv.g_wf, hinv.n_eq, ?_, ?_, ?_, ?_, ?_⟩
  · intro a b
    rw [makeNodeLBSimplicial_adj, hinv.adj_iff]
    constructor
    · rintro ((h1 | ⟨hne, t, ht, ha, hb⟩) | ⟨hne, t, ht, ha, hb⟩)
      · exact Or.inl h1
      · exact Or.inr ⟨hne, t, List.mem_append_right _ ht, ha, hb⟩
      · exact Or.inr ⟨hne, t, List.mem_append_left _ ht, ha, hb⟩
    · rintro (h1 | ⟨hne, t, ht, ha, hb⟩)
      · exact Or.inl (Or.inl h1)
      · rcases List.mem_append.1 ht with ht | ht
        · exact Or.inr ⟨hne, t, ht, ha, hb⟩
        · exact Or.inl (Or.inr ⟨hne, t, ht, ha, hb⟩)
  · intro t ht y hy
    rcases List.mem_append.1 ht with ht | ht
    · obtain ⟨c0, _, rfl⟩ := mem_getSubstars_closed g h x t ht
      exact ((mem_getNeighborsOfSet g _ y).1 hy).1
    · exact hinv.sep_lt t ht y hy
  · intro t ht
    rcases List.mem_append.1 ht with ht | ht
    · obtain ⟨c0, hc0, rfl⟩ := mem_getSubstars_closed g h x t ht
      exact ⟨c0, x, hinv.star_full_comp hc0, hinv.star_full_self hx hc0, hinv.star_not_conn hc0⟩
    · exact hinv.full t ht
  · intro s hs t ht a ha b hb hat hbt
    rcases List.mem_append.1 hs with hs | hs
    · obtain ⟨c1, hc1, rfl⟩ := mem_getSubstars_closed g h x s hs
      rcases List.mem_append.1 ht with ht | ht
      · obtain ⟨c2, hc2, rfl⟩ := mem_getSubstars_closed g h x t ht
        exact ((hinv.nbr_conn_star hc2 (hinv.star_adj hc1 ha) hat).symm hsym).trans
          (hinv.nbr_conn_star hc2 (hinv.star_adj hc1 hb) hbt)
      · exact hinv.star_conn_sep hc1 ht ha hb hat hbt
    · rcases List.mem_append.1 ht with ht | ht
      · obtain ⟨c2, hc2, rfl⟩ := mem_getSubstars_closed g h x t ht
        exact hinv.sep_conn_star hc2 hs ha hb hat hbt
      · exact hinv.noncross s hs t ht a ha b hb hat hbt
  · intro v hv c0 hc0
    by_cases hvx : v = x
    · subst hvx
      have hcn : (makeNodeLBSimplicial g h v).closedNeighbors v = h.closedNeighbors v := by
        apply closedNeighbors_congr h (makeNodeLBSimplicial g h v) v rfl
        intro y
        rw [makeNodeLBSimplicial_adj]
        constructor
        · rintro (h1 | ⟨_, t, ht, ha, _⟩)
          · exact h1
          · obtain ⟨c1, hc1, rfl⟩ := mem_getSubstars_closed g h v t ht
            exact absurd ha (hinv.star_not_mem hc1)
        · exact Or.inl
      rw [hcn] at hc0 ⊢
      obtain ⟨s, hs, hmem⟩ := getSubstars_complete g h hsym v c0 hc0
      intro a ha b hb hne
      rw [makeNodeLBSimplicial_adj]
      exact Or.inr ⟨hne, s, hs, (hmem a).1 ha, (hmem b).1 hb⟩
    · have hpv : proc v := (hproc v hv).resolve_right hvx
      have hcn : (makeNodeLBSimplicial g h x).closedNeighbors v = h.closedNeighbors v := by
        apply closedNeighbors_congr h (makeNodeLBSimplicial g h x) v rfl
        intro y
        rw [makeNodeLBSimplicial_adj]
        constructor
        · rintro (h1 | ⟨hne, t, ht, ha, hb⟩)
          · exact h1
          · obtain ⟨c1, hc1, rfl⟩ := mem_getSubstars_closed g h x t ht
            exact hinv.frozen hc1 hpv ha hb hne
        · exact Or.inl
      rw [hcn] at hc0 ⊢
      intro a ha b hb hne
      rw [makeNodeLBSimplicial_adj]
      exact Or.inl (hinv.proc_clique v hpv c0 hc0 a ha b hb hne)

theorem LBInv.initial (g : Graph) (hg : g.WellFormed) : LBInv g g [] (fun _ => False) := by
  refine ⟨hg, rfl, ?_, ?_, ?_, ?_, ?_⟩
  · intro a b
    simp
  · intro t ht
    exact absurd ht (List.not_mem_nil _)
  · intro t ht
    exact absurd ht (List.not_mem_nil _)
  · intro s hs
    exact absurd hs (List.not_mem_nil _)
  · intro v hv
    exact hv.elim

/-! ## LB-Triang: the result is chordal -/

theorem LBInv.weaken {g h : Graph} {seps : List (List Nat)} {proc proc' : Nat → Prop}
    (hinv : LBInv g h seps proc) (hproc : ∀ v, proc' v → proc v) : LBInv g h seps proc' :=
  ⟨hinv.g_wf, hinv.n_eq, hinv.adj_iff, hinv.sep_lt, hinv.full, hinv.noncross,
    fun v hv => hinv.proc_clique v (hproc v hv)⟩

theorem getD_ne_of_nodup (c : List Nat) (hc : c.Nodup) {i j : Nat} (hi : i < c.length)
    (hj : j < c.length) (hij : i ≠ j) : c.getD i 0 ≠ c.getD j 0 := by
  rw [List.Nodup, List.pairwise_iff_getElem] at hc
  rw [List.getD_eq_getElem _ _ hi, List.getD_eq_getElem _ _ hj]
  rcases Nat.lt_or_gt_of_ne hij with h | h
  · exact hc i j hi hj h
  · exact fun he => hc j i hj hi h he.symm

/-- When every node has been processed, the working graph is chordal. -/
theorem LBInv.chordal_of_all {g h : Graph} {seps : List (List Nat)} {proc : Nat → Prop}
    (hinv : LBInv g h seps proc) (hall : ∀ v, v < g.numberOfNodes → proc v) : h.Chordal := by
  intro c hlen hcyc
  obtain ⟨hnd, hadj⟩ := hcyc
  obtain ⟨m, hm⟩ : ∃ m, c.length = m + 4 := ⟨c.length - 4, by omega⟩
  have hne : ∀ i j, i < c.length → j < c.length → i ≠ j → c.getD i 0 ≠ c.getD j 0 :=
    fun i j hi hj hij => getD_ne_of_nodup c hnd hi hj hij
  have hv1 : h.adj (c.getD 0 0) (c.getD 1 0) = true :=
    (hadj 0 1 (by omega) (by omega)).2 (Or.inl rfl)
  have hvl : h.adj (c.getD 0 0) (c.getD (m + 3) 0) = true :=
    (hadj 0 (m + 3) (by omega) (by omega)).2 (Or.inr ⟨rfl, by omega⟩)
  have hmid : ∀ i, 2 ≤ i → i ≤ m + 2 → h.adj (c.getD 0 0) (c.getD i 0) = false := by
    intro i h1 h2
    by_contra hcon
    have := (hadj 0 i (by omega) (by omega)).1 (by simpa using hcon)
    omega
  have hstep : ∀ i, i ≤ m + 2 → h.adj (c.getD i 0) (c.getD (i + 1) 0) = true :=
    fun i hi => (hadj i (i + 1) (by omega) (by omega)).2 (Or.inl rfl)
  have hkept : ∀ i, 2 ≤ i → i ≤ m + 2 → g.Kept (h.closedNeighbors (c.getD 0 0)) (c.getD i 0) :=
    fun i h1 h2 => (hinv.kept_closed_iff _ _).2
      ⟨(hinv.h_lt (hstep i h2)).1, hne i 0 (by omega) (by omega) (by omega), hmid i h1 h2⟩
  have hK2 := hkept 2 (le_refl 2) (by omega)
  have hcl := hinv.proc_clique (c.getD 0 0) (hall _ (hinv.h_lt hv1).1) (c.getD 2 0) hK2
  have hD : ∀ k, k ≤ m →
      c.getD (2 + k) 0 ∈ g.componentOf (h.closedNeighbors (c.getD 0 0)) (c.getD 2 0) := by
    intro k
    induction k with
    | zero => exact fun _ => (mem_componentOf_conn g _ _ hK2 _).2 (Graph.Conn.refl hK2)
    | succ k ih =>
      intro hk
      have h1 := ih (by omega)
      rw [mem_componentOf_conn g _ _ hK2] at h1 ⊢
      have hw := hinv.edge_walk (hstep (2 + k) (by omega))
        (hne (2 + k) 0 (by omega) (by omega) (by omega)) (hmid (2 + k) (by omega) (by omega))
      exact h1.trans ⟨h1.2.1, hkept (2 + (k + 1)) (by omega) (by omega),
        hw.mono (fun z hz => (hinv.kept_closed_iff _ z).2 hz)⟩
  have hnbr : ∀ z w, z ∈ g.componentOf (h.closedNeighbors (c.getD 0 0)) (c.getD 2 0) →
      h.adj z w = true → h.adj (c.getD 0 0) w = true →
      w ∈ g.getNeighborsOfSet (g.componentOf (h.closedNeighbors (c.getD 0 0)) (c.getD 2 0)) := by
    intro z w hz hzw hvw
    rw [mem_componentOf_conn g _ _ hK2] at hz
    have hzk := (hinv.kept_closed_iff _ z).1 hz.2.1
    have hw := hinv.edge_walk hzw hzk.2.1 hzk.2.2
    obtain ⟨p, hp, hpw, hwp⟩ := hw.last_step (hinv.h_ne hzw)
    rw [mem_getNeighborsOfSet]
    refine ⟨(hinv.h_lt hzw).2, ?_, p, ?_, hpw⟩
    · intro hwD
      rw [mem_componentOf_conn g _ _ hK2] at hwD
      have := (hinv.kept_closed_iff _ w).1 hwD.2.1
      rw [hvw] at this
      exact Bool.noConfusion this.2.2
    · rw [mem_componentOf_conn g _ _ hK2]
      exact hz.trans ⟨hz.2.1, (hinv.kept_closed_iff _ p).2 hp,
        hwp.mono (fun y hy => (hinv.kept_closed_iff _ y).2 hy)⟩
  have ha : c.getD 1 0 ∈
      g.getNeighborsOfSet (g.componentOf (h.closedNeighbors (c.getD 0 0)) (c.getD 2 0)) := by
    apply hnbr (c.getD 2 0) _ (hD 0 (Nat.zero_le _)) _ hv1
    rw [hinv.h_symm]
    exact hstep 1 (by omega)
  have hb : c.getD (m + 3) 0 ∈
      g.getNeighborsOfSet (g.componentOf (h.closedNeighbors (c.getD 0 0)) (c.getD 2 0)) := by
    have h1 := hD m (le_refl m)
    have h2 := hstep (2 + m) (by omega)
    have e : 2 + m + 1 = m + 3 := by omega
    rw [e] at h2
    exact hnbr _ _ h1 h2 hvl
  have hab := hcl _ ha _ hb (hne 1 (m + 3) (by omega) (by omega) (by omega))
  have := (hadj 1 (m + 3) (by omega) (by omega)).1 hab
  omega

theorem lbTriang_identity_inv (g : Graph) (hg : g.WellFormed) (m : Nat)
    (hm : m ≤ g.numberOfNodes) :
    ∃ seps, LBInv g ((List.range m).foldl (fun result v => makeNodeLBSimplicial g result v) g)
      seps (fun v => v < m) := by
  induction m with
  | zero => exact ⟨[], (LBInv.initial g hg).weaken (fun v hv => absurd hv (Nat.not_lt_zero v))⟩
  | succ m ih =>
    obtain ⟨seps, hinv⟩ := ih (by omega)
    rw [List.range_succ, List.foldl_append, List.foldl_cons, List.foldl_nil]
    exact ⟨_, hinv.step_node (Nat.lt_of_succ_le hm) _ (fun v hv => by omega)⟩

theorem foldl_min_mem {β : Type} [LinearOrder β] (f : Nat → β) (l : List Nat) (b : Nat) :
    (l.foldl (fun (best : Nat × β) it => if f it < best.2 then (it, f it) else best)
        (b, f b)).1 ∈ b :: l := by
  obtain ⟨_, h⟩ := foldl_min_spec f l b
  generalize (l.foldl (fun (best : Nat × β) it =>
        if f it < best.2 then (it, f it) else best) (b, f b)).1 = r at h
  rcases h with ⟨he, _⟩ | ⟨pre, post, hl, _⟩
  · rw [he]
    exact List.mem_cons_self _ _
  · rw [hl]
    simp

theorem getMinDegree_mem (g : Graph) (options : List Nat) (hne : options ≠ []) :
    getMinDegree g options ∈ options := by
  cases options with
  | nil => exact absurd rfl hne
  | cons first rest =>
    have := foldl_min_mem (fun it => (g.getNeighbors it).length) (first :: rest) first
    simp only [getMinDegree]
    rcases List.mem_cons.1 this with h | h
    · rw [h]
      exact List.mem_cons_self _ _
    · exact h

theorem getMinFill_mem (g : Graph) (options : List Nat) (hne : options ≠ []) :
    getMinFill g options ∈ options := by
  cases options with
  | nil => exact absurd rfl hne
  | cons first rest =>
    have := foldl_min_mem (fun it => getFill g it) (first :: rest) first
    simp only [getMinFill]
    rcases List.mem_cons.1 this with h | h
    · rw [h]
      exact List.mem_cons_self _ _
    · exact h

theorem lbTriangStep_eq (g : Graph) (heuristic : TriangulationAlgorithm)
    (hh : heuristic = MIN_DEGREE_LB_TRIANG ∨ heuristic = MIN_FILL_LB_TRIANG)
    (p : Graph × List Nat) (i : Nat) (hne : p.2 ≠ []) :
    ∃ v, v ∈ p.2 ∧ lbTriangStep g heuristic p i = (makeNodeLBSimplicial g p.1 v, p.2.erase v) := by
  rcases hh with rfl | rfl
  · exact ⟨getMinDegree p.1 p.2, getMinDegree_mem _ _ hne, by simp [lbTriangStep]⟩
  · exact ⟨getMinFill p.1 p.2, getMinFill_mem _ _ hne, by simp [lbTriangStep]⟩

/-- The loop of LB-Triang under a selecting heuristic: after `m` iterations the processed
nodes are the nodes that left the set of unhandled nodes, and `n - m` nodes are unhandled. -/
theorem lbTriang_heuristic_inv (g : Graph) (hg : g.WellFormed)
    (heuristic : TriangulationAlgorithm)
    (hh : heuristic = MIN_DEGREE_LB_TRIANG ∨ heuristic = MIN_FILL_LB_TRIANG) (m : Nat)
    (hm : m ≤ g.numberOfNodes) :
    ∃ seps,
      LBInv g ((List.range m).foldl (lbTriangStep g heuristic) (g, g.getNodes)).1 seps
        (fun v => v < g.numberOfNodes ∧
          v ∉ ((List.range m).foldl (lbTriangStep g heuristic) (g, g.getNodes)).2) ∧
      ((List.range m).foldl (lbTriangStep g heuristic) (g, g.getNodes)).2.Nodup ∧
      (∀ u ∈ ((List.range m).foldl (lbTriangStep g heuristic) (g, g.getNodes)).2,
        u < g.numberOfNodes) ∧
      ((List.range m).foldl (lbTriangStep g heuristic) (g, g.getNodes)).2.length + m =
        g.numberOfNodes := by
  induction m with
  | zero =>
    refine ⟨[], (LBInv.initial g hg).weaken ?_, List.nodup_range _, ?_, ?_⟩
    · rintro v ⟨h1, h2⟩
      exact h2 (List.mem_range.2 h1)
    · intro u hu
      exact List.mem_range.1 hu
    · simp [Graph.getNodes]
  | succ m ih =>
    obtain ⟨seps, hinv, hnd, hlt, hlen⟩ := ih (by omega)
    rw [List.range_succ, List.foldl_append, List.foldl_cons, List.foldl_nil]
    generalize (List.range m).foldl (lbTriangStep g heuristic) (g, g.getNodes) = p at *
    have hne : p.2 ≠ [] := by
      intro hc
      rw [hc] at hlen
      simp at hlen
      omega
    obtain ⟨v, hv, he⟩ := lbTriangStep_eq g heuristic hh p m hne
    rw [he]
    refine ⟨_, hinv.step_node (hlt v hv) _ ?_, hnd.erase v, ?_, ?_⟩
    · rintro u ⟨h1, h2⟩
      by_cases huv : u = v
      · exact Or.inr huv
      · exact Or.inl ⟨h1, fun hu => h2 ((List.mem_erase_of_ne huv).2 hu)⟩
    · intro u hu
      exact hlt u (List.mem_of_mem_erase hu)
    · have h1 := List.length_erase_of_mem hv
      have h2 : 0 < p.2.length := List.length_pos_of_mem hv
      show (p.2.erase v).length + (m + 1) = g.numberOfNodes
      omega

theorem lbTriangStep_fold_identity (g : Graph) (heuristic : TriangulationAlgorithm)
    (h1 : heuristic ≠ MIN_DEGREE_LB_TRIANG) (h2 : heuristic ≠ MIN_FILL_LB_TRIANG)
    (l : List Nat) (h : Graph) (u : List Nat) :
    (l.foldl (lbTriangStep g heuristic) (h, u)).1 =
      l.foldl (fun result v => makeNodeLBSimplicial g result v) h := by
  induction l generalizing h u with
  | nil => rfl
  | cons x l ih =>
    rw [List.foldl_cons, List.foldl_cons]
    have : lbTriangStep g heuristic (h, u) x = (makeNodeLBSimplicial g h x, u.erase x) := by
      simp [lbTriangStep, h1, h2]
    rw [this, ih]

/-- C4: for every well-formed input graph `g` and every ordering mode, in particular
`LB_TRIANG` (identity order), `MIN_DEGREE_LB_TRIANG` and `MIN_FILL_LB_TRIANG`, the graph
returned by `getMinimalTriangulationUsingLBTriang g mode` is chordal: it has no induced cycle
of length at least 4. -/
theorem lbTriang_chordal (g : Graph) (hg : g.WellFormed) (heuristic : TriangulationAlgorithm) :
    (getMinimalTriangulationUsingLBTriang g heuristic).Chordal := by
  unfold getMinimalTriangulationUsingLBTriang
  simp only [Graph.getNumberOfNodes]
  by_cases h0 : heuristic = LB_TRIANG
  · rw [if_pos h0]
    obtain ⟨seps, hinv⟩ := lbTriang_identity_inv g hg g.numberOfNodes (le_refl _)
    exact hinv.chordal_of_all (fun v hv => hv)
  · rw [if_neg h0]
    by_cases hh : heuristic = MIN_DEGREE_LB_TRIANG ∨ heuristic = MIN_FILL_LB_TRIANG
    · obtain ⟨seps, hinv, _, _, hlen⟩ :=
        lbTriang_heuristic_inv g hg heuristic hh g.numberOfNodes (le_refl _)
      refine hinv.chordal_of_all (fun v hv => ⟨hv, ?_⟩)
      have h1 : ((List.range g.numberOfNodes).foldl (lbTriangStep g heuristic)
          (g, g.getNodes)).2 = [] := List.length_eq_zero.1 (by omega)
      rw [h1]
      exact List.not_mem_nil v
    · rw [not_or] at hh
      rw [lbTriangStep_fold_identity g heuristic hh.1 hh.2]
      obtain ⟨seps, hinv⟩ := lbTriang_identity_inv g hg g.numberOfNodes (le_refl _)
      exact hinv.chordal_of_all (fun v hv => hv)

theorem lbTriang_chordal_witness :
    cycle4.WellFormed ∧
    (getMinimalTriangulationUsingLBTriang cycle4 LB_TRIANG).edgeList =
      [(0, 1), (0, 3), (1, 2), (1, 3), (2, 3)] ∧
    (getMinimalTriangulationUsingLBTriang cycle4 MIN_DEGREE_LB_TRIANG).edgeList =
      [(0, 1), (0, 3), (1, 2), (1, 3), (2, 3)] ∧
    (getMinimalTriangulationUsingLBTriang cycle4 MIN_FILL_LB_TRIANG).edgeList =
      [(0, 1), (0, 3), (1, 2), (1, 3), (2, 3)] ∧
    (getMinimalTriangulationUsingLBTriang cycle4 LB_TRIANG).Chordal ∧
    (getMinimalTriangulationUsingLBTriang cycle4 MIN_DEGREE_LB_TRIANG).Chordal ∧
    (getMinimalTriangulationUsingLBTriang cycle4 MIN_FILL_LB_TRIANG).Chordal :=
  ⟨ofEdges_wellFormed _ _ (by decide), by decide, by decide, by decide,
    lbTriang_chordal cycle4 (ofEdges_wellFormed _ _ (by decide)) LB_TRIANG,
    lbTriang_chordal cycle4 (ofEdges_wellFormed _ _ (by decide)) MIN_DEGREE_LB_TRIANG,
    lbTriang_chordal cycle4 (ofEdges_wellFormed _ _ (by decide)) MIN_FILL_LB_TRIANG⟩

/-! ## LB-Triang: the selectors are called on non-empty sets -/

theorem lbTriangStateAt_eq_foldl (g : Graph) (heuristic : TriangulationAlgorithm) (i : Nat) :
    lbTriangStateAt g heuristic i =
      (List.range i).foldl (lbTriangStep g heuristic) (g, g.getNodes) := by
  induction i with
  | zero => rfl
  | succ i ih =>
    rw [List.range_succ, List.foldl_append, List.foldl_cons, List.foldl_nil, ← ih]
    rfl

theorem lbTriang_eq_stateAt (g : Graph) (heuristic : TriangulationAlgorithm)
    (h : heuristic ≠ LB_TRIANG) :
    getMinimalTriangulationUsingLBTriang g heuristic =
      (lbTriangStateAt g heuristic g.numberOfNodes).1 := by
  rw [lbTriangStateAt_eq_foldl]
  unfold getMinimalTriangulationUsingLBTriang
  rw [if_neg h]
  rfl

theorem lbTriangStateAt_length (g : Graph) (heuristic : TriangulationAlgorithm)
    (hh : heuristic = MIN_DEGREE_LB_TRIANG ∨ heuristic = MIN_FILL_LB_TRIANG) (i : Nat)
    (hi : i ≤ g.numberOfNodes) :
    (lbTriangStateAt g heuristic i).2.length + i = g.numberOfNodes := by
  induction i with
  | zero => simp [lbTriangStateAt, Graph.getNodes]
  | succ i ih =>
    have h1 := ih (by omega)
    have hne : (lbTriangStateAt g heuristic i).2 ≠ [] := by
      intro hc
      rw [hc] at h1
      simp at h1
      omega
    obtain ⟨v, hv, he⟩ := lbTriangStep_eq g heuristic hh (lbTriangStateAt g heuristic i) i hne
    have h2 := List.length_erase_of_mem hv
    have h3 : 0 < (lbTriangStateAt g heuristic i).2.length := List.length_pos_of_mem hv
    show (lbTriangStep g heuristic (lbTriangStateAt g heuristic i) i).2.length + (i + 1) = _
    rw [he]
    show ((lbTriangStateAt g heuristic i).2.erase v).length + (i + 1) = _
    omega

/-- C11: in the modes `MIN_DEGREE_LB_TRIANG` and `MIN_FILL_LB_TRIANG`, when iteration `i`
(counting from 0, `i < n`) of the loop of `getMinimalTriangulationUsingLBTriang` starts, the
unhandled set has exactly `n - i` elements and so is not empty; the node the selector returns
on it is one of its members, and the iteration passes on the set with that node erased.  The
result of the function is the working graph after `n` iterations. -/
theorem lbTriang_selector_nonempty (g : Graph) (heuristic : TriangulationAlgorithm)
    (hh : heuristic = MIN_DEGREE_LB_TRIANG ∨ heuristic = MIN_FILL_LB_TRIANG) (i : Nat)
    (hi : i < g.numberOfNodes) :
    (lbTriangStateAt g heuristic i).2.length = g.numberOfNodes - i ∧
    (lbTriangStateAt g heuristic i).2 ≠ [] ∧
    (heuristic = MIN_DEGREE_LB_TRIANG →
      getMinDegree (lbTriangStateAt g heuristic i).1 (lbTriangStateAt g heuristic i).2 ∈
          (lbTriangStateAt g heuristic i).2 ∧
        (lbTriangStateAt g heuristic (i + 1)).2 = (lbTriangStateAt g heuristic i).2.erase
          (getMinDegree (lbTriangStateAt g heuristic i).1 (lbTriangStateAt g heuristic i).2)) ∧
    (heuristic = MIN_FILL_LB_TRIANG →
      getMinFill (lbTriangStateAt g heuristic i).1 (lbTriangStateAt g heuristic i).2 ∈
          (lbTriangStateAt g heuristic i).2 ∧
        (lbTriangStateAt g heuristic (i + 1)).2 = (lbTriangStateAt g heuristic i).2.erase
          (getMinFill (lbTriangStateAt g heuristic i).1 (lbTriangStateAt g heuristic i).2)) ∧
    getMinimalTriangulationUsingLBTriang g heuristic =
      (lbTriangStateAt g heuristic g.numberOfNodes).1 := by
  have hlen := lbTriangStateAt_length g heuristic hh i (le_of_lt hi)
  have hne : (lbTriangStateAt g heuristic i).2 ≠ [] := by
    intro hc
    rw [hc] at hlen
    simp at hlen
    omega
  refine ⟨by omega, hne, ?_, ?_, ?_⟩
  · intro h
    subst h
    exact ⟨getMinDegree_mem _ _ hne, by simp [lbTriangStateAt, lbTriangStep]⟩
  · intro h
    subst h
    exact ⟨getMinFill_mem _ _ hne, by simp [lbTriangStateAt, lbTriangStep]⟩
  · apply lbTriang_eq_stateAt
    rcases hh with h | h <;> rw [h] <;> decide

theorem lbTriang_selector_nonempty_witness :
    (lbTriangStateAt cycle4 MIN_FILL_LB_TRIANG 1).2 = [1, 2, 3] ∧
    ((lbTriangStateAt cycle4 MIN_FILL_LB_TRIANG 1).2.length = cycle4.numberOfNodes - 1 ∧
    (lbTriangStateAt cycle4 MIN_FILL_LB_TRIANG 1).2 ≠ [] ∧
    (MIN_FILL_LB_TRIANG = MIN_DEGREE_LB_TRIANG →
      getMinDegree (lbTriangStateAt cycle4 MIN_FILL_LB_TRIANG 1).1
          (lbTriangStateAt cycle4 MIN_FILL_LB_TRIANG 1).2 ∈
          (lbTriangStateAt cycle4 MIN_FILL_LB_TRIANG 1).2 ∧
        (lbTriangStateAt cycle4 MIN_FILL_LB_TRIANG (1 + 1)).2 =
          (lbTriangStateAt cycle4 MIN_FILL_LB_TRIANG 1).2.erase
            (getMinDegree (lbTriangStateAt cycle4 MIN_FILL_LB_TRIANG 1).1
              (lbTriangStateAt cycle4 MIN_FILL_LB_TRIANG 1).2)) ∧
    (MIN_FILL_LB_TRIANG = MIN_FILL_LB_TRIANG →
      getMinFill (lbTriangStateAt cycle4 MIN_FILL_LB_TRIANG 1).1
          (lbTriangStateAt cycle4 MIN_FILL_LB_TRIANG 1).2 ∈
          (lbTriangStateAt cycle4 MIN_FILL_LB_TRIANG 1).2 ∧
        (lbTriangStateAt cycle4 MIN_FILL_LB_TRIANG (1 + 1)).2 =
          (lbTriangStateAt cycle4 MIN_FILL_LB_TRIANG 1).2.erase
            (getMinFill (lbTriangStateAt cycle4 MIN_FILL_LB_TRIANG 1).1
              (lbTriangStateAt cycle4 MIN_FILL_LB_TRIANG 1).2)) ∧
    getMinimalTriangulationUsingLBTriang cycle4 MIN_FILL_LB_TRIANG =
      (lbTriangStateAt cycle4 MIN_FILL_LB_TRIANG cycle4.numberOfNodes).1) :=
  ⟨by decide, lbTriang_selector_nonempty cycle4 MIN_FILL_LB_TRIANG (Or.inr rfl) 1 (by decide)⟩

/-! ## Scenario: the chordless 4-cycle under MCS-M -/

/-- Every node of an induced cycle of length at least 4 has, on the cycle, a neighbour and a
node it is not adjacent to. -/
theorem inducedCycle_mem (g : Graph) (c : List Nat) (hc : g.IsInducedCycle c)
    (hlen : 4 ≤ c.length) (x : Nat) (hx : x ∈ c) :
    (∃ z ∈ c, z ≠ x ∧ (g.adj x z = true ∨ g.adj z x = true)) ∧
      ∃ y ∈ c, y ≠ x ∧ (g.adj x y = false ∨ g.adj y x = false) := by
  obtain ⟨hnd, hadj⟩ := hc
  obtain ⟨i, hi, rfl⟩ : ∃ i, i < c.length ∧ c.getD i 0 = x := by
    obtain ⟨n, hn, he⟩ := List.mem_iff_getElem.1 hx
    exact ⟨n, hn, by rw [List.getD_eq_getElem _ _ hn]; exact he⟩
  have hmem : ∀ j, j < c.length → c.getD j 0 ∈ c := by
    intro j hj
    rw [List.getD_eq_getElem _ _ hj]
    exact List.getElem_mem hj
  constructor
  · by_cases h1 : i + 1 < c.length
    · exact ⟨_, hmem (i + 1) h1, getD_ne_of_nodup c hnd h1 hi (by omega),
        Or.inl ((hadj i (i + 1) (by omega) h1).2 (Or.inl rfl))⟩
    · have e : i - 1 + 1 = i := by omega
      refine ⟨_, hmem (i - 1) (by omega), getD_ne_of_nodup c hnd (by omega) hi (by omega),
        Or.inr ?_⟩
      have := (hadj (i - 1) i (by omega) hi).2 (Or.inl e.symm)
      exact this
  · by_cases h2 : i + 2 < c.length
    · refine ⟨_, hmem (i + 2) h2, getD_ne_of_nodup c hnd h2 hi (by omega), Or.inl ?_⟩
      by_contra hcon
      have := (hadj i (i + 2) (by omega) h2).1 (by simpa using hcon)
      omega
    · refine ⟨_, hmem (i - 2) (by omega), getD_ne_of_nodup c hnd (by omega) hi (by omega),
        Or.inr ?_⟩
      by_contra hcon
      have := (hadj (i - 2) i (by omega) hi).1 (by simpa using hcon)
      omega

theorem mscm_wellFormed (g : Graph) (hg : g.WellFormed) (tie : List Nat) :
    (getMinimalTriangulationUsingMSCM tie g).WellFormed := by
  have hr := mscm_isRun g hg tie
  have hn := (mscm_isSupergraphOf tie g).1
  refine ⟨fun a b hab => ?_, fun a b => ?_, fun a => ?_⟩
  · obtain ⟨ha, hb, _⟩ := (mscm_adj_iff_fillAdj g hg tie a b).1 hab
    rw [hn]
    exact ⟨ha, hb⟩
  · rw [Bool.eq_iff_iff, mscm_adj_iff_fillAdj g hg, mscm_adj_iff_fillAdj g hg]
    exact ⟨fun h => hr.fillAdj_symm h, fun h => hr.fillAdj_symm h⟩
  · by_contra hcon
    obtain ⟨_, _, h | h⟩ := (mscm_adj_iff_fillAdj g hg tie a a).1 (by simpa using hcon)
    · exact absurd h.1 (lt_irrefl _)
    · exact absurd h.1 (lt_irrefl _)

/-- A well-formed graph on four nodes in which node 1 is adjacent to the nodes 0, 2 and 3 is
chordal. -/
theorem chordal_of_universal_one (H : Graph) (hH : H.WellFormed) (hn : H.numberOfNodes = 4)
    (h0 : H.adj 1 0 = true) (h2 : H.adj 1 2 = true) (h3 : H.adj 1 3 = true) : H.Chordal := by
  intro c hlen hc
  have hlt : ∀ x ∈ c, x < 4 := by
    intro x hx
    obtain ⟨⟨z, _, _, hz⟩, _⟩ := inducedCycle_mem H c hc hlen x hx
    rw [← hn]
    rcases hz with hz | hz
    · exact (hH.1 _ _ hz).1
    · exact (hH.1 _ _ hz).2
  have huniv : ∀ y, y < 4 → y ≠ 1 → H.adj 1 y = true ∧ H.adj y 1 = true := by
    intro y hy hy1
    have : H.adj 1 y = true := by
      have : y = 0 ∨ y = 2 ∨ y = 3 := by omega
      rcases this with rfl | rfl | rfl
      · exact h0
      · exact h2
      · exact h3
    exact ⟨this, by rw [hH.2.1]; exact this⟩
  by_cases h1 : 1 ∈ c
  · obtain ⟨_, y, hy, hy1, hna⟩ := inducedCycle_mem H c hc hlen 1 h1
    have := huniv y (hlt y hy) hy1
    rcases hna with h | h
    · rw [this.1] at h
      exact Bool.noConfusion h
    · rw [this.2] at h
      exact Bool.noConfusion h
  · have hsub : c ⊆ [0, 2, 3] := by
      intro x hx
      have h4 := hlt x hx
      have hx1 : x ≠ 1 := fun h => h1 (h ▸ hx)
      have : x = 0 ∨ x = 2 ∨ x = 3 := by omega
      rcases this with rfl | rfl | rfl <;> simp
    have := (List.subperm_of_subset hc.1 hsub).length_le
    simp at this
    omega

theorem edgeList_of_four (H : Graph) (hn : H.numberOfNodes = 4) (b01 b02 b03 b12 b13 b23 : Bool)
    (h01 : H.adj 0 1 = b01) (h02 : H.adj 0 2 = b02) (h03 : H.adj 0 3 = b03)
    (h12 : H.adj 1 2 = b12) (h13 : H.adj 1 3 = b13) (h23 : H.adj 2 3 = b23) :
    H.edgeList =
      (if b01 then [(0, 1)] else []) ++ (if b02 then [(0, 2)] else []) ++
      (if b03 then [(0, 3)] else []) ++ (if b12 then [(1, 2)] else []) ++
      (if b13 then [(1, 3)] else []) ++ (if b23 then [(2, 3)] else []) := by
  unfold Graph.edgeList
  rw [hn]
  have e : List.range 4 = [0, 1, 2, 3] := by decide
  rw [e]
  simp only [List.flatMap_cons, List.flatMap_nil, List.filter_cons, h01, h02, h03, h12, h13,
    h23, List.filter_nil]
  cases b01 <;> cases b02 <;> cases b03 <;> cases b12 <;> cases b13 <;> cases b23 <;> simp

theorem removeEdge_wellFormed (H : Graph) (hH : H.WellFormed) (a b : Nat) :
    (H.removeEdge a b).WellFormed := by
  refine ⟨fun x y hxy => ?_, fun x y => ?_, fun x => ?_⟩
  · exact hH.1 x y ((MCSRun.removeEdge_adj H a b x y).1 hxy).1
  · rw [Bool.eq_iff_iff, MCSRun.removeEdge_adj, MCSRun.removeEdge_adj, hH.2.1 x y]
    exact ⟨fun h => ⟨h.1, fun hc => h.2.2 ⟨hc.2, hc.1⟩, fun hc => h.2.1 ⟨hc.2, hc.1⟩⟩,
      fun h => ⟨h.1, fun hc => h.2.2 ⟨hc.2, hc.1⟩, fun hc => h.2.1 ⟨hc.2, hc.1⟩⟩⟩
  · by_contra hcon
    have := ((MCSRun.removeEdge_adj H a b x x).1 (by simpa using hcon)).1
    rw [hH.2.2 x] at this
    exact Bool.noConfusion this

/-- C12: for the chordless 4-cycle on the nodes 0, 1, 2, 3 and every tie-break of the queue
(every sequence of choices), `getMinimalTriangulationUsingMSCM` returns a well-formed graph on
the same four nodes with exactly 5 edges, the four edges of the cycle and exactly one of the
chords `(0, 2)` and `(1, 3)`, and the result is chordal. -/
theorem mscm_cycle4_one_chord (tie : List Nat) :
    ((getMinimalTriangulationUsingMSCM tie cycle4).edgeList =
        [(0, 1), (0, 2), (0, 3), (1, 2), (2, 3)] ∨
      (getMinimalTriangulationUsingMSCM tie cycle4).edgeList =
        [(0, 1), (0, 3), (1, 2), (1, 3), (2, 3)]) ∧
    (getMinimalTriangulationUsingMSCM tie cycle4).edgeList.length = 5 ∧
    (getMinimalTriangulationUsingMSCM tie cycle4).numberOfNodes = 4 ∧
    (getMinimalTriangulationUsingMSCM tie cycle4).WellFormed ∧
    (getMinimalTriangulationUsingMSCM tie cycle4).Chordal := by
  have hg : cycle4.WellFormed := ofEdges_wellFormed _ _ (by decide)
  have hr := mscm_isRun cycle4 hg tie
  have hsup := mscm_isSupergraphOf tie cycle4
  have hwf := mscm_wellFormed cycle4 hg tie
  have hch : (getMinimalTriangulationUsingMSCM tie cycle4).Chordal :=
    hr.chordal _ (mscm_adj_iff_fillAdj cycle4 hg tie)
  have hmin02 := hr.not_chordal_removeEdge _ (mscm_adj_iff_fillAdj cycle4 hg tie) (a := 0) (b := 2)
  have hiff := mscm_adj_iff_fillAdj cycle4 hg tie
  generalize getMinimalTriangulationUsingMSCM tie cycle4 = R at *
  have hn : R.numberOfNodes = 4 := hsup.1
  have h01 : R.adj 0 1 = true := hsup.2 0 1 (by decide)
  have h03 : R.adj 0 3 = true := hsup.2 0 3 (by decide)
  have h12 : R.adj 1 2 = true := hsup.2 1 2 (by decide)
  have h23 : R.adj 2 3 = true := hsup.2 2 3 (by decide)
  have hlist := edgeList_of_four R hn _ _ _ _ _ _ h01 rfl h03 h12 rfl h23
  have hone : (R.adj 0 2 = true ∧ R.adj 1 3 = false) ∨ (R.adj 0 2 = false ∧ R.adj 1 3 = true) := by
    cases h02 : R.adj 0 2 <;> cases h13 : R.adj 1 3
    · exfalso
      apply hch [0, 1, 2, 3] (by decide)
      refine ⟨by decide, fun i j hij hj => ?_⟩
      have hj4 : j < 4 := hj
      have h10 : R.adj 1 0 = true := by rw [hwf.2.1]; exact h01
      interval_cases j <;> interval_cases i <;> simp [h01, h03, h12, h23, h02, h13]
    · exact Or.inr ⟨rfl, rfl⟩
    · exact Or.inl ⟨rfl, rfl⟩
    · exfalso
      apply hmin02 ((hiff 0 2).1 h02) (show cycle4.adj 0 2 = false by decide)
      apply chordal_of_universal_one _ (removeEdge_wellFormed R hwf 0 2) hn
      · rw [MCSRun.removeEdge_adj]
        exact ⟨by rw [hwf.2.1]; exact h01, by decide, by decide⟩
      · rw [MCSRun.removeEdge_adj]
        exact ⟨h12, by decide, by decide⟩
      · rw [MCSRun.removeEdge_adj]
        exact ⟨h13, by decide, by decide⟩
  refine ⟨?_, ?_, hn, hwf, hch⟩
  · rcases hone with ⟨h02, h13⟩ | ⟨h02, h13⟩
    · left
      rw [hlist, h02, h13]
      rfl
    · right
      rw [hlist, h02, h13]
      rfl
  · rcases hone with ⟨h02, h13⟩ | ⟨h02, h13⟩
    · rw [hlist, h02, h13]
      rfl
    · rw [hlist, h02, h13]
      rfl

/-- Both chords occur: popping node 0 first adds the chord `(1, 3)`, popping node 1 first adds
the chord `(0, 2)`. -/
theorem mscm_cycle4_both_chords :
    (getMinimalTriangulationUsingMSCM [] cycle4).edgeList =
        [(0, 1), (0, 3), (1, 2), (1, 3), (2, 3)] ∧
      (getMinimalTriangulationUsingMSCM [1] cycle4).edgeList =
        [(0, 1), (0, 2), (0, 3), (1, 2), (2, 3)] := by
  constructor <;> decide

/-! ## Scenarios: complete graphs and stars -/

/-- On a chordal well-formed input MCS-M adds no edge. -/
theorem mscm_adj_eq_of_chordal (g : Graph) (hg : g.WellFormed) (hch : g.Chordal)
    (tie : List Nat) (a b : Nat) :
    (getMinimalTriangulationUsingMSCM tie g).adj a b = g.adj a b := by
  have hr := mscm_isRun g hg tie
  rw [Bool.eq_iff_iff]
  constructor
  · intro h
    obtain ⟨ha, hb, h1 | h1⟩ := (mscm_adj_iff_fillAdj g hg tie a b).1 h
    · have := hr.adj_of_S_of_chordal g (fun _ _ => rfl) hch _ (hr.v_pos a ha).1 b h1.2
      rw [(hr.v_pos a ha).2] at this
      exact this
    · have := hr.adj_of_S_of_chordal g (fun _ _ => rfl) hch _ (hr.v_pos b hb).1 a h1.2
      rw [(hr.v_pos b hb).2] at this
      rw [hg.2.1]
      exact this
  · exact (mscm_isSupergraphOf tie g).2 a b

/-- The result of LB-Triang satisfies the invariant of its loop. -/
theorem lbTriang_exists_inv (g : Graph) (hg : g.WellFormed)
    (heuristic : TriangulationAlgorithm) :
    ∃ seps proc, LBInv g (getMinimalTriangulationUsingLBTriang g heuristic) seps proc := by
  unfold getMinimalTriangulationUsingLBTriang
  simp only [Graph.getNumberOfNodes]
  by_cases h0 : heuristic = LB_TRIANG
  · rw [if_pos h0]
    obtain ⟨seps, hinv⟩ := lbTriang_identity_inv g hg g.numberOfNodes (le_refl _)
    exact ⟨seps, _, hinv⟩
  · rw [if_neg h0]
    by_cases hh : heuristic = MIN_DEGREE_LB_TRIANG ∨ heuristic = MIN_FILL_LB_TRIANG
    · obtain ⟨seps, hinv, _⟩ :=
        lbTriang_heuristic_inv g hg heuristic hh g.numberOfNodes (le_refl _)
      exact ⟨seps, _, hinv⟩
    · rw [not_or] at hh
      rw [lbTriangStep_fold_identity g heuristic hh.1 hh.2]
      obtain ⟨seps, hinv⟩ := lbTriang_identity_inv g hg g.numberOfNodes (le_refl _)
      exact ⟨seps, _, hinv⟩

theorem completeGraph_adj (k a b : Nat) :
    (completeGraph k).adj a b = true ↔ a < k ∧ b < k ∧ a ≠ b := by
  simp [completeGraph, and_assoc]

theorem completeGraph_wellFormed (k : Nat) : (completeGraph k).WellFormed := by
  refine ⟨fun a b h => ?_, fun a b => ?_, fun a => ?_⟩
  · rw [completeGraph_adj] at h
    exact ⟨h.1, h.2.1⟩
  · rw [Bool.eq_iff_iff, completeGraph_adj, completeGraph_adj]
    exact ⟨fun h => ⟨h.2.1, h.1, fun e => h.2.2 e.symm⟩,
      fun h => ⟨h.2.1, h.1, fun e => h.2.2 e.symm⟩⟩
  · by_contra hcon
    have := (completeGraph_adj k a a).1 (by simpa using hcon)
    exact this.2.2 rfl

theorem completeGraph_chordal (k : Nat) : (completeGraph k).Chordal := by
  intro c hlen hc
  have hwf := completeGraph_wellFormed k
  have hlt : ∀ x ∈ c, x < k := by
    intro x hx
    obtain ⟨⟨z, _, _, hz⟩, _⟩ := inducedCycle_mem _ c hc hlen x hx
    rcases hz with hz | hz
    · exact (hwf.1 _ _ hz).1
    · exact (hwf.1 _ _ hz).2
  obtain ⟨x, hx⟩ := List.exists_mem_of_length_pos (show 0 < c.length by omega)
  obtain ⟨_, y, hy, hyx, hna⟩ := inducedCycle_mem _ c hc hlen x hx
  have h1 : (completeGraph k).adj x y = true :=
    (completeGraph_adj k x y).2 ⟨hlt x hx, hlt y hy, fun e => hyx e.symm⟩
  have h2 : (completeGraph k).adj y x = true :=
    (completeGraph_adj k y x).2 ⟨hlt y hy, hlt x hx, hyx⟩
  rcases hna with h | h
  · rw [h1] at h
    exact Bool.noConfusion h
  · rw [h2] at h
    exact Bool.noConfusion h

/-- C13: for every `k` and each of the four heuristic modes (and every tie-break of the queue
of MCS-M), `MinimalTriangulator::triangulate` applied to the complete graph on the nodes
`0 .. k-1` returns a graph on the same nodes with exactly the same edges. -/
theorem triangulate_complete (k : Nat) (t : MinimalTriangulator) (tie : List Nat) :
    (t.triangulate tie (completeGraph k)).numberOfNodes = (completeGraph k).numberOfNodes ∧
      ∀ a b, (t.triangulate tie (completeGraph k)).adj a b = (completeGraph k).adj a b := by
  have hwf := completeGraph_wellFormed k
  unfold MinimalTriangulator.triangulate
  by_cases hm : t.heuristic = MCS_M
  · rw [if_pos hm]
    exact ⟨(mscm_isSupergraphOf tie _).1,
      mscm_adj_eq_of_chordal _ hwf (completeGraph_chordal k) tie⟩
  · rw [if_neg hm]
    obtain ⟨seps, proc, hinv⟩ := lbTriang_exists_inv _ hwf t.heuristic
    refine ⟨hinv.n_eq, fun a b => ?_⟩
    rw [Bool.eq_iff_iff, hinv.adj_iff]
    constructor
    · rintro (h | ⟨hne, s, hs, ha, hb⟩)
      · exact h
      · exact (completeGraph_adj k a b).2 ⟨hinv.sep_lt s hs a ha, hinv.sep_lt s hs b hb, hne⟩
    · exact Or.inl

theorem starGraph_adj (k a b : Nat) :
    (starGraph k).adj a b = true ↔ (a = 0 ∧ 0 < b ∧ b ≤ k) ∨ (b = 0 ∧ 0 < a ∧ a ≤ k) := by
  simp [starGraph, and_assoc]

theorem starGraph_wellFormed (k : Nat) : (starGraph k).WellFormed := by
  refine ⟨fun a b h => ?_, fun a b => ?_, fun a => ?_⟩
  · rw [starGraph_adj] at h
    show a < k + 1 ∧ b < k + 1
    omega
  · rw [Bool.eq_iff_iff, starGraph_adj, starGraph_adj]
    exact ⟨Or.symm, Or.symm⟩
  · by_contra hcon
    have := (starGraph_adj k a a).1 (by simpa using hcon)
    omega

theorem starGraph_chordal (k : Nat) : (starGraph k).Chordal := by
  intro c hlen hc
  have hwf := starGraph_wellFormed k
  have hlt : ∀ x ∈ c, x < k + 1 := by
    intro x hx
    obtain ⟨⟨z, _, _, hz⟩, _⟩ := inducedCycle_mem _ c hc hlen x hx
    rcases hz with hz | hz
    · exact (hwf.1 _ _ hz).1
    · exact (hwf.1 _ _ hz).2
  by_cases h0 : 0 ∈ c
  · obtain ⟨_, y, hy, hy0, hna⟩ := inducedCycle_mem _ c hc hlen 0 h0
    have hyk := hlt y hy
    have h1 : (starGraph k).adj 0 y = true := (starGraph_adj k 0 y).2 (Or.inl (by omega))
    have h2 : (starGraph k).adj y 0 = true := (starGraph_adj k y 0).2 (Or.inr (by omega))
    rcases hna with h | h
    · rw [h1] at h
      exact Bool.noConfusion h
    · rw [h2] at h
      exact Bool.noConfusion h
  · obtain ⟨x, hx⟩ := List.exists_mem_of_length_pos (show 0 < c.length by omega)
    obtain ⟨⟨z, hz, _, hadj⟩, _⟩ := inducedCycle_mem _ c hc hlen x hx
    have hx0 : x ≠ 0 := fun e => h0 (e ▸ hx)
    have hz0 : z ≠ 0 := fun e => h0 (e ▸ hz)
    rcases hadj with h | h
    · have := (starGraph_adj k x z).1 h
      omega
    · have := (starGraph_adj k z x).1 h
      omega

/-- C14: for every `k` and each of the four heuristic modes (and every tie-break of the queue
of MCS-M), `MinimalTriangulator::triangulate` applied to the star with centre 0 and leaves
`1 .. k` returns a graph on the same nodes with exactly the same edges. -/
theorem triangulate_star (k : Nat) (t : MinimalTriangulator) (tie : List Nat) :
    (t.triangulate tie (starGraph k)).numberOfNodes = (starGraph k).numberOfNodes ∧
      ∀ a b, (t.triangulate tie (starGraph k)).adj a b = (starGraph k).adj a b := by
  have hwf := starGraph_wellFormed k
  unfold MinimalTriangulator.triangulate
  by_cases hm : t.heuristic = MCS_M
  · rw [if_pos hm]
    exact ⟨(mscm_isSupergraphOf tie _).1, mscm_adj_eq_of_chordal _ hwf (starGraph_chordal k) tie⟩
  · rw [if_neg hm]
    obtain ⟨seps, proc, hinv⟩ := lbTriang_exists_inv _ hwf t.heuristic
    refine ⟨hinv.n_eq, fun a b => ?_⟩
    rw [Bool.eq_iff_iff, hinv.adj_iff]
    constructor
    · rintro (h | ⟨hne, s, hs, ha, hb⟩)
      · exact h
      · exfalso
        obtain ⟨α, β, hα, hβ, hαβ⟩ := hinv.full s hs
        by_cases h0 : 0 ∈ s
        · obtain ⟨m, hm, hm0⟩ : ∃ m ∈ s, m ≠ 0 := by
            by_cases ha0 : a = 0
            · exact ⟨b, hb, fun e => hne (ha0.trans e.symm)⟩
            · exact ⟨a, ha, ha0⟩
          obtain ⟨c, hc, hconn⟩ := hα.2 m hm
          have := (starGraph_adj k c m).1 hc
          have hc0 : c = 0 := by omega
          rw [hc0] at hconn
          exact hconn.2.1.2 h0
        · have key : ∀ x, (starGraph k).Kept s x → (starGraph k).Conn s x 0 := by
            intro x hx
            have hk0 : (starGraph k).Kept s 0 := ⟨Nat.succ_pos k, h0⟩
            by_cases hx0 : x = 0
            · rw [hx0]
              exact Graph.Conn.refl hk0
            · have hxk : x < k + 1 := hx.1
              exact Graph.Conn.edge hx hk0 ((starGraph_adj k x 0).2 (Or.inr (by omega)))
          exact hαβ ((key α hα.1).trans ((key β hβ.1).symm hwf.2.1))
    · exact Or.inl

/-! ## Scenario: two disjoint 4-cycles -/

/-- C15: for the graph made of two disjoint chordless 4-cycles on the nodes 0, 1, 2, 3 and
4, 5, 6, 7, and for each heuristic mode (the queue of MCS-M popping the candidate of smallest
id), the result of `MinimalTriangulator::triangulate` has no edge between the two cycles, and
the edges it adds inside each cycle are exactly the edges the same mode adds to that cycle
taken alone, with its nodes renumbered to 0, 1, 2, 3 in increasing order (which makes either
cycle the graph `cycle4`). -/
theorem triangulate_twoCycles_independent (mode : TriangulationAlgorithm) :
    (∀ a < 4, ∀ b < 4,
      ((MinimalTriangulator.mk mode).triangulate [] twoCycles).adj a (b + 4) = false ∧
      ((MinimalTriangulator.mk mode).triangulate [] twoCycles).adj (a + 4) b = false) ∧
    (∀ a < 4, ∀ b < 4,
      (((MinimalTriangulator.mk mode).triangulate [] twoCycles).adj a b &&
          !twoCycles.adj a b) =
        (((MinimalTriangulator.mk mode).triangulate [] cycle4).adj a b && !cycle4.adj a b)) ∧
    (∀ a < 4, ∀ b < 4,
      (((MinimalTriangulator.mk mode).triangulate [] twoCycles).adj (a + 4) (b + 4) &&
          !twoCycles.adj (a + 4) (b + 4)) =
        (((MinimalTriangulator.mk mode).triangulate [] cycle4).adj a b && !cycle4.adj a b)) ∧
    ((MinimalTriangulator.mk mode).triangulate [] twoCycles).edgeList =
      [(0, 1), (0, 3), (1, 2), (1, 3), (2, 3), (4, 5), (4, 7), (5, 6), (5, 7), (6, 7)] ∧
    ((MinimalTriangulator.mk mode).triangulate [] cycle4).edgeList =
      [(0, 1), (0, 3), (1, 2), (1, 3), (2, 3)] := by
  cases mode <;> decide

/-- The same under the rule that pops the candidate of largest id (the choice 839 selects the
last candidate, 840 being a multiple of every possible number of candidates): MCS-M then adds
the chord `(0, 2)` to a 4-cycle alone and the chords `(0, 2)` and `(4, 6)` to the two
cycles. -/
theorem mscm_twoCycles_largest_id :
    (getMinimalTriangulationUsingMSCM (List.replicate 8 839) twoCycles).edgeList =
      [(0, 1), (0, 2), (0, 3), (1, 2), (2, 3), (4, 5), (4, 6), (4, 7), (5, 6), (6, 7)] ∧
    (getMinimalTriangulationUsingMSCM (List.replicate 8 839) cycle4).edgeList =
      [(0, 1), (0, 2), (0, 3), (1, 2), (2, 3)] := by
  decide

/-! ## MCS-M: the order of extraction from a bucket does not matter -/

theorem SearchInv.pop_at {g : Graph} {w : Nat → Nat} {h : Nat → Bool} {v m : Nat}
    {pendSeed : Nat → Prop} {st : ReachState} (i : Nat)
    (hinv : SearchInv g w h v m pendSeed (fun _ _ => False) st)
    (hi : i < (st.reachedByMaxWeight.getD m []).length) :
    SearchInv g w h v m pendSeed
      (fun a b => a = (st.reachedByMaxWeight.getD m []).getD i 0 ∧
        b ∈ g.getNeighbors ((st.reachedByMaxWeight.getD m []).getD i 0))
      { st with
        reachedByMaxWeight := st.reachedByMaxWeight.modify (fun l => l.eraseIdx i) m } := by
  have hxmem : (st.reachedByMaxWeight.getD m []).getD i 0 ∈ st.reachedByMaxWeight.getD m [] := by
    rw [List.getD_eq_getElem _ _ hi]
    exact List.getElem_mem hi
  generalize hx : (st.reachedByMaxWeight.getD m []).getD i 0 = x at hxmem ⊢
  have hsub : ∀ j a, a ∈ (st.reachedByMaxWeight.modify (fun l => l.eraseIdx i) m).getD j [] →
      a ∈ st.reachedByMaxWeight.getD j [] := by
    intro j a ha
    rw [getD_modify] at ha
    split at ha
    · exact List.mem_of_mem_eraseIdx ha
    · exact ha
  refine ⟨?_, hinv.nodup, hinv.upd_reached, hinv.reached_ok, hinv.seeds, hinv.upd_sound,
    hinv.upd_or_low, ?_, ?_, hinv.complete⟩
  · simp only [List.length_modify]
    exact hinv.len
  · intro j a ha
    exact hinv.bucket_mem j a (hsub j a ha)
  · intro a ha
    by_cases hax : a = x
    · right
      rw [hax]
      refine ⟨(hinv.bucket_mem m x hxmem).2.1, fun u hu hadj _ => Or.inr ⟨rfl, ?_⟩⟩
      exact (mem_getNeighbors g x u).2 ⟨hu, hadj⟩
    · rcases hinv.processed a ha with ⟨j, hj⟩ | ⟨h1, h2⟩
      · left
        refine ⟨j, ?_⟩
        show a ∈ (st.reachedByMaxWeight.modify (fun l => l.eraseIdx i) m).getD j []
        rw [getD_modify]
        split
        · rename_i hjm
          rw [hjm.1] at hj ⊢
          obtain ⟨k, hk, hka⟩ := List.mem_iff_getElem.1 hj
          refine List.mem_eraseIdx_iff_getElem.2 ⟨k, hk, ?_, hka⟩
          intro hki
          apply hax
          rw [← hka, ← hx, List.getD_eq_getElem _ _ hi]
          subst hki
          rfl
        · exact hj
      · refine Or.inr ⟨h1, fun u hu hadj hhu => ?_⟩
        rcases h2 u hu hadj hhu with h3 | h3
        · exact Or.inl h3
        · exact absurd h3 id

theorem sum_length_modify_eraseIdx (l : List (List Nat)) (m i : Nat)
    (h : i < (l.getD m []).length) :
    ((l.modify (fun b => b.eraseIdx i) m).map List.length).sum + 1 =
      (l.map List.length).sum := by
  induction l generalizing m with
  | nil => simp at h
  | cons b l ih =>
    cases m with
    | zero =>
      simp only [List.getD_cons_zero] at h
      simp only [List.modify_zero_cons, List.map_cons, List.sum_cons]
      have := List.length_eraseIdx_add_one h
      omega
    | succ m =>
      simp only [List.getD_cons_succ] at h
      simp only [List.modify_succ_cons, List.map_cons, List.sum_cons]
      have := ih m h
      omega

theorem searchMeasure_pop_at (g : Graph) (h : Nat → Bool) (st : ReachState) (m i : Nat)
    (hi : i < (st.reachedByMaxWeight.getD m []).length) :
    searchMeasure g h
        { st with
          reachedByMaxWeight := st.reachedByMaxWeight.modify (fun l => l.eraseIdx i) m } + 1 =
      searchMeasure g h st := by
  unfold searchMeasure
  have := sum_length_modify_eraseIdx st.reachedByMaxWeight m i hi
  simp only
  omega

theorem SearchInv.drain_with (pick : Nat → Nat → List Nat → Nat) {g : Graph}
    {q : IncreasingWeightNodeQueue} {h : Nat → Bool} {v m : Nat} {pendSeed : Nat → Prop}
    (hwt : ∀ a, a < g.numberOfNodes → h a = false → q.weight a < g.numberOfNodes)
    (hm : m < g.numberOfNodes) (fuel : Nat) (st : ReachState)
    (hinv : SearchInv g q.weight h v m pendSeed (fun _ _ => False) st)
    (hfuel : searchMeasure g h st ≤ fuel) :
    SearchInv g q.weight h v m pendSeed (fun _ _ => False)
        (drainBucketWith pick g q h m fuel st) ∧
      (drainBucketWith pick g q h m fuel st).reachedByMaxWeight.getD m [] = [] ∧
      searchMeasure g h (drainBucketWith pick g q h m fuel st) ≤ searchMeasure g h st := by
  induction fuel generalizing st with
  | zero =>
    refine ⟨hinv, ?_, le_refl _⟩
    apply getD_eq_nil_of_sum_length
    unfold searchMeasure at hfuel
    show (st.reachedByMaxWeight.map List.length).sum = 0
    omega
  | succ fuel ih =>
    unfold drainBucketWith
    split
    · rename_i hnil
      exact ⟨hinv, hnil, le_refl _⟩
    · rename_i b bs hcons
      have hi : pick m fuel (b :: bs) % (b :: bs).length <
          (st.reachedByMaxWeight.getD m []).length := by
        rw [hcons]
        exact Nat.mod_lt _ (Nat.succ_pos _)
      generalize pick m fuel (b :: bs) % (b :: bs).length = i at hi ⊢
      rw [← hcons]
      have hpop := hinv.pop_at i hi
      have hmeas := searchMeasure_pop_at g h st m i hi
      have hxmem : (st.reachedByMaxWeight.getD m []).getD i 0 ∈
          st.reachedByMaxWeight.getD m [] := by
        rw [List.getD_eq_getElem _ _ hi]
        exact List.getElem_mem hi
      generalize (st.reachedByMaxWeight.getD m []).getD i 0 = x at hpop hxmem ⊢
      obtain ⟨b1, b2, _, _, b5⟩ := hinv.bucket_mem m x hxmem
      have hl : ∀ u ∈ g.getNeighbors x, u < g.numberOfNodes ∧ g.adj x u = true :=
        fun u hu => (mem_getNeighbors g x u).1 hu
      have hfold := SearchInv.fold_visit hwt hm b2 (hinv.reached_ok x b1) b5
        (g.getNeighbors x) hl _ hpop
      have hmeas2 := searchMeasure_foldl_visitNeighbor g q h m (g.getNeighbors x)
        (fun u hu => (hl u hu).1)
        { st with
          reachedByMaxWeight := st.reachedByMaxWeight.modify (fun l => l.eraseIdx i) m }
      obtain ⟨c1, c2, c3⟩ := ih _ hfold (by omega)
      exact ⟨c1, c2, by omega⟩

theorem SearchInv.levels_with (pick : Nat → Nat → List Nat → Nat) {g : Graph}
    {q : IncreasingWeightNodeQueue} {h : Nat → Bool} {v : Nat}
    (hwt : ∀ a, a < g.numberOfNodes → h a = false → q.weight a < g.numberOfNodes)
    (st : ReachState)
    (hinv : SearchInv g q.weight h v 0 (fun _ => False) (fun _ _ => False) st)
    (hmeas : searchMeasure g h st ≤ g.numberOfNodes) (k : Nat) (hk : k ≤ g.numberOfNodes) :
    SearchInv g q.weight h v k (fun _ => False) (fun _ _ => False)
        ((List.range k).foldl (fun st m => drainBucketWith pick g q h m g.numberOfNodes st) st) ∧
      searchMeasure g h
        ((List.range k).foldl (fun st m => drainBucketWith pick g q h m g.numberOfNodes st) st) ≤
        g.numberOfNodes := by
  induction k with
  | zero => exact ⟨hinv, hmeas⟩
  | succ k ih =>
    obtain ⟨h1, h2⟩ := ih (by omega)
    rw [List.range_succ, List.foldl_append]
    simp only [List.foldl_cons, List.foldl_nil]
    obtain ⟨c1, c2, c3⟩ := SearchInv.drain_with pick hwt (show k < g.numberOfNodes by omega)
      g.numberOfNodes _ h1 h2
    exact ⟨c1.next_level c2, by omega⟩

/-- Whatever the order of extraction, the search collects, without repetition, exactly the
nodes of the reference set. -/
theorem findNodesToUpdateWith_spec (pick : Nat → Nat → List Nat → Nat) (g : Graph)
    (q : IncreasingWeightNodeQueue) (h : Nat → Bool) (v : Nat)
    (hwt : ∀ a, a < g.numberOfNodes → h a = false → q.weight a < g.numberOfNodes) :
    (findNodesToUpdateWith pick g q h v).nodesToUpdate.Nodup ∧
      ∀ u, u ∈ (findNodesToUpdateWith pick g q h v).nodesToUpdate ↔
        ReachTarget g q.weight h v u := by
  have hstart := SearchInv.start g q.weight h v
  have hmeas0 : searchMeasure g h ⟨[], fun _ => false, List.replicate g.getNumberOfNodes []⟩ ≤
      g.numberOfNodes := by
    unfold searchMeasure
    have h1 : ((List.replicate g.getNumberOfNodes ([] : List Nat)).map List.length).sum = 0 := by
      simp
    have h2 := List.countP_le_length (fun u => !h u && !(fun _ => false) u)
      (l := List.range g.numberOfNodes)
    rw [List.length_range] at h2
    simp only at h1 h2 ⊢
    omega
  obtain ⟨c1, c2⟩ := SearchInv.fold_seed hwt (g.getNeighbors v)
    (fun u hu => (mem_getNeighbors g v u).1 hu) (nodup_getNeighbors g v) _ (fun _ _ => rfl) hstart
  obtain ⟨d1, _⟩ := SearchInv.levels_with pick hwt _ c1 (le_trans c2 hmeas0) g.numberOfNodes
    (le_refl _)
  refine ⟨d1.nodup, fun u => ⟨d1.upd_sound u, fun hu => ?_⟩⟩
  obtain ⟨hun, hhu, x, hx, hw⟩ := hu
  rcases d1.complete u hun hhu ⟨x, hx,
    hw.mono (fun a ha => ⟨ha.1, ha.2.1, ha.2.2, hwt a ha.1 ha.2.1⟩)⟩ with h1 | h1
  · exact h1
  · exact absurd h1 id

theorem modify_congr_getD (f f' : List Nat → List Nat) (l : List (List Nat)) (m : Nat)
    (h : f (l.getD m []) = f' (l.getD m [])) : l.modify f m = l.modify f' m := by
  induction l generalizing m with
  | nil => simp
  | cons b l ih =>
    cases m with
    | zero =>
      simp only [List.getD_cons_zero] at h
      simp only [List.modify_zero_cons, h]
    | succ m =>
      simp only [List.getD_cons_succ] at h
      simp only [List.modify_succ_cons, ih m h]

/-- Drawing the last node of the bucket is what the source does. -/
theorem drainBucketWith_last (g : Graph) (q : IncreasingWeightNodeQueue) (h : Nat → Bool)
    (m fuel : Nat) (st : ReachState) :
    drainBucketWith (fun _ _ bucket => bucket.length - 1) g q h m fuel st =
      drainBucket g q h m fuel st := by
  induction fuel generalizing st with
  | zero => rfl
  | succ fuel ih =>
    unfold drainBucketWith drainBucket
    cases hb : st.reachedByMaxWeight.getD m [] with
    | nil => rfl
    | cons b bs =>
      have hlen : (b :: bs).length - 1 < (b :: bs).length := by
        simp only [List.length_cons]
        omega
      have hmod : ((b :: bs).length - 1) % (b :: bs).length = (b :: bs).length - 1 :=
        Nat.mod_eq_of_lt hlen
      have hlast : (b :: bs).getLast? = some ((b :: bs).getD ((b :: bs).length - 1) 0) := by
        rw [List.getLast?_eq_getElem?, List.getD_eq_getElem?_getD, List.getElem?_eq_getElem hlen]
        rfl
      have hdrop : (b :: bs).eraseIdx ((b :: bs).length - 1) = (b :: bs).dropLast :=
        (List.dropLast_eq_eraseIdx (by simp only [List.length_cons]; omega)).symm
      have hmodify : st.reachedByMaxWeight.modify
          (fun l => l.eraseIdx ((b :: bs).length - 1)) m =
          st.reachedByMaxWeight.modify List.dropLast m := by
        apply modify_congr_getD
        rw [hb]
        exact hdrop
      simp only [hmod, hlast, hmodify]
      exact ih _

theorem findNodesToUpdateWith_last (g : Graph) (q : IncreasingWeightNodeQueue) (h : Nat → Bool)
    (v : Nat) :
    findNodesToUpdateWith (fun _ _ bucket => bucket.length - 1) g q h v =
      findNodesToUpdate g q h v := by
  unfold findNodesToUpdateWith findNodesToUpdate
  congr 1
  funext st m
  exact drainBucketWith_last g q h m _ st

/-- C16: in one outer iteration of `getMinimalTriangulationUsingMSCM` (popped node `v`,
handled flags and weights fixed, the weights of the unhandled nodes being less than `n`), let
the nodes be extracted from the buckets in any order `pick`, the buckets still being processed
in increasing weight order.  Extracting the last node each time is the search of the source;
whatever the order, the list `nodesToUpdate` has no duplicates and has exactly the same members
as the list the source collects. -/
theorem findNodesToUpdate_any_order (pick : Nat → Nat → List Nat → Nat) (g : Graph)
    (q : IncreasingWeightNodeQueue) (handled : Nat → Bool) (v : Nat)
    (hwt : ∀ a, a < g.numberOfNodes → handled a = false → q.getWeight a < g.numberOfNodes) :
    findNodesToUpdateWith (fun _ _ bucket => bucket.length - 1) g q handled v =
      findNodesToUpdate g q handled v ∧
    (findNodesToUpdateWith pick g q handled v).nodesToUpdate.Nodup ∧
    ∀ u, u ∈ (findNodesToUpdateWith pick g q handled v).nodesToUpdate ↔
      u ∈ (findNodesToUpdate g q handled v).nodesToUpdate := by
  obtain ⟨h1, h2⟩ := findNodesToUpdateWith_spec pick g q handled v hwt
  obtain ⟨_, h3⟩ := findNodesToUpdate_spec g q handled v hwt
  exact ⟨findNodesToUpdateWith_last g q handled v, h1, fun u => (h2 u).trans (h3 u).symm⟩

theorem findNodesToUpdate_any_order_witness :
    (∀ a, a < (Graph.ofEdges 5 [(0, 1), (0, 2), (1, 3), (2, 4)]).numberOfNodes →
      (fun x => x == 0) a = false →
      (IncreasingWeightNodeQueue.mk 5 (fun x => if x == 3 || x == 4 then 1 else 0)
        (fun x => x == 0)).getWeight a <
        (Graph.ofEdges 5 [(0, 1), (0, 2), (1, 3), (2, 4)]).numberOfNodes) ∧
    (findNodesToUpdateWith (fun _ _ _ => 0) (Graph.ofEdges 5 [(0, 1), (0, 2), (1, 3), (2, 4)])
        (IncreasingWeightNodeQueue.mk 5 (fun x => if x == 3 || x == 4 then 1 else 0)
          (fun x => x == 0)) (fun x => x == 0) 0).nodesToUpdate = [1, 2, 3, 4] ∧
    (findNodesToUpdate (Graph.ofEdges 5 [(0, 1), (0, 2), (1, 3), (2, 4)])
        (IncreasingWeightNodeQueue.mk 5 (fun x => if x == 3 || x == 4 then 1 else 0)
          (fun x => x == 0)) (fun x => x == 0) 0).nodesToUpdate = [1, 2, 4, 3] ∧
    (findNodesToUpdateWith (fun _ _ bucket => bucket.length - 1)
        (Graph.ofEdges 5 [(0, 1), (0, 2), (1, 3), (2, 4)])
        (IncreasingWeightNodeQueue.mk 5 (fun x => if x == 3 || x == 4 then 1 else 0)
          (fun x => x == 0)) (fun x => x == 0) 0 =
      findNodesToUpdate (Graph.ofEdges 5 [(0, 1), (0, 2), (1, 3), (2, 4)])
        (IncreasingWeightNodeQueue.mk 5 (fun x => if x == 3 || x == 4 then 1 else 0)
          (fun x => x == 0)) (fun x => x == 0) 0 ∧
    (findNodesToUpdateWith (fun _ _ _ => 0) (Graph.ofEdges 5 [(0, 1), (0, 2), (1, 3), (2, 4)])
        (IncreasingWeightNodeQueue.mk 5 (fun x => if x == 3 || x == 4 then 1 else 0)
          (fun x => x == 0)) (fun x => x == 0) 0).nodesToUpdate.Nodup ∧
    ∀ u, u ∈ (findNodesToUpdateWith (fun _ _ _ => 0)
        (Graph.ofEdges 5 [(0, 1), (0, 2), (1, 3), (2, 4)])
        (IncreasingWeightNodeQueue.mk 5 (fun x => if x == 3 || x == 4 then 1 else 0)
          (fun x => x == 0)) (fun x => x == 0) 0).nodesToUpdate ↔
      u ∈ (findNodesToUpdate (Graph.ofEdges 5 [(0, 1), (0, 2), (1, 3), (2, 4)])
        (IncreasingWeightNodeQueue.mk 5 (fun x => if x == 3 || x == 4 then 1 else 0)
          (fun x => x == 0)) (fun x => x == 0) 0).nodesToUpdate) :=
  have hwt : ∀ a, a < (Graph.ofEdges 5 [(0, 1), (0, 2), (1, 3), (2, 4)]).numberOfNodes →
      (fun x => x == 0) a = false →
      (IncreasingWeightNodeQueue.mk 5 (fun x => if x == 3 || x == 4 then 1 else 0)
        (fun x => x == 0)).getWeight a <
        (Graph.ofEdges 5 [(0, 1), (0, 2), (1, 3), (2, 4)]).numberOfNodes := by
    intro a _ _
    show (if (a == 3 || a == 4) = true then 1 else 0) < 5
    split <;> decide
  ⟨hwt, by decide, by decide, findNodesToUpdate_any_order (fun _ _ _ => 0) _ _ _ 0 hwt⟩

/-! ## MCS-M: the collected nodes and the weights -/

theorem mscmStateAt_succ_eq (g : Graph) (tie : List Nat) (t : Nat) :
    (mscmStateAt g tie (t + 1)).triangulation =
        (updateNodes (mscmPopped g tie t) (mscmNodesToUpdate g tie t)
          (mscmStateAt g tie t).triangulation
          ((mscmStateAt g tie t).queue.pop (tie.getD t 0)).2).1 ∧
      (mscmStateAt g tie (t + 1)).queue =
        (updateNodes (mscmPopped g tie t) (mscmNodesToUpdate g tie t)
          (mscmStateAt g tie t).triangulation
          ((mscmStateAt g tie t).queue.pop (tie.getD t 0)).2).2 ∧
      (mscmStateAt g tie (t + 1)).handled =
        fun x => x == mscmPopped g tie t || (mscmStateAt g tie t).handled x :=
  ⟨rfl, rfl, rfl⟩

/-- C17: in every outer iteration `t < n` of `getMinimalTriangulationUsingMSCM`, with popped
node `v`, the list `nodesToUpdate` (the one the update loop of the iteration then walks) has
no duplicates, and its members are exactly the nodes of the MCS-M reference set: the unhandled
nodes `u ≠ v` joined to a neighbour `x` of `v` by a walk of `g` from `x` to `u` whose nodes
before `u` are unhandled, different from `v` and of current weight strictly less than the
weight of `u` (the walk is `u` alone when `u` is a neighbour of `v`). -/
theorem mscm_nodesToUpdate_reference (g : Graph) (tie : List Nat) (t : Nat)
    (ht : t < g.numberOfNodes) :
    (mscmNodesToUpdate g tie t).Nodup ∧
    (∀ u, u ∈ mscmNodesToUpdate g tie t ↔
      u < g.numberOfNodes ∧ u ≠ mscmPopped g tie t ∧
        (mscmStateAt g tie t).handled u = false ∧
        ∃ x, g.adj (mscmPopped g tie t) x = true ∧
          Walk g.adj (fun a => a < g.numberOfNodes ∧ a ≠ mscmPopped g tie t ∧
            (mscmStateAt g tie t).handled a = false ∧
            (mscmStateAt g tie t).queue.getWeight a <
              (mscmStateAt g tie t).queue.getWeight u) x u) ∧
    (mscmStateAt g tie (t + 1)).triangulation =
      (updateNodes (mscmPopped g tie t) (mscmNodesToUpdate g tie t)
        (mscmStateAt g tie t).triangulation
        ((mscmStateAt g tie t).queue.pop (tie.getD t 0)).2).1 := by
  obtain ⟨h1, h2⟩ := (mscmStateAt_inv g tie t (le_of_lt ht)).search_spec ht (tie.getD t 0)
  refine ⟨h1, fun u => ?_, rfl⟩
  have hflag : ∀ a, ((a == mscmPopped g tie t || (mscmStateAt g tie t).handled a) = false) ↔
      (a ≠ mscmPopped g tie t ∧ (mscmStateAt g tie t).handled a = false) := by
    intro a
    simp
  refine (h2 u).trans ?_
  unfold ReachTarget
  constructor
  · rintro ⟨hu, hh, x, hx, hw⟩
    have := (hflag u).1 hh
    exact ⟨hu, this.1, this.2, x, hx,
      hw.mono (fun a ha => ⟨ha.1, ((hflag a).1 ha.2.1).1, ((hflag a).1 ha.2.1).2, ha.2.2⟩)⟩
  · rintro ⟨hu, hne, hh, x, hx, hw⟩
    exact ⟨hu, (hflag u).2 ⟨hne, hh⟩, x, hx,
      hw.mono (fun a ha => ⟨ha.1, (hflag a).2 ⟨ha.2.1, ha.2.2.1⟩, ha.2.2.2⟩)⟩

theorem mscm_nodesToUpdate_reference_witness :
    1 < cycle4.numberOfNodes ∧ mscmPopped cycle4 [] 1 = 1 ∧
    mscmNodesToUpdate cycle4 [] 1 = [2, 3] ∧
    ((mscmNodesToUpdate cycle4 [] 1).Nodup ∧
    (∀ u, u ∈ mscmNodesToUpdate cycle4 [] 1 ↔
      u < cycle4.numberOfNodes ∧ u ≠ mscmPopped cycle4 [] 1 ∧
        (mscmStateAt cycle4 [] 1).handled u = false ∧
        ∃ x, cycle4.adj (mscmPopped cycle4 [] 1) x = true ∧
          Walk cycle4.adj (fun a => a < cycle4.numberOfNodes ∧ a ≠ mscmPopped cycle4 [] 1 ∧
            (mscmStateAt cycle4 [] 1).handled a = false ∧
            (mscmStateAt cycle4 [] 1).queue.getWeight a <
              (mscmStateAt cycle4 [] 1).queue.getWeight u) x u) ∧
    (mscmStateAt cycle4 [] (1 + 1)).triangulation =
      (updateNodes (mscmPopped cycle4 [] 1) (mscmNodesToUpdate cycle4 [] 1)
        (mscmStateAt cycle4 [] 1).triangulation
        ((mscmStateAt cycle4 [] 1).queue.pop (([] : List Nat).getD 1 0)).2).1) :=
  ⟨by decide, by decide, by decide, mscm_nodesToUpdate_reference cycle4 [] 1 (by decide)⟩

theorem countP_add_countP_not (p : Nat → Bool) (l : List Nat) :
    l.countP p + l.countP (fun x => !p x) = l.length := by
  induction l with
  | nil => rfl
  | cons a l ih =>
    rw [List.countP_cons, List.countP_cons, List.length_cons]
    cases p a <;> simp <;> omega

/-- C18: when `t ≤ n` iterations of the outer loop of `getMinimalTriangulationUsingMSCM` are
complete, exactly `t` nodes are popped and every weight is at most `t`; a node not yet popped
then has weight at most `n - 1`.  During iteration `t < n` every weight stays at most `t + 1`,
the number of nodes popped by then, at every point of the update loop (after any number `k` of
its steps), and `t + 1 ≤ n - 1` as long as a node remains that is not popped; the bucket
indices `getWeight(u)` and `max(getWeight(u), maxWeight)`, `maxWeight < n`, used by the search
are less than `n`, the number of buckets. -/
theorem mscm_weight_bound (g : Graph) (tie : List Nat) (t : Nat) (ht : t ≤ g.numberOfNodes) :
    (List.range g.numberOfNodes).countP (fun x => (mscmStateAt g tie t).handled x) = t ∧
    (∀ x, (mscmStateAt g tie t).queue.getWeight x ≤ t) ∧
    (∀ x, x < g.numberOfNodes → (mscmStateAt g tie t).handled x = false →
      (mscmStateAt g tie t).queue.getWeight x ≤ g.numberOfNodes - 1) ∧
    (t < g.numberOfNodes →
      (∀ k x, (updateNodes (mscmPopped g tie t) ((mscmNodesToUpdate g tie t).take k)
          (mscmStateAt g tie t).triangulation
          ((mscmStateAt g tie t).queue.pop (tie.getD t 0)).2).2.getWeight x ≤ t + 1 ∧
        (x < g.numberOfNodes → x ≠ mscmPopped g tie t →
          (mscmStateAt g tie t).handled x = false → t + 1 ≤ g.numberOfNodes - 1)) ∧
      (∀ u maxWeight, maxWeight < g.numberOfNodes →
        ((mscmStateAt g tie t).queue.pop (tie.getD t 0)).2.getWeight u < g.numberOfNodes ∧
        max (((mscmStateAt g tie t).queue.pop (tie.getD t 0)).2.getWeight u) maxWeight <
          (List.replicate g.getNumberOfNodes ([] : List Nat)).length)) := by
  have hinv := mscmStateAt_inv g tie t ht
  have hcount := hinv.count
  have hsum := countP_add_countP_not (fun x => (mscmStateAt g tie t).handled x)
    (List.range g.numberOfNodes)
  rw [List.length_range] at hsum
  refine ⟨by omega, hinv.weight_le, fun x hx hh => ?_,
    fun htn => ⟨fun k x => ⟨?_, fun hx hxv hh => ?_⟩, fun u m hm => ?_⟩⟩
  · have hpos : 0 < (List.range g.numberOfNodes).countP
        (fun x => !(mscmStateAt g tie t).handled x) :=
      List.countP_pos_iff.2 ⟨x, List.mem_range.2 hx, by simp [hh]⟩
    have := hinv.weight_le x
    show (mscmStateAt g tie t).queue.weight x ≤ g.numberOfNodes - 1
    omega
  · have hnd : ((mscmNodesToUpdate g tie t).take k).Nodup :=
      (hinv.search_spec htn (tie.getD t 0)).1.sublist (List.take_sublist k _)
    have h1 := (updateNodes_queue (mscmPopped g tie t) ((mscmNodesToUpdate g tie t).take k)
      (mscmStateAt g tie t).triangulation
      ((mscmStateAt g tie t).queue.pop (tie.getD t 0)).2).2.2 x
    have h2 := List.nodup_iff_count_le_one.1 hnd x
    have h3 := hinv.weight_le x
    show (updateNodes _ _ _ _).2.weight x ≤ t + 1
    rw [h1]
    show (mscmStateAt g tie t).queue.weight x + _ ≤ t + 1
    omega
  · have hnext := (mscmStateAt_inv g tie (t + 1) (by omega)).count
    have hpos : 0 < (List.range g.numberOfNodes).countP
        (fun x => !(mscmStateAt g tie (t + 1)).handled x) := by
      refine List.countP_pos_iff.2 ⟨x, List.mem_range.2 hx, ?_⟩
      rw [mscmStateAt_handled_succ]
      simp [hxv, hh]
    omega
  · have h3 := hinv.weight_le u
    have h4 : ((mscmStateAt g tie t).queue.pop (tie.getD t 0)).2.getWeight u =
        (mscmStateAt g tie t).queue.weight u := rfl
    rw [h4, List.length_replicate]
    show _ ∧ _ < g.numberOfNodes
    omega

theorem mscm_weight_bound_witness :
    2 ≤ cycle4.numberOfNodes ∧
    ((List.range cycle4.numberOfNodes).countP (fun x => (mscmStateAt cycle4 [] 2).handled x) = 2 ∧
    (∀ x, (mscmStateAt cycle4 [] 2).queue.getWeight x ≤ 2) ∧
    (∀ x, x < cycle4.numberOfNodes → (mscmStateAt cycle4 [] 2).handled x = false →
      (mscmStateAt cycle4 [] 2).queue.getWeight x ≤ cycle4.numberOfNodes - 1) ∧
    (2 < cycle4.numberOfNodes →
      (∀ k x, (updateNodes (mscmPopped cycle4 [] 2) ((mscmNodesToUpdate cycle4 [] 2).take k)
          (mscmStateAt cycle4 [] 2).triangulation
          ((mscmStateAt cycle4 [] 2).queue.pop (([] : List Nat).getD 2 0)).2).2.getWeight x ≤
            2 + 1 ∧
        (x < cycle4.numberOfNodes → x ≠ mscmPopped cycle4 [] 2 →
          (mscmStateAt cycle4 [] 2).handled x = false → 2 + 1 ≤ cycle4.numberOfNodes - 1)) ∧
      (∀ u maxWeight, maxWeight < cycle4.numberOfNodes →
        ((mscmStateAt cycle4 [] 2).queue.pop (([] : List Nat).getD 2 0)).2.getWeight u <
          cycle4.numberOfNodes ∧
        max (((mscmStateAt cycle4 [] 2).queue.pop (([] : List Nat).getD 2 0)).2.getWeight u)
            maxWeight <
          (List.replicate cycle4.getNumberOfNodes ([] : List Nat)).length))) :=
  ⟨by decide, mscm_weight_bound cycle4 [] 2 (by decide)⟩

theorem countP_range_update (n v : Nat) (hv : v < n) (p p' : Nat → Bool) (hp : p v = false)
    (hne : ∀ x, x ≠ v → p' x = p x) :
    (List.range n).countP p' = (List.range n).countP p + (if p' v = true then 1 else 0) := by
  induction n with
  | zero => exact absurd hv (Nat.not_lt_zero v)
  | succ n ih =>
    rw [List.range_succ, List.countP_append, List.countP_append, List.countP_singleton,
      List.countP_singleton]
    by_cases hvn : v = n
    · have hsame : (List.range n).countP p' = (List.range n).countP p := by
        apply List.countP_congr
        intro x hx
        have : x ≠ v := by
          have := List.mem_range.1 hx
          omega
        rw [hne x this]
      rw [hsame, ← hvn, hp]
      simp
    · have := ih (by omega)
      rw [this, hne n (fun e => hvn e.symm)]
      omega

/-- The invariant of the outer loop of MCS-M that relates weights and the triangulation
built so far: edges between unhandled nodes are edges of the input, and the weight of an
unhandled node counts its handled neighbours. -/
theorem mscm_weight_inv (g : Graph) (hg : g.Symmetric) (tie : List Nat) (t : Nat)
    (ht : t ≤ g.numberOfNodes) :
    (∀ a b, (mscmStateAt g tie t).triangulation.adj a b = true →
      (mscmStateAt g tie t).handled a = false → (mscmStateAt g tie t).handled b = false →
      g.adj a b = true) ∧
    ∀ u, u < g.numberOfNodes → (mscmStateAt g tie t).handled u = false →
      (mscmStateAt g tie t).queue.weight u =
        (List.range g.numberOfNodes).countP (fun x =>
          (mscmStateAt g tie t).handled x && (mscmStateAt g tie t).triangulation.adj u x) := by
  induction t with
  | zero =>
    refine ⟨fun a b hab _ _ => hab, fun u _ _ => ?_⟩
    show 0 = _
    symm
    rw [List.countP_eq_zero]
    intro x _
    simp [mscmStateAt, mscmInit]
  | succ t ih =>
    have htn : t < g.numberOfNodes := by omega
    obtain ⟨ihB, ihW⟩ := ih (le_of_lt htn)
    have hinv := mscmStateAt_inv g tie t (le_of_lt htn)
    obtain ⟨hvn, hvh, _⟩ := hinv.pop_unhandled_max htn (tie.getD t 0)
    have hspec := (hinv.search_spec htn (tie.getD t 0)).2
    have hwt := mscmIteration_weight hinv htn (tie.getD t 0)
    have hadj : ∀ a b, (mscmStateAt g tie (t + 1)).triangulation.adj a b = true ↔
        (mscmStateAt g tie t).triangulation.adj a b = true ∨
          (a ∈ mscmNodesToUpdate g tie t ∧ b = mscmPopped g tie t) ∨
          (a = mscmPopped g tie t ∧ b ∈ mscmNodesToUpdate g tie t) :=
      (updateNodes_graph (mscmPopped g tie t) (mscmNodesToUpdate g tie t)
        (mscmStateAt g tie t).triangulation
        ((mscmStateAt g tie t).queue.pop (tie.getD t 0)).2).2
    have hflag : ∀ a, (mscmStateAt g tie (t + 1)).handled a = false ↔
        (a ≠ mscmPopped g tie t ∧ (mscmStateAt g tie t).handled a = false) := by
      intro a
      rw [mscmStateAt_handled_succ]
      simp
    constructor
    · intro a b hab ha hb
      rw [hflag] at ha hb
      rcases (hadj a b).1 hab with h | ⟨_, h⟩ | ⟨h, _⟩
      · exact ihB a b h ha.2 hb.2
      · exact absurd h hb.1
      · exact absurd h ha.1
    · intro u hu hhu
      obtain ⟨huv, huh⟩ := (hflag u).1 hhu
      have hmem : u ∈ mscmNodesToUpdate g tie t ↔
          (mscmStateAt g tie (t + 1)).triangulation.adj u (mscmPopped g tie t) = true := by
        rw [hadj]
        constructor
        · exact fun h => Or.inr (Or.inl ⟨h, rfl⟩)
        · rintro (h | ⟨h, _⟩ | ⟨h, _⟩)
          · have h1 := ihB _ _ h huh hvh
            rw [hg] at h1
            exact (hspec u).2 ⟨hu, hhu, u, h1, Walk.refl u⟩
          · exact h
          · exact absurd h huv
      have hcnt := countP_range_update g.numberOfNodes (mscmPopped g tie t) hvn
        (fun x => (mscmStateAt g tie t).handled x && (mscmStateAt g tie t).triangulation.adj u x)
        (fun x => (mscmStateAt g tie (t + 1)).handled x &&
          (mscmStateAt g tie (t + 1)).triangulation.adj u x)
        (by
          show ((mscmStateAt g tie t).handled (mscmPopped g tie t) && _) = false
          rw [show (mscmStateAt g tie t).handled (mscmPopped g tie t) = false from hvh]
          rfl)
        (by
          intro x hx
          show ((mscmStateAt g tie (t + 1)).handled x &&
            (mscmStateAt g tie (t + 1)).triangulation.adj u x) =
            ((mscmStateAt g tie t).handled x && (mscmStateAt g tie t).triangulation.adj u x)
          have h1 : (mscmStateAt g tie (t + 1)).handled x = (mscmStateAt g tie t).handled x := by
            rw [mscmStateAt_handled_succ]
            simp [hx]
          have h2 : (mscmStateAt g tie (t + 1)).triangulation.adj u x =
              (mscmStateAt g tie t).triangulation.adj u x := by
            rw [Bool.eq_iff_iff, hadj]
            constructor
            · rintro (h | ⟨_, h⟩ | ⟨h, _⟩)
              · exact h
              · exact absurd h hx
              · exact absurd h huv
            · exact Or.inl
          rw [h1, h2])
      rw [hcnt]
      have hw := hwt u
      have hw' : (mscmStateAt g tie (t + 1)).queue.weight u =
          (mscmStateAt g tie t).queue.weight u +
            (if (mscmNodesToUpdate g tie t).contains u = true then 1 else 0) := hw
      rw [hw', ihW u hu huh]
      have hpop : (mscmStateAt g tie (t + 1)).handled (mscmPopped g tie t) = true := by
        rw [mscmStateAt_handled_succ]
        simp
      congr 1
      by_cases hm : u ∈ mscmNodesToUpdate g tie t
      · have h1 := hmem.1 hm
        have h2 : (mscmNodesToUpdate g tie t).contains u = true := (contains_iff_mem _ _).2 hm
        simp [h1, h2, hpop, hm]
      · have h1 : (mscmStateAt g tie (t + 1)).triangulation.adj u (mscmPopped g tie t) = false := by
          by_contra hc
          exact hm (hmem.2 (by simpa using hc))
        have h2 : (mscmNodesToUpdate g tie t).contains u = false := by
          by_contra hc
          exact hm ((contains_iff_mem _ _).1 (by simpa using hc))
        simp [h1, h2, hm]

/-- C19: for every input graph with symmetric adjacency, after each complete outer iteration
of `getMinimalTriangulationUsingMSCM` (after `t ≤ n` iterations), the queue weight of every
node `u` not yet popped equals the number of popped (handled) nodes adjacent to `u` in the
current triangulation. -/
theorem mscm_weight_eq_handled_neighbors (g : Graph) (hg : g.Symmetric) (tie : List Nat)
    (t : Nat) (ht : t ≤ g.numberOfNodes) (u : Nat) (hu : u < g.numberOfNodes)
    (hun : (mscmStateAt g tie t).handled u = false) :
    (mscmStateAt g tie t).queue.getWeight u =
      (List.range g.numberOfNodes).countP (fun x =>
        (mscmStateAt g tie t).handled x && (mscmStateAt g tie t).triangulation.adj u x) :=
  (mscm_weight_inv g hg tie t ht).2 u hu hun

theorem mscm_weight_eq_handled_neighbors_witness :
    cycle4.Symmetric ∧ 2 ≤ cycle4.numberOfNodes ∧ 3 < cycle4.numberOfNodes ∧
    (mscmStateAt cycle4 [] 2).handled 3 = false ∧
    (List.range cycle4.numberOfNodes).filter (fun x => (mscmStateAt cycle4 [] 2).handled x) =
      [0, 1] ∧
    (mscmStateAt cycle4 [] 2).queue.getWeight 3 = 2 ∧
    (mscmStateAt cycle4 [] 2).queue.getWeight 3 =
      (List.range cycle4.numberOfNodes).countP (fun x =>
        (mscmStateAt cycle4 [] 2).handled x && (mscmStateAt cycle4 [] 2).triangulation.adj 3 x) :=
  ⟨ofEdges_symmetric _ _, by decide, by decide, by decide, by decide, by decide,
    mscm_weight_eq_handled_neighbors cycle4 (ofEdges_symmetric _ _) [] 2 (by decide) 3
      (by decide) (by decide)⟩

/-! ## Repeating `makeNodeLBSimplicial` -/

theorem getNeighbors_makeNodeLBSimplicial (g w : Graph) (hsym : g.Symmetric)
    (hw : w.IsSupergraphOf g) (v : Nat) :
    (makeNodeLBSimplicial g w v).getNeighbors v = w.getNeighbors v := by
  unfold Graph.getNeighbors
  show (List.range w.numberOfNodes).filter _ = _
  apply List.filter_congr
  intro y _
  rw [Bool.eq_iff_iff, makeNodeLBSimplicial_adj]
  constructor
  · rintro (h | ⟨_, s, hs, hv, _⟩)
    · exact h
    · exact absurd hv (getSubstars_sets_core g w hsym hw v s hs).2.2
  · exact Or.inl

theorem getSubstars_congr (g w w' : Graph) (v : Nat)
    (h : w'.getNeighbors v = w.getNeighbors v) : getSubstars g w' v = getSubstars g w v := by
  unfold getSubstars
  rw [h]

theorem saturateNodeSets_twice (w : Graph) (sets : List (List Nat)) :
    (w.saturateNodeSets sets).saturateNodeSets sets = w.saturateNodeSets sets := by
  unfold Graph.saturateNodeSets
  congr 1
  funext a b
  simp only [Bool.or_assoc, Bool.or_self]

/-- C20: for every graph `g` with symmetric adjacency, every working graph `w` on the same
nodes that contains every edge of `g`, and every node `v`: applying `makeNodeLBSimplicial` for
`v` to `w` leaves the neighbour set of `v` in `w` unchanged, so a second application marks the
same node sets, and applying it twice in a row yields the same working graph as applying it
once. -/
theorem makeNodeLBSimplicial_twice (g w : Graph) (hsym : g.Symmetric)
    (hw : w.IsSupergraphOf g) (v : Nat) :
    (makeNodeLBSimplicial g w v).getNeighbors v = w.getNeighbors v ∧
    getSubstars g (makeNodeLBSimplicial g w v) v = getSubstars g w v ∧
    makeNodeLBSimplicial g (makeNodeLBSimplicial g w v) v = makeNodeLBSimplicial g w v := by
  have h1 := getNeighbors_makeNodeLBSimplicial g w hsym hw v
  have h2 := getSubstars_congr g w (makeNodeLBSimplicial g w v) v h1
  refine ⟨h1, h2, ?_⟩
  show (getSubstars g (makeNodeLBSimplicial g w v) v).saturate (makeNodeLBSimplicial g w v) = _
  rw [h2]
  exact saturateNodeSets_twice w _

theorem makeNodeLBSimplicial_twice_witness :
    cycle4.Symmetric ∧ cycle4.IsSupergraphOf cycle4 ∧
    (makeNodeLBSimplicial cycle4 cycle4 0).edgeList =
      [(0, 1), (0, 3), (1, 2), (1, 3), (2, 3)] ∧
    ((makeNodeLBSimplicial cycle4 cycle4 0).getNeighbors 0 = cycle4.getNeighbors 0 ∧
    getSubstars cycle4 (makeNodeLBSimplicial cycle4 cycle4 0) 0 = getSubstars cycle4 cycle4 0 ∧
    makeNodeLBSimplicial cycle4 (makeNodeLBSimplicial cycle4 cycle4 0) 0 =
      makeNodeLBSimplicial cycle4 cycle4 0) :=
  ⟨ofEdges_symmetric _ _, isSupergraphOf_refl _, by decide,
    makeNodeLBSimplicial_twice cycle4 cycle4 (ofEdges_symmetric _ _) (isSupergraphOf_refl _) 0⟩

/-! ## LB-Triang: the marked sets are minimal separators -/

/-- Under the invariant of the loop of LB-Triang, every node set that `getSubstars` marks for a
node `x` is a minimal separator of the input graph. -/
theorem LBInv.marked_minimal_separator {g h : Graph} {seps : List (List Nat)}
    {proc : Nat → Prop} (hinv : LBInv g h seps proc) {x : Nat} (hx : x < g.numberOfNodes)
    (s : List Nat) (hs : s ∈ (getSubstars g h x).toSaturate) : g.IsMinimalSeparator s := by
  obtain ⟨c0, hc0, rfl⟩ := mem_getSubstars_closed g h x s hs
  have hsym := hinv.g_wf.2.1
  have hfull := getNeighborsOfSet_componentOf_full g _ c0 hc0
  have hself := hinv.star_full_self hx hc0
  have hnot := hinv.star_not_conn hc0
  have hc0mem : c0 ∈ g.componentOf (h.closedNeighbors x) c0 :=
    (mem_componentOf_conn g _ c0 hc0 c0).2 (Graph.Conn.refl hc0)
  generalize hS : g.getNeighborsOfSet (g.componentOf (h.closedNeighbors x) c0) = S at *
  have hkx : g.Kept S x := hself.1
  refine ⟨g.componentOf (h.closedNeighbors x) c0, g.componentOf S x, hfull,
    componentOf_isComponent g S x hkx, ⟨c0, hc0mem, ?_⟩, hS, ?_⟩
  · intro hmem
    rw [mem_componentOf_conn g S x hkx] at hmem
    exact hnot (hmem.symm hsym)
  · apply getNeighborsOfSet_congr g _ S _ hS.symm
    intro u
    constructor
    · intro hu
      rw [mem_getNeighborsOfSet] at hu
      obtain ⟨hun, huD, y, hy, hadj⟩ := hu
      by_contra huS
      apply huD
      rw [mem_componentOf_conn g S x hkx] at hy ⊢
      exact hy.trans (Graph.Conn.edge hy.2.1 ⟨hun, huS⟩ hadj)
    · intro hu
      obtain ⟨c, hcu, hconn⟩ := hself.2 u hu
      rw [mem_getNeighborsOfSet]
      have hun : u < g.numberOfNodes := by
        rw [← hS] at hu
        exact ((mem_getNeighborsOfSet g _ u).1 hu).1
      refine ⟨hun, ?_, c, (mem_componentOf_conn g S x hkx c).2 hconn, hcu⟩
      intro huD
      rw [mem_componentOf_conn g S x hkx] at huD
      exact huD.2.1.2 hu

/-- Every working graph of the loop of LB-Triang satisfies the invariant of the loop. -/
theorem lbTriangResultAt_inv (g : Graph) (hg : g.WellFormed)
    (heuristic : TriangulationAlgorithm) (i : Nat) (hi : i ≤ g.numberOfNodes) :
    ∃ seps proc, LBInv g (lbTriangResultAt g heuristic i) seps proc := by
  unfold lbTriangResultAt
  by_cases h0 : heuristic = LB_TRIANG
  · rw [if_pos h0]
    obtain ⟨seps, hinv⟩ := lbTriang_identity_inv g hg i hi
    exact ⟨seps, _, hinv⟩
  · rw [if_neg h0, lbTriangStateAt_eq_foldl]
    by_cases hh : heuristic = MIN_DEGREE_LB_TRIANG ∨ heuristic = MIN_FILL_LB_TRIANG
    · obtain ⟨seps, hinv, _⟩ := lbTriang_heuristic_inv g hg heuristic hh i hi
      exact ⟨seps, _, hinv⟩
    · rw [not_or] at hh
      rw [lbTriangStep_fold_identity g heuristic hh.1 hh.2]
      obtain ⟨seps, hinv⟩ := lbTriang_identity_inv g hg i hi
      exact ⟨seps, _, hinv⟩

theorem lbTriangResultAt_succ (g : Graph) (heuristic : TriangulationAlgorithm) (i : Nat) :
    lbTriangResultAt g heuristic (i + 1) =
      makeNodeLBSimplicial g (lbTriangResultAt g heuristic i) (lbTriangNodeAt g heuristic i) := by
  unfold lbTriangResultAt lbTriangNodeAt
  by_cases h0 : heuristic = LB_TRIANG
  · subst h0
    simp only [if_true]
    rw [List.range_succ, List.foldl_append, List.foldl_cons, List.foldl_nil]
    simp
  · rw [if_neg h0, if_neg h0]
    rfl

theorem lbTriang_eq_resultAt (g : Graph) (heuristic : TriangulationAlgorithm) :
    getMinimalTriangulationUsingLBTriang g heuristic =
      lbTriangResultAt g heuristic g.numberOfNodes := by
  unfold lbTriangResultAt
  by_cases h0 : heuristic = LB_TRIANG
  · rw [if_pos h0]
    unfold getMinimalTriangulationUsingLBTriang
    rw [if_pos h0]
    rfl
  · rw [if_neg h0]
    exact lbTriang_eq_stateAt g heuristic h0

theorem lbTriangNodeAt_lt (g : Graph) (heuristic : TriangulationAlgorithm) (i : Nat)
    (hi : i < g.numberOfNodes) : lbTriangNodeAt g heuristic i < g.numberOfNodes := by
  have hmem : ∀ u ∈ (lbTriangStateAt g heuristic i).2, u < g.numberOfNodes := by
    intro u
    induction i with
    | zero =>
      intro hu
      exact List.mem_range.1 hu
    | succ i ih =>
      intro hu
      exact ih (by omega) (List.mem_of_mem_erase hu)
  unfold lbTriangNodeAt
  by_cases h1 : heuristic = MIN_DEGREE_LB_TRIANG
  · rw [if_pos h1]
    have hlen := lbTriangStateAt_length g heuristic (Or.inl h1) i (le_of_lt hi)
    apply hmem
    apply getMinDegree_mem
    intro hc
    rw [hc] at hlen
    simp at hlen
    omega
  · rw [if_neg h1]
    by_cases h2 : heuristic = MIN_FILL_LB_TRIANG
    · rw [if_pos h2]
      have hlen := lbTriangStateAt_length g heuristic (Or.inr h2) i (le_of_lt hi)
      apply hmem
      apply getMinFill_mem
      intro hc
      rw [hc] at hlen
      simp at hlen
      omega
    · rw [if_neg h2]
      exact hi

/-- C9: for every well-formed graph `g`, every heuristic mode and every iteration `i < n` of
the loop of `getMinimalTriangulationUsingLBTriang`, with `w` the working graph the iteration
passes to `makeNodeLBSimplicial` (it contains every edge of `g`): for every node `v` of `g`, in
particular for the node the iteration passes, each node set marked for saturation by
`getSubstars g w v` is a minimal separator of `g`, that is, `g` with the set removed has at
least two connected components whose neighbour set in `g` is exactly the set.  These are the
only calls of `getSubstars`: the iteration replaces `w` by `makeNodeLBSimplicial g w v` for its
node `v`, a node of `g`, and the function returns the working graph after `n` iterations. -/
theorem lbTriang_getSubstars_minimal_separator (g : Graph) (hg : g.WellFormed)
    (heuristic : TriangulationAlgorithm) (i : Nat) (hi : i < g.numberOfNodes) :
    (lbTriangResultAt g heuristic i).IsSupergraphOf g ∧
    (∀ v, v < g.numberOfNodes → ∀ s ∈ (getSubstars g (lbTriangResultAt g heuristic i) v).toSaturate,
      g.IsMinimalSeparator s) ∧
    lbTriangNodeAt g heuristic i < g.numberOfNodes ∧
    lbTriangResultAt g heuristic 0 = g ∧
    lbTriangResultAt g heuristic (i + 1) =
      makeNodeLBSimplicial g (lbTriangResultAt g heuristic i) (lbTriangNodeAt g heuristic i) ∧
    getMinimalTriangulationUsingLBTriang g heuristic =
      lbTriangResultAt g heuristic g.numberOfNodes := by
  obtain ⟨seps, proc, hinv⟩ := lbTriangResultAt_inv g hg heuristic i (le_of_lt hi)
  refine ⟨hinv.isSupergraphOf, fun v hv s hs => hinv.marked_minimal_separator hv s hs,
    lbTriangNodeAt_lt g heuristic i hi, ?_, lbTriangResultAt_succ g heuristic i,
    lbTriang_eq_resultAt g heuristic⟩
  unfold lbTriangResultAt
  split <;> rfl

theorem lbTriang_getSubstars_minimal_separator_witness :
    cycle5.WellFormed ∧ 1 < cycle5.numberOfNodes ∧
    (lbTriangResultAt cycle5 LB_TRIANG 1).edgeList =
      [(0, 1), (0, 4), (1, 2), (1, 4), (2, 3), (3, 4)] ∧
    (getSubstars cycle5 (lbTriangResultAt cycle5 LB_TRIANG 1) 1).toSaturate = [[2, 4]] ∧
    ((lbTriangResultAt cycle5 LB_TRIANG 1).IsSupergraphOf cycle5 ∧
    (∀ v, v < cycle5.numberOfNodes →
      ∀ s ∈ (getSubstars cycle5 (lbTriangResultAt cycle5 LB_TRIANG 1) v).toSaturate,
        cycle5.IsMinimalSeparator s) ∧
    lbTriangNodeAt cycle5 LB_TRIANG 1 < cycle5.numberOfNodes ∧
    lbTriangResultAt cycle5 LB_TRIANG 0 = cycle5 ∧
    lbTriangResultAt cycle5 LB_TRIANG (1 + 1) =
      makeNodeLBSimplicial cycle5 (lbTriangResultAt cycle5 LB_TRIANG 1)
        (lbTriangNodeAt cycle5 LB_TRIANG 1) ∧
    getMinimalTriangulationUsingLBTriang cycle5 LB_TRIANG =
      lbTriangResultAt cycle5 LB_TRIANG cycle5.numberOfNodes) :=
  ⟨ofEdges_wellFormed _ _ (by decide), by decide, by decide, by decide,
    lbTriang_getSubstars_minimal_separator cycle5 (ofEdges_wellFormed _ _ (by decide))
      LB_TRIANG 1 (by decide)⟩

/-! ## `getFill` beyond the range of `int` -/

theorem starGraph_getNeighbors_centre (k : Nat) :
    (starGraph k).getNeighbors 0 = (List.range k).map (fun x => x + 1) := by
  unfold Graph.getNeighbors
  show (List.range (k + 1)).filter (fun u => (starGraph k).adj 0 u) = _
  rw [List.range_succ_eq_map, List.filter_cons]
  have h0 : (starGraph k).adj 0 0 = false := (starGraph_wellFormed k).2.2 0
  rw [h0]
  simp only [Bool.false_eq_true, if_false]
  rw [List.filter_map]
  congr 1
  apply List.filter_eq_self.2
  intro x hx
  have := List.mem_range.1 hx
  exact (starGraph_adj k 0 (x + 1)).2 (Or.inl ⟨rfl, Nat.succ_pos x, by omega⟩)

/-- The leaves of a star are pairwise non-adjacent: twice the number of non-adjacent pairs of
neighbours of the centre is `k * (k - 1)`. -/
theorem starGraph_twice_pairs (k : Nat) :
    2 * ((starGraph k).nonAdjacentPairs ((starGraph k).getNeighbors 0)).length = k * (k - 1) := by
  rw [← twice_fill_eq (starGraph k) (starGraph_wellFormed k).2.1]
  have hlen : ((starGraph k).getNeighbors 0).length = k := by
    rw [starGraph_getNeighbors_centre]
    simp
  have hterm : ∀ it ∈ (starGraph k).getNeighbors 0,
      ((starGraph k).getNeighbors 0).countP (fun x => x != it && !(starGraph k).adj it x) =
        k - 1 := by
    intro it hit
    have hleaf : ∀ x ∈ (starGraph k).getNeighbors 0, x ≠ 0 := by
      intro x hx
      have := (starGraph_adj k 0 x).1 ((mem_getNeighbors _ 0 x).1 hx).2
      omega
    have h1 : ((starGraph k).getNeighbors 0).countP
        (fun x => x != it && !(starGraph k).adj it x) =
        ((starGraph k).getNeighbors 0).countP (fun x => x != it && (fun _ => true) x) := by
      apply List.countP_congr
      intro x hx
      have hx0 := hleaf x hx
      have hit0 := hleaf it hit
      have : (starGraph k).adj it x = false := by
        by_contra hc
        have := (starGraph_adj k it x).1 (by simpa using hc)
        omega
      simp [this]
    have h2 := countP_remove_self _ it (fun _ => true) (nodup_getNeighbors (starGraph k) 0) hit rfl
    rw [h1]
    have h3 : ((starGraph k).getNeighbors 0).countP (fun _ => true) = k := by
      rw [List.countP_true, hlen]
    omega
  rw [List.map_congr_left hterm]
  simp [hlen]

/-- C5 (the code at a failing input): the star with centre 0 and 46342 leaves is a graph with
symmetric, irreflexive adjacency; the neighbours of its centre form 1073767311 unordered pairs
of distinct nodes, none adjacent; the accumulator of `getFill` reaches
`46342 * 46341 = 2147534622`, more than `INT_MAX`, wraps, and `getFill` returns `-1073716337`,
not the number of pairs. -/
theorem getFill_star_overflow :
    (starGraph 46342).Symmetric ∧ (starGraph 46342).Irreflexive ∧
    ((starGraph 46342).nonAdjacentPairs ((starGraph 46342).getNeighbors 0)).length =
      1073767311 ∧
    getFill (starGraph 46342) 0 = -1073716337 ∧
    getFill (starGraph 46342) 0 ≠
      (((starGraph 46342).nonAdjacentPairs ((starGraph 46342).getNeighbors 0)).length : Int) := by
  have hwf := starGraph_wellFormed 46342
  have hpairs : ((starGraph 46342).nonAdjacentPairs
      ((starGraph 46342).getNeighbors 0)).length = 1073767311 := by
    have := starGraph_twice_pairs 46342
    omega
  have hfill : getFill (starGraph 46342) 0 = -1073716337 := by
    rw [getFill_eq_wrap _ hwf.2.1 hwf.2.2, hpairs]
    decide
  refine ⟨hwf.2.1, hwf.2.2, hpairs, hfill, ?_⟩
  rw [hfill, hpairs]
  decide

end tdenum
